import Mathlib

/-! # Fibonacci heap (`fiboHeap.go`, `node/node.go`)

A shallow embedding of the pointer program.  Nodes, node lists and heaps live
in one `Store`; a pointer is an `Option Nat` (`none` is `nil`).  The store is
kept field by field: `s.Value n` is the field `Value` of the node at address
`n`.  The `Children` pointer of a node and the `trees` pointer of a heap are
set once at construction and never reassigned, so the list object they point
to is addressed by a `ListRef`.

Key values are `float64` in the source.  The program only compares keys, so a
finite key is modelled by its place in the order, an integer; negative infinity,
positive infinity and `NaN` are keys of their own.  `<` and `<=` on keys are the
`float64` comparisons: they are false when an operand is `NaN`.  The Go `int`
counters are unbounded integers here (they count allocated nodes and cannot
overflow).
-/

namespace FiboHeap

/-! ## Keys -/

/-- A key value, a `float64`: negative infinity, a finite value, positive infinity, or
`NaN`.  The program only compares keys, so a finite value is modelled by an integer, its
place in the order. -/
inductive Val where
  | negInf : Val
  | fin (x : Int) : Val
  | posInf : Val
  | nan : Val
  deriving DecidableEq

/-- The `float64` comparison `a <= b`: false as soon as an operand is `NaN`. -/
def Val.le : Val → Val → Prop
  | .nan, _ => False
  | _, .nan => False
  | .negInf, _ => True
  | .fin _, .negInf => False
  | .fin x, .fin y => x ≤ y
  | .fin _, .posInf => True
  | .posInf, .posInf => True
  | .posInf, _ => False

/-- The `float64` comparison `a < b`: false as soon as an operand is `NaN`. -/
def Val.lt : Val → Val → Prop
  | .nan, _ => False
  | _, .nan => False
  | .negInf, .negInf => False
  | .negInf, _ => True
  | .fin _, .negInf => False
  | .fin x, .fin y => x < y
  | .fin _, .posInf => True
  | .posInf, _ => False

instance : LE Val := ⟨Val.le⟩

instance : LT Val := ⟨Val.lt⟩

instance Val.decLe (a b : Val) : Decidable (a ≤ b) := by
  show Decidable (Val.le a b)
  cases a <;> cases b <;> unfold Val.le <;> infer_instance

instance Val.decLt (a b : Val) : Decidable (a < b) := by
  show Decidable (Val.lt a b)
  cases a <;> cases b <;> unfold Val.lt <;> infer_instance

/-- The lower of two keys, `a` when `a <= b`. -/
def Val.min (a b : Val) : Val := if a ≤ b then a else b

/-- The constant `NEG_INF = math.Inf(-1)`. -/
def NEG_INF : Val := Val.negInf

/-! ## The store -/

/-- The struct `NodeList`: `front`, `back`, `length`. -/
structure NodeList where
  front : Option Nat
  back : Option Nat
  length : Int
  deriving DecidableEq

/-- The address of a `NodeList` object: the `trees` list of heap `f`, or the
`Children` list of node `n`. -/
inductive ListRef where
  | trees (f : Nat)
  | children (n : Nat)
  deriving DecidableEq

/-- The memory: the fields of every `Node`, every `NodeList` and every
`FiboHeap`, and the two allocation counters. -/
structure Store (D : Type) where
  Value : Nat → Val
  Data : Nat → D
  Parent : Nat → Option Nat
  Marked : Nat → Bool
  Next : Nat → Option Nat
  prev : Nat → Option Nat
  lists : ListRef → NodeList
  min : Nat → Option Nat
  nodeCount : Nat → Int
  nodeNext : Nat
  heapNext : Nat

variable {D : Type}

/-- Assignment `n.Value = v`. -/
def Store.setValue (s : Store D) (n : Nat) (v : Val) : Store D :=
  { s with Value := Function.update s.Value n v }

/-- Assignment `n.Data = d`. -/
def Store.setData (s : Store D) (n : Nat) (d : D) : Store D :=
  { s with Data := Function.update s.Data n d }

/-- Assignment `n.Parent = p`. -/
def Store.setParent (s : Store D) (n : Nat) (p : Option Nat) : Store D :=
  { s with Parent := Function.update s.Parent n p }

/-- Assignment `n.Marked = b`. -/
def Store.setMarked (s : Store D) (n : Nat) (b : Bool) : Store D :=
  { s with Marked := Function.update s.Marked n b }

/-- Assignment `n.Next = x`. -/
def Store.setNext (s : Store D) (n : Nat) (x : Option Nat) : Store D :=
  { s with Next := Function.update s.Next n x }

/-- Assignment `n.prev = x`. -/
def Store.setPrev (s : Store D) (n : Nat) (x : Option Nat) : Store D :=
  { s with prev := Function.update s.prev n x }

/-- Assignment to the fields of the list object at `r`. -/
def Store.setList (s : Store D) (r : ListRef) (l : NodeList) : Store D :=
  { s with lists := Function.update s.lists r l }

/-- Assignment `f.min = x`. -/
def Store.setMin (s : Store D) (f : Nat) (x : Option Nat) : Store D :=
  { s with min := Function.update s.min f x }

/-- Assignment `f.nodeCount = c`. -/
def Store.setCount (s : Store D) (f : Nat) (c : Int) : Store D :=
  { s with nodeCount := Function.update s.nodeCount f c }

/-- The outcome of a call: it returns `a` in store `s`, it panics in store
`s` (an explicit `panic` or a nil dereference), or the model ran out of fuel. -/
inductive Res (D : Type) (α : Type) where
  | ok (s : Store D) (a : α)
  | crash (s : Store D)
  | timeout

/-! ## `node/node.go` -/

/-- `NewNodeList`: an empty list. -/
def NewNodeList : NodeList := ⟨none, none, 0⟩

/-- `NodeList.Front`. -/
def NodeList.Front (nl : ListRef) (s : Store D) : Option Nat := (s.lists nl).front

/-- `NodeList.Back`. -/
def NodeList.Back (nl : ListRef) (s : Store D) : Option Nat := (s.lists nl).back

/-- `NodeList.Len`. -/
def NodeList.Len (nl : ListRef) (s : Store D) : Int := (s.lists nl).length

/-- `NewNode(v, data, parent)`: allocates the next node address and sets every
field. -/
def NewNode (v : Val) (data : D) (parent : Option Nat) (s : Store D) : Store D × Nat :=
  let n := s.nodeNext
  let s := { s with nodeNext := s.nodeNext + 1 }
  let s := s.setValue n v
  let s := s.setData n data
  let s := s.setList (.children n) NewNodeList
  let s := s.setParent n parent
  let s := s.setMarked n false
  let s := s.setNext n none
  let s := s.setPrev n none
  (s, n)

/-- `NodeList.Insert(n)`: push `n` at the back.  The write `nl.back.Next = n`
dereferences `nl.back`. -/
def NodeList.Insert (nl : ListRef) (n : Nat) (s : Store D) : Res D Unit :=
  match (s.lists nl).front with
  | none => .ok (s.setList nl ⟨some n, some n, 1⟩) ()
  | some _ =>
    let s1 := (s.setPrev n (s.lists nl).back).setNext n none
    match (s1.lists nl).back with
    | none => .crash s1
    | some b =>
      let s2 := s1.setNext b (some n)
      .ok (s2.setList nl ⟨(s2.lists nl).front, some n, (s2.lists nl).length + 1⟩) ()

/-- `NodeList.Merge(other)`: splice the nodes of `other` at the back. -/
def NodeList.Merge (nl : ListRef) (other : Option ListRef) (s : Store D) : Res D Unit :=
  match other with
  | none => .ok s ()
  | some other =>
    match (s.lists other).front with
    | none => .ok s ()
    | some o =>
      if (s.lists other).length = 0 then .ok s () else
      match (s.lists nl).front with
      | none =>
        let s1 := s.setList nl ⟨some o, (s.lists nl).back, (s.lists nl).length⟩
        let s2 := s1.setList nl ⟨(s1.lists nl).front, (s1.lists other).back, (s1.lists nl).length⟩
        .ok (s2.setList nl ⟨(s2.lists nl).front, (s2.lists nl).back, (s2.lists other).length⟩) ()
      | some _ =>
        if (s.lists other).length = 1 then NodeList.Insert nl o s else
        match (s.lists nl).back with
        | none => .crash s
        | some b =>
          let s1 := s.setNext b (some o)
          let s2 := s1.setPrev o (s1.lists nl).back
          let s3 := s2.setList nl ⟨(s2.lists nl).front, (s2.lists other).back, (s2.lists nl).length⟩
          .ok (s3.setList nl ⟨(s3.lists nl).front, (s3.lists nl).back,
            (s3.lists nl).length + (s3.lists other).length⟩) ()

/-- `NodeList.Remove(n)`: unlink `n` and return it; `nil` when `n` is `nil` or
the list has length 0. -/
def NodeList.Remove (nl : ListRef) (n : Option Nat) (s : Store D) : Store D × Option Nat :=
  match n with
  | none => (s, none)
  | some n =>
    if (s.lists nl).length = 0 then (s, none) else
    let s1 :=
      match s.prev n with
      | none =>
        if (s.lists nl).front = some n then
          s.setList nl ⟨s.Next n, (s.lists nl).back, (s.lists nl).length⟩
        else s
      | some p => s.setNext p (s.Next n)
    let s2 :=
      match s1.Next n with
      | none =>
        if (s1.lists nl).back = some n then
          s1.setList nl ⟨(s1.lists nl).front, s1.prev n, (s1.lists nl).length⟩
        else s1
      | some x => s1.setPrev x (s1.prev n)
    let s3 := (s2.setNext n none).setPrev n none
    (s3.setList nl ⟨(s3.lists nl).front, (s3.lists nl).back, (s3.lists nl).length - 1⟩, some n)

/-- `Node.AddChild(c)`. -/
def Node.AddChild (n : Nat) (c : Nat) (s : Store D) : Res D Unit :=
  let s := s.setParent c (some n)
  let s := s.setNext c none
  let s := s.setPrev c none
  NodeList.Insert (.children n) c s

/-- `Node.DeleteChild(c)`. -/
def Node.DeleteChild (n : Nat) (c : Nat) (s : Store D) : Store D :=
  let s := s.setParent c none
  (NodeList.Remove (.children n) (some c) s).1

/-- `Node.Degree`. -/
def Node.Degree (n : Nat) (s : Store D) : Int := NodeList.Len (.children n) s

/-- `Node.IsRoot`. -/
def Node.IsRoot (n : Nat) (s : Store D) : Bool := (s.Parent n).isNone

/-- Sequencing of calls: a panic or a timeout of the first call ends the run. -/
def Res.bind {α β : Type} (r : Res D α) (k : Store D → α → Res D β) : Res D β :=
  match r with
  | .ok s a => k s a
  | .crash s => .crash s
  | .timeout => .timeout

/-! ## `fiboHeap.go` -/

/-- `NewHeap`: allocates the next heap address; `min` is nil, `nodeCount` is 0
and `trees` is a new empty list. -/
def NewHeap (s : Store D) : Store D × Nat :=
  let f := s.heapNext
  let s := { s with heapNext := s.heapNext + 1 }
  let s := s.setMin f none
  let s := s.setCount f 0
  let s := s.setList (.trees f) NewNodeList
  (s, f)

/-- `FiboHeap.Len`: the number of top-level trees. -/
def Len (f : Nat) (s : Store D) : Int := NodeList.Len (.trees f) s

/-- `FiboHeap.Count`. -/
def Count (f : Nat) (s : Store D) : Int := s.nodeCount f

/-- `FiboHeap.IsEmpty`. -/
def IsEmpty (f : Nat) (s : Store D) : Bool := decide (s.nodeCount f = 0)

/-- `FiboHeap.Insert(v, data)`. -/
def Insert (f : Nat) (v : Val) (data : D) (s : Store D) : Res D Nat :=
  if v = NEG_INF then .crash s else
  let sn := NewNode v data none s
  let n := sn.2
  (NodeList.Insert (.trees f) n sn.1).bind fun s _ =>
    let s :=
      match s.min f with
      | none => s.setMin f (some n)
      | some m => if s.Value n < s.Value m then s.setMin f (some n) else s
    .ok (s.setCount f (s.nodeCount f + 1)) n

/-- `FiboHeap.Merge(g)`.  The comparison `g.min.Value < f.min.Value`
dereferences both `min` pointers. -/
def Merge (f : Nat) (g : Option Nat) (s : Store D) : Res D Unit :=
  match g with
  | none => .ok s ()
  | some g =>
    if Len g s = 0 then .ok s () else
    (NodeList.Merge (.trees f) (some (.trees g)) s).bind fun s _ =>
      match s.min g with
      | none => .crash s
      | some gm =>
        match s.min f with
        | none => .crash s
        | some fm =>
          let s := if s.Value gm < s.Value fm then s.setMin f (s.min g) else s
          .ok (s.setCount f (s.nodeCount f + s.nodeCount g)) ()

/-- `FiboHeap.GetMinValue`. -/
def GetMinValue (f : Nat) (s : Store D) : Res D Val :=
  match s.min f with
  | none => .crash s
  | some m => .ok s (s.Value m)

/-- The inner `for ranks[deg] != nil` loop of `consolidate`; it returns the
map and `curr`. -/
def consolidate.inner (f : Nat) (deg : Int) :
    Nat → (Int → Option Nat) → Nat → Store D → Res D ((Int → Option Nat) × Nat)
  | 0, _, _, _ => .timeout
  | k + 1, ranks, curr, s =>
    match ranks deg with
    | none => .ok s (ranks, curr)
    | some rank =>
      let ranks := Function.update ranks deg none
      if s.Value curr ≤ s.Value rank then
        let s := (NodeList.Remove (.trees f) (some rank) s).1
        (Node.AddChild curr rank s).bind fun s _ => consolidate.inner f deg k ranks curr s
      else
        let s := (NodeList.Remove (.trees f) (some curr) s).1
        (Node.AddChild rank curr s).bind fun s _ => consolidate.inner f deg k ranks rank s

/-- The outer `for curr := f.trees.Front(); curr != nil;` loop of
`consolidate`; it returns the map `ranks`, a local variable of `consolidate`, as it
is when the loop exits. -/
def consolidate.loop (f : Nat) :
    Nat → (Int → Option Nat) → Option Nat → Store D → Res D (Int → Option Nat)
  | 0, _, _, _ => .timeout
  | _ + 1, ranks, none, s => .ok s ranks
  | k + 1, ranks, some curr, s =>
    let deg := Node.Degree curr s
    match ranks deg with
    | none => consolidate.loop f k (Function.update ranks deg (some curr)) (s.Next curr) s
    | some r =>
      if r = curr then consolidate.loop f k ranks (s.Next curr) s
      else
        (consolidate.inner f deg k ranks curr s).bind fun s rc =>
          consolidate.loop f k rc.1 (some rc.2) s

/-- `FiboHeap.consolidate`. -/
def consolidate (fuel : Nat) (f : Nat) (s : Store D) : Res D Unit :=
  if s.nodeCount f = 0 ∨ NodeList.Front (.trees f) s = none then .ok s () else
  (consolidate.loop f fuel (fun _ => none) (NodeList.Front (.trees f) s) s).bind
    fun s _ => .ok s ()

/-- The loop of `resetMin`. -/
def resetMin.loop (f : Nat) : Nat → Val → Option Nat → Store D → Res D Unit
  | 0, _, _, _ => .timeout
  | _ + 1, _, none, s => .ok s ()
  | k + 1, m, some curr, s =>
    if s.Value curr < m then
      resetMin.loop f k (s.Value curr) (s.Next curr) (s.setMin f (some curr))
    else resetMin.loop f k m (s.Next curr) s

/-- `FiboHeap.resetMin`. -/
def resetMin (fuel : Nat) (f : Nat) (s : Store D) : Res D Unit :=
  let s := s.setMin f none
  resetMin.loop f fuel Val.posInf (NodeList.Front (.trees f) s) s

/-- The loop of `ExtractMin` over the children of the extracted node. -/
def ExtractMin.loop : Nat → Option Nat → Store D → Res D Unit
  | 0, _, _ => .timeout
  | _ + 1, none, s => .ok s ()
  | k + 1, some c, s =>
    let s := s.setParent c none
    let s := s.setMarked c false
    ExtractMin.loop k (s.Next c) s

/-- `FiboHeap.ExtractMin`. -/
def ExtractMin (fuel : Nat) (f : Nat) (s : Store D) : Res D D :=
  match s.min f with
  | none => .crash s
  | some m =>
    if Len f s = 0 then .crash s else
    let data := s.Data m
    let s := (NodeList.Remove (.trees f) (s.min f) s).1
    let s := s.setCount f (s.nodeCount f - 1)
    (ExtractMin.loop fuel (NodeList.Front (.children m) s) s).bind fun s _ =>
    (NodeList.Merge (.trees f) (some (.children m)) s).bind fun s _ =>
    (consolidate fuel f s).bind fun s _ =>
    (resetMin fuel f s).bind fun s _ =>
    .ok s data

/-- `FiboHeap.cut(n)`.  The call `p.Children.Remove(n)` dereferences `p`. -/
def cut (f : Nat) (n : Nat) (s : Store D) : Res D Unit :=
  let p := s.Parent n
  let s := s.setParent n none
  let s := s.setMarked n false
  match p with
  | none => .crash s
  | some p =>
    let s := (NodeList.Remove (.children p) (some n) s).1
    NodeList.Insert (.trees f) n s

/-- `FiboHeap.upCut(n)`. -/
def upCut (f : Nat) : Nat → Nat → Store D → Res D Unit
  | 0, _, _ => .timeout
  | k + 1, n, s =>
    if Node.IsRoot n s then .ok s () else
    if s.Marked n then
      let p := s.Parent n
      (cut f n s).bind fun s _ =>
        match p with
        | none => .crash s
        | some p => upCut f k p s
    else .ok (s.setMarked n true) ()

/-- `FiboHeap.DecreaseKey(n, v)`. -/
def DecreaseKey (fuel : Nat) (f : Nat) (n : Nat) (v : Val) (s : Store D) : Res D Nat :=
  if v > s.Value n then .crash s else
  let s := s.setValue n v
  let r : Res D Unit :=
    if Node.IsRoot n s then .ok s () else
    match s.Parent n with
    | none => .crash s
    | some p =>
      if s.Value n < s.Value p then
        (cut f n s).bind fun s _ => upCut f fuel p s
      else .ok s ()
  r.bind fun s _ =>
  (resetMin fuel f s).bind fun s _ =>
  .ok s n

/-- `FiboHeap.Delete(n)`. -/
def Delete (fuel : Nat) (f : Nat) (n : Nat) (s : Store D) : Res D Unit :=
  (DecreaseKey fuel f n NEG_INF s).bind fun s _ =>
  (ExtractMin fuel f s).bind fun s _ =>
  .ok s ()

mutual
/-- `childCount(cl)`; `none` when the fuel runs out. -/
def childCount : Nat → ListRef → Store D → Option Int
  | 0, _, _ => none
  | k + 1, cl, s => childCount.loop k (NodeList.Front cl s) 1 s
/-- The loop of `childCount` over the nodes of the list, from `c` on. -/
def childCount.loop : Nat → Option Nat → Int → Store D → Option Int
  | 0, _, _, _ => none
  | _ + 1, none, count, _ => some count
  | k + 1, some c, count, s =>
    match childCount k (.children c) s with
    | none => none
    | some r => childCount.loop k (s.Next c) (count + r) s
end

/-- The loop of `CountNodes` and of `CheckHeap` over the top-level roots. -/
def CountNodes.loop : Nat → Option Nat → Int → Store D → Option Int
  | 0, _, _, _ => none
  | _ + 1, none, count, _ => some count
  | k + 1, some c, count, s =>
    match childCount k (.children c) s with
    | none => none
    | some r => CountNodes.loop k (s.Next c) (count + r) s

/-- `FiboHeap.CountNodes`. -/
def CountNodes (fuel : Nat) (f : Nat) (s : Store D) : Option Int :=
  CountNodes.loop fuel (NodeList.Front (.trees f) s) 0 s

/-- `FiboHeap.CheckHeap`. -/
def CheckHeap (fuel : Nat) (f : Nat) (s : Store D) : Option Bool :=
  let hsize := Count f s
  match CountNodes.loop fuel (NodeList.Front (.trees f) s) 0 s with
  | none => none
  | some count => if count ≠ hsize then some false else some true

mutual
/-- `Node.String`; `fmt` renders a key as `%.2f` does. -/
def Node.String (fmt : Val → String) : Nat → Nat → Store D → Option String
  | 0, _, _ => none
  | k + 1, n, s =>
    if NodeList.Len (.children n) s = 0 then some ("(" ++ fmt (s.Value n) ++ ")")
    else
      match NodeList.String fmt k (.children n) s with
      | none => none
      | some cs => some ("(" ++ fmt (s.Value n) ++ ": " ++ cs ++ ")")
/-- `NodeList.String`. -/
def NodeList.String (fmt : Val → String) : Nat → ListRef → Store D → Option String
  | 0, _, _ => none
  | k + 1, nl, s =>
    if (s.lists nl).front = none then some "(Empty list)"
    else NodeList.String.loop fmt k (NodeList.Front nl s) "" s
/-- The loop of `NodeList.String`. -/
def NodeList.String.loop (fmt : Val → String) :
    Nat → Option Nat → String → Store D → Option String
  | 0, _, _, _ => none
  | _ + 1, none, acc, _ => some acc
  | k + 1, some n, acc, s =>
    match Node.String fmt k n s with
    | none => none
    | some ns =>
      let acc := acc ++ ns
      let acc := if s.Next n ≠ none then acc ++ ", " else acc
      NodeList.String.loop fmt k (s.Next n) acc s
end

/-- `FiboHeap.String`. -/
def HeapString (fmt : Val → String) (fuel : Nat) (f : Nat) (s : Store D) : Option String :=
  if Len f s = 0 then some "[Empty Heap]" else NodeList.String fmt fuel (.trees f) s

/-! ## Specification vocabulary -/

/-- The `Next` pointers lead from `c` through the nodes `xs`, in order, to `e`. -/
def Seg (next : Nat → Option Nat) : Option Nat → List Nat → Option Nat → Prop
  | c, [], e => c = e
  | c, x :: xs, e => c = some x ∧ Seg next (next x) xs e

/-- The `prev` pointer of the first node of `xs` is `p`, and the `prev` pointer of every
later node is its predecessor in `xs`. -/
def PrevSeg (prev : Nat → Option Nat) : Option Nat → List Nat → Prop
  | _, [] => True
  | p, x :: xs => prev x = p ∧ PrevSeg prev (some x) xs

/-- The last node of `xs`, or `p` when `xs` is empty. -/
def lastPtr : Option Nat → List Nat → Option Nat
  | p, [] => p
  | _, x :: xs => lastPtr (some x) xs

/-- The list object at `r` is a well-formed list whose nodes are `xs`, in order. -/
structure IsList (s : Store D) (r : ListRef) (xs : List Nat) : Prop where
  seg : Seg s.Next (s.lists r).front xs none
  back : (s.lists r).back = lastPtr none xs
  length : (s.lists r).length = xs.length
  prevs : PrevSeg s.prev none xs
  nodup : xs.Nodup

/-- Frame of a list operation on `r`: only the list object `r` and the link fields of the
nodes in `A` may differ between `s` and `t`. -/
structure ListOp (s t : Store D) (r : ListRef) (A : List Nat) : Prop where
  Value : t.Value = s.Value
  Data : t.Data = s.Data
  Parent : t.Parent = s.Parent
  Marked : t.Marked = s.Marked
  min : t.min = s.min
  nodeCount : t.nodeCount = s.nodeCount
  nodeNext : t.nodeNext = s.nodeNext
  heapNext : t.heapNext = s.heapNext
  lists : ∀ q, q ≠ r → t.lists q = s.lists q
  next : ∀ x, x ∉ A → t.Next x = s.Next x
  prev : ∀ x, x ∉ A → t.prev x = s.prev x


/-- The list a node belongs to, read off its `Parent` pointer: the top-level list of
heap `f` for a root, the `Children` list of its parent otherwise. -/
def own (f : Nat) (s : Store D) (x : Nat) : ListRef :=
  match s.Parent x with
  | none => .trees f
  | some p => .children p

/-- The list objects of a heap `f` whose nodes are `N`. -/
def Rel (f : Nat) (N : List Nat) : ListRef → Prop
  | .trees g => g = f
  | .children x => x ∈ N

/-- The lists of heap `f`: `N` are its nodes, `M r` the nodes of its list `r`, in order.
Every list of the heap is well formed, and every node of the heap lies in exactly the
list its `Parent` pointer names. -/
structure Lists (s : Store D) (f : Nat) (N : List Nat) (M : ListRef → List Nat) : Prop where
  nodupN : N.Nodup
  isList : ∀ r, Rel f N r → IsList s r (M r)
  memIn : ∀ r, Rel f N r → ∀ x ∈ M r, x ∈ N ∧ own f s x = r
  memOf : ∀ x ∈ N, Rel f N (own f s x) ∧ x ∈ M (own f s x)

/-- Every node outside `A` and every heap other than `f` is the same in `s` and `t`. -/
structure Outside (s t : Store D) (f : Nat) (A : Nat → Prop) : Prop where
  Value : ∀ x, ¬ A x → t.Value x = s.Value x
  Data : ∀ x, ¬ A x → t.Data x = s.Data x
  Parent : ∀ x, ¬ A x → t.Parent x = s.Parent x
  Marked : ∀ x, ¬ A x → t.Marked x = s.Marked x
  Next : ∀ x, ¬ A x → t.Next x = s.Next x
  prev : ∀ x, ¬ A x → t.prev x = s.prev x
  children : ∀ x, ¬ A x → t.lists (.children x) = s.lists (.children x)
  trees : ∀ g, g ≠ f → t.lists (.trees g) = s.lists (.trees g)
  min : ∀ g, g ≠ f → t.min g = s.min g
  nodeCount : ∀ g, g ≠ f → t.nodeCount g = s.nodeCount g
  heapNext : s.heapNext ≤ t.heapNext
  nodeNext : s.nodeNext ≤ t.nodeNext

/-- The fields no list operation writes are the same in `s` and `t`. -/
structure Keeps (s t : Store D) : Prop where
  Value : t.Value = s.Value
  Data : t.Data = s.Data
  min : t.min = s.min
  nodeCount : t.nodeCount = s.nodeCount
  nodeNext : t.nodeNext = s.nodeNext
  heapNext : t.heapNext = s.heapNext

/-- The shape of heap `f`: its lists, a height function `H` that decreases from a parent to
its children (so the `Parent` pointers are acyclic), and unmarked roots. -/
structure Shape (s : Store D) (f : Nat) (N : List Nat) (M : ListRef → List Nat)
    (H : Nat → Nat) : Prop where
  lists : Lists s f N M
  height : ∀ x ∈ N, ∀ p, s.Parent x = some p → H x < H p
  unmarked : ∀ x ∈ M (.trees f), s.Marked x = false

/-- No node of `N` has the key `NaN`. -/
def NoNaN (s : Store D) (N : List Nat) : Prop :=
  ∀ x ∈ N, s.Value x ≠ Val.nan

/-- The min-heap order: no node is below its parent. -/
def Ordered (s : Store D) (N : List Nat) : Prop :=
  ∀ x ∈ N, ∀ p, s.Parent x = some p → s.Value p ≤ s.Value x

/-- The store after the loop of `ExtractMin` has visited the nodes `ks`: their `Parent` is
nil and their mark is cleared. -/
def promote (ks : List Nat) (s : Store D) : Store D :=
  { s with
    Parent := fun x => if x ∈ ks then none else s.Parent x
    Marked := fun x => if x ∈ ks then false else s.Marked x }

/-- The call `run`, given fuel, returns `a` in store `t` whenever the fuel is at least `K`,
and times out below `K`: it never panics, and its result does not depend on the fuel. -/
def Runs {α : Type} (run : Nat → Res D α) (K : Nat) (t : Store D) (a : α) : Prop :=
  ∀ fuel, run fuel = if K ≤ fuel then .ok t a else .timeout

/-- The result of the scan of `resetMin` over the nodes `xs`, started with the bound `m`
and the candidate `cur`. -/
def scanMin (val : Nat → Val) : Val → Option Nat → List Nat → Option Nat
  | _, cur, [] => cur
  | m, cur, x :: xs =>
    if val x < m then scanMin val (val x) (some x) xs else scanMin val m cur xs

/-- The root `r` is recorded in the degree map of `consolidate` under its current degree. -/
def Recorded (s : Store D) (ranks : Int → Option Nat) (r : Nat) : Prop :=
  ranks (Node.Degree r s) = some r

/-- The loop invariant of `consolidate`.  The top level is `pre ++ post`, the scan pointer
`curr` is the head of `post`, and the roots after it are `mid ++ rest`: the roots of `pre`
and `mid` are recorded in `ranks`, those of `rest` are not (they were never scanned).
Every entry of `ranks` is a root, filed under its degree.  The min-heap order holds, and no
key is `NaN`, if that was so when `consolidate` was called, which is what `O` stands
for. -/
structure CInv (O : Prop) (s : Store D) (f : Nat) (N : List Nat) (M : ListRef → List Nat)
    (H : Nat → Nat) (ranks : Int → Option Nat) (pre post mid rest : List Nat) : Prop where
  shape : Shape s f N M H
  order : O → Ordered s N
  nonan : O → NoNaN s N
  rk : ∀ d r, ranks d = some r → r ∈ M (.trees f) ∧ Node.Degree r s = d
  split : M (.trees f) = pre ++ post
  tail : post.tail = mid ++ rest
  recPre : ∀ r ∈ pre, Recorded s ranks r
  recMid : ∀ r ∈ mid, Recorded s ranks r
  unrec : ∀ r ∈ rest, ¬ Recorded s ranks r

/-- The invariant of a heap `f` between calls.  Whatever the keys are: the shape, the node
count, and a cached minimum that is a root.  Under `O`, which stands for "no key handed to
the heap was `NaN`": no key is `NaN`, the min-heap order holds, and the cached minimum is a
root of least value (it may be nil only when every root is `+Inf`). -/
structure HeapInv (O : Prop) (s : Store D) (f : Nat) (N : List Nat)
    (M : ListRef → List Nat) (H : Nat → Nat) : Prop where
  shape : Shape s f N M H
  count : s.nodeCount f = N.length
  minRoot : ∀ m, s.min f = some m → m ∈ M (.trees f)
  nonan : O → NoNaN s N
  order : O → Ordered s N
  minLe : O → ∀ m, s.min f = some m → ∀ x ∈ M (.trees f), s.Value m ≤ s.Value x
  minNone : O → s.min f = none → ∀ x ∈ M (.trees f), s.Value x = Val.posInf

/-- The node `n` is reached from the pointer `c` by following `Next`. -/
inductive InList (s : Store D) : Option Nat → Nat → Prop
  | head (n : Nat) : InList s (some n) n
  | tail (x n : Nat) : InList s (s.Next x) n → InList s (some x) n

/-- The node `n` is a node of heap `f`: it is in the top-level list, or in the `Children`
list of a node of the heap. -/
inductive Member (s : Store D) (f : Nat) : Nat → Prop
  | root (n : Nat) : InList s (NodeList.Front (.trees f) s) n → Member s f n
  | child (p n : Nat) : Member s f p → InList s (NodeList.Front (.children p) s) n →
      Member s f n

/-- The stores reachable by successful calls of the public interface, with the heaps that
are live in them.  Any store with no live heap is a start; `NewHeap` adds a heap; `Insert`,
`ExtractMin`, `DecreaseKey`, `Delete` act on a live heap (the node handed to `DecreaseKey`
and `Delete` is a node of that heap); `f.Merge(g)` takes two different live heaps and a
non-empty `g`, which is consumed.  A call counts when it returns, with whatever fuel. -/
inductive Reachable : Store D → List Nat → Prop
  | init (s : Store D) : Reachable s []
  | newHeap {s : Store D} {L : List Nat} :
      Reachable s L → Reachable (NewHeap s).1 ((NewHeap s).2 :: L)
  | insert {s t : Store D} {L : List Nat} {f n : Nat} {v : Val} {d : D} :
      Reachable s L → f ∈ L → Insert f v d s = .ok t n → Reachable t L
  | extractMin {s t : Store D} {L : List Nat} {f fuel : Nat} {d : D} :
      Reachable s L → f ∈ L → ExtractMin fuel f s = .ok t d → Reachable t L
  | decreaseKey {s t : Store D} {L : List Nat} {f fuel n r : Nat} {v : Val} :
      Reachable s L → f ∈ L → Member s f n → DecreaseKey fuel f n v s = .ok t r →
      Reachable t L
  | delete {s t : Store D} {L : List Nat} {f fuel n : Nat} :
      Reachable s L → f ∈ L → Member s f n → Delete fuel f n s = .ok t () → Reachable t L
  | merge {s t : Store D} {L : List Nat} {f g : Nat} :
      Reachable s L → f ∈ L → g ∈ L → f ≠ g → Len g s ≠ 0 →
      Merge f (some g) s = .ok t () → Reachable t (L.erase g)

/-- The stores reachable as in `Reachable`, by calls in which every key handed to `Insert`
and `DecreaseKey` satisfies `P`. -/
inductive ReachableBy (P : Val → Prop) : Store D → List Nat → Prop
  | init (s : Store D) : ReachableBy P s []
  | newHeap {s : Store D} {L : List Nat} :
      ReachableBy P s L → ReachableBy P (NewHeap s).1 ((NewHeap s).2 :: L)
  | insert {s t : Store D} {L : List Nat} {f n : Nat} {v : Val} {d : D} :
      ReachableBy P s L → f ∈ L → P v → Insert f v d s = .ok t n → ReachableBy P t L
  | extractMin {s t : Store D} {L : List Nat} {f fuel : Nat} {d : D} :
      ReachableBy P s L → f ∈ L → ExtractMin fuel f s = .ok t d → ReachableBy P t L
  | decreaseKey {s t : Store D} {L : List Nat} {f fuel n r : Nat} {v : Val} :
      ReachableBy P s L → f ∈ L → Member s f n → P v →
      DecreaseKey fuel f n v s = .ok t r → ReachableBy P t L
  | delete {s t : Store D} {L : List Nat} {f fuel n : Nat} :
      ReachableBy P s L → f ∈ L → Member s f n → Delete fuel f n s = .ok t () →
      ReachableBy P t L
  | merge {s t : Store D} {L : List Nat} {f g : Nat} :
      ReachableBy P s L → f ∈ L → g ∈ L → f ≠ g → Len g s ≠ 0 →
      Merge f (some g) s = .ok t () → ReachableBy P t (L.erase g)

/-- The invariant of a reachable store: every live heap satisfies the heap invariant on its
nodes `nodes f`, the nodes were all allocated, and different heaps share no node. -/
structure WInv (O : Prop) (s : Store D) (L : List Nat) (nodes : Nat → List Nat) :
    Prop where
  nodupL : L.Nodup
  live : ∀ f ∈ L, f < s.heapNext
  heap : ∀ f ∈ L, ∃ M H, HeapInv O s f (nodes f) M H
  fresh : ∀ f ∈ L, ∀ x ∈ nodes f, x < s.nodeNext
  disj : ∀ f ∈ L, ∀ g ∈ L, f ≠ g → ∀ x ∈ nodes f, x ∉ nodes g

/-- The nodes of the tree rooted at `x`, in preorder, down to depth `k`, read off the lists
`M`. -/
def subtree (M : ListRef → List Nat) : Nat → Nat → List Nat
  | 0, x => [x]
  | k + 1, x => x :: (M (.children x)).flatMap (subtree M k)

/-- The function `run`, given fuel, returns `v` whenever the fuel is at least `K` and nothing
below `K`. -/
def OptRuns {α : Type} (run : Nat → Option α) (K : Nat) (v : α) : Prop :=
  ∀ fuel, run fuel = if K ≤ fuel then some v else none

/-! ## Heap sort and concrete runs -/

/-- A store in which nothing is allocated. -/
def Store.empty (d : D) : Store D :=
  ⟨fun _ => Val.posInf, fun _ => d, fun _ => none, fun _ => false, fun _ => none,
    fun _ => none, fun _ => NewNodeList, fun _ => none, fun _ => 0, 0, 0⟩

/-- The store a call returned, or `s` when it did not return. -/
def Res.store {α : Type} (r : Res D α) (s : Store D) : Store D :=
  match r with
  | .ok t _ => t
  | _ => s

/-- Insert the keys `vs`, in order, each with itself as payload. -/
def insertAll (f : Nat) : List Int → Store Int → Res Int Unit
  | [], s => .ok s ()
  | v :: vs, s => (Insert f (Val.fin v) v s).bind fun s _ => insertAll f vs s

/-- Call `ExtractMin` `k` times and collect the payloads. -/
def extractAll (fuel f : Nat) : Nat → Store Int → Res Int (List Int)
  | 0, s => .ok s []
  | k + 1, s =>
    (ExtractMin fuel f s).bind fun s d =>
    (extractAll fuel f k s).bind fun s ds => .ok s (d :: ds)

/-- Heap sort: a new heap, `Insert` for every key of `vs`, then `ExtractMin` as many
times. -/
def heapSort (fuel : Nat) (vs : List Int) (s : Store Int) : Res Int (List Int) :=
  (insertAll (NewHeap s).2 vs (NewHeap s).1).bind fun s1 _ =>
    extractAll fuel (NewHeap s).2 vs.length s1

/-- The `(Value, Data)` pairs of the nodes `N`. -/
def pairs (s : Store D) (N : List Nat) : List (Val × D) :=
  N.map fun x => (s.Value x, s.Data x)

/-- One heap, heap 0, just made by `NewHeap`. -/
def exNew : Store Int := (NewHeap (Store.empty 0)).1

/-- Heap 0 after the keys 3, 1, 2 were inserted: the nodes 0, 1, 2. -/
def exThree : Store Int := (insertAll 0 [3, 1, 2] exNew).store exNew

/-- Heap 0 after one more `ExtractMin`: the tree `(2: (3))`, in which node 2, with key 2,
is the root and node 0, with key 3, is its child. -/
def exTree : Store Int := (ExtractMin 20 0 exThree).store exThree

/-- Heap 0 after two calls `Insert(+Inf, _)`. -/
def infTwo : Store Int :=
  ((Insert 0 Val.posInf 7 exNew).bind fun s _ => Insert 0 Val.posInf 8 s).store exNew

/-- Heap 0 after two calls `Insert(+Inf, _)` and one `ExtractMin`: node 1 is left. -/
def infOne : Store Int := (ExtractMin 5 0 infTwo).store infTwo

/-- Two heaps: heap 0 is new and empty, heap 1 holds one node with key 1. -/
def exPair : Store Int :=
  (Insert 1 (Val.fin 1) 1 (NewHeap exNew).1).store exNew

/-- Every node of `N` has its payload as key. -/
def Keyed (s : Store Int) (N : List Nat) : Prop :=
  ∀ x ∈ N, s.Value x = Val.fin (s.Data x)

/-- The list objects of heap `f`: its top-level list and the `Children` lists of its
nodes. -/
def HeapList (s : Store D) (f : Nat) : ListRef → Prop
  | .trees g => g = f
  | .children x => Member s f x

/-- The node `n` is a top-level root of heap `f`. -/
def IsRootOf (s : Store D) (f : Nat) (n : Nat) : Prop :=
  InList s (NodeList.Front (.trees f) s) n

/-- Heap 0 after `Insert(1, 1)` and `Insert(2, 2)`: the roots 0 and 1. -/
def exTwo : Store Int := (insertAll 0 [1, 2] exNew).store exNew

/-- Heap 0 after `Insert(1, 1)`, `Insert(2, 2)` and `DecreaseKey(node 0, -Inf)`. -/
def exNeg : Store Int := (DecreaseKey 5 0 0 NEG_INF exTwo).store exTwo

/-- The store `exThree` with one more node, node 3, made by `NewNode` and in no list. -/
def exDetached : Store Int := (NewNode (Val.fin 20) 20 none exThree).1

/-- A well-formed state of heap `f`: for some nodes `N`, the top-level list and the
`Children` lists of the nodes are well-formed lists, every node of `N` lies in exactly the
list its `Parent` pointer names, the `Parent` pointers are acyclic, and no root is
marked. -/
def WellFormed (s : Store D) (f : Nat) : Prop :=
  ∃ N M H, Shape s f N M H

/-- The cascade of `upCut` started at the node `a`, read off the `Parent` pointers and the
marks: `cs` are the marked non-root nodes met on the way up from `a`, in that order, and
`e` is the first node on the way that is a root or is not marked. -/
inductive CutChain (parent : Nat → Option Nat) (marked : Nat → Bool) :
    Nat → List Nat → Nat → Prop
  | root (a : Nat) : parent a = none → CutChain parent marked a [] a
  | unmarked (a q : Nat) : parent a = some q → marked a = false →
      CutChain parent marked a [] a
  | marked (a q : Nat) (cs : List Nat) (e : Nat) : parent a = some q → marked a = true →
      CutChain parent marked q cs e → CutChain parent marked a (a :: cs) e

/-- Heap 0 after `Insert(1, 1)`, `Insert(NaN, 0)` and `Insert(2, 2)`: the roots 0, 1, 2. -/
def nanThree : Store Int :=
  ((Insert 0 (Val.fin 1) 1 exNew).bind fun s _ =>
    (Insert 0 Val.nan 0 s).bind fun s _ => Insert 0 (Val.fin 2) 2 s).store exNew

/-- Heap 0 after `Insert(1, 1)`, `Insert(NaN, 0)`, `Insert(2, 2)` and `ExtractMin`: node 1,
with key `NaN`, is the root and node 2, with key 2, is its child. -/
def nanTree : Store Int := (ExtractMin 20 0 nanThree).store nanThree

/-! ## Comparisons of keys -/

theorem Val_le_iff (a b : Val) : a ≤ b ↔ Val.le a b := Iff.rfl

theorem Val_lt_iff (a b : Val) : a < b ↔ Val.lt a b := Iff.rfl

theorem Val_le_refl {a : Val} (h : a ≠ Val.nan) : a ≤ a := by
  cases a <;> simp_all [Val_le_iff, Val.le]

theorem Val_le_trans {a b c : Val} (h1 : a ≤ b) (h2 : b ≤ c) : a ≤ c := by
  cases a <;> cases b <;> cases c <;>
    simp_all [Val_le_iff, Val.le]
  omega

theorem Val_lt_trans {a b c : Val} (h1 : a < b) (h2 : b < c) : a < c := by
  cases a <;> cases b <;> cases c <;>
    simp_all [Val_lt_iff, Val.lt]
  omega

theorem Val_le_of_lt {a b : Val} (h : a < b) : a ≤ b := by
  cases a <;> cases b <;>
    simp_all [Val_le_iff, Val_lt_iff, Val.lt, Val.le]
  omega

theorem Val_lt_of_lt_of_le {a b c : Val} (h1 : a < b) (h2 : b ≤ c) : a < c := by
  cases a <;> cases b <;> cases c <;>
    simp_all [Val_le_iff, Val_lt_iff, Val.lt, Val.le]
  omega

theorem Val_not_lt_of_le {a b : Val} (h : b ≤ a) : ¬ a < b := by
  cases a <;> cases b <;> simp_all [Val_le_iff, Val_lt_iff, Val.lt, Val.le]

theorem Val_not_le_of_lt {a b : Val} (h : b < a) : ¬ a ≤ b := by
  cases a <;> cases b <;> simp_all [Val_le_iff, Val_lt_iff, Val.lt, Val.le]

theorem Val_le_of_not_lt {a b : Val} (ha : a ≠ Val.nan) (hb : b ≠ Val.nan) (h : ¬ a < b) :
    b ≤ a := by
  cases a <;> cases b <;> simp_all [Val_le_iff, Val_lt_iff, Val.lt, Val.le]

theorem Val_lt_of_not_le {a b : Val} (ha : a ≠ Val.nan) (hb : b ≠ Val.nan) (h : ¬ a ≤ b) :
    b < a := by
  cases a <;> cases b <;> simp_all [Val_le_iff, Val_lt_iff, Val.lt, Val.le]

theorem Val_le_antisymm {a b : Val} (h1 : a ≤ b) (h2 : b ≤ a) : a = b := by
  cases a <;> cases b <;>
    simp_all [Val_le_iff, Val.le]
  omega

theorem Val_lt_irrefl (a : Val) : ¬ a < a := by
  cases a <;> simp [Val_lt_iff, Val.lt]

theorem Val_ne_nan_of_le {a b : Val} (h : a ≤ b) : a ≠ Val.nan ∧ b ≠ Val.nan := by
  cases a <;> cases b <;> simp_all [Val_le_iff, Val.le]

theorem Val_ne_nan_of_lt {a b : Val} (h : a < b) : a ≠ Val.nan ∧ b ≠ Val.nan := by
  cases a <;> cases b <;> simp_all [Val_lt_iff, Val.lt]

theorem Val_posInf_le {v : Val} (h : Val.posInf ≤ v) : v = Val.posInf := by
  cases v <;> simp_all [Val_le_iff, Val.le]

theorem Val_le_posInf {v : Val} (h : v ≠ Val.nan) : v ≤ Val.posInf := by
  cases v <;> simp_all [Val_le_iff, Val.le]

theorem Val_negInf_le {v : Val} (h : v ≠ Val.nan) : Val.negInf ≤ v := by
  cases v <;> simp_all [Val_le_iff, Val.le]

theorem Val_le_negInf {v : Val} (h : v ≤ Val.negInf) : v = Val.negInf := by
  cases v <;> simp_all [Val_le_iff, Val.le]

theorem Val_lt_posInf {v : Val} (h : v ≠ Val.nan) (h' : v ≠ Val.posInf) : v < Val.posInf := by
  cases v <;> simp_all [Val_lt_iff, Val.lt]

theorem Val_not_lt_negInf (a : Val) : ¬ a < Val.negInf := by
  cases a <;> simp [Val_lt_iff, Val.lt]

theorem Val_fin_le {a b : Int} : Val.fin a ≤ Val.fin b ↔ a ≤ b := Iff.rfl

theorem Val_min_le_left {a b : Val} (ha : a ≠ Val.nan) (hb : b ≠ Val.nan) :
    Val.min a b ≤ a := by
  unfold Val.min
  split
  · exact Val_le_refl ha
  · rename_i h
    exact Val_le_of_lt (Val_lt_of_not_le ha hb h)

theorem Val_min_le_right {a b : Val} (hb : b ≠ Val.nan) : Val.min a b ≤ b := by
  unfold Val.min
  split
  · assumption
  · exact Val_le_refl hb

theorem Val_le_min {a b c : Val} (h1 : c ≤ a) (h2 : c ≤ b) : c ≤ Val.min a b := by
  unfold Val.min
  split <;> assumption


/-! ## Lemmas on lists of nodes -/


attribute [simp] Store.setValue Store.setData Store.setParent Store.setMarked Store.setNext
  Store.setPrev Store.setList Store.setMin Store.setCount

@[simp] theorem Seg_nil (f : Nat → Option Nat) (c e : Option Nat) : Seg f c [] e ↔ c = e := Iff.rfl

@[simp] theorem Seg_cons (f : Nat → Option Nat) (c e : Option Nat) (x : Nat) (xs : List Nat) :
    Seg f c (x :: xs) e ↔ c = some x ∧ Seg f (f x) xs e := Iff.rfl

@[simp] theorem PrevSeg_nil (f : Nat → Option Nat) (p : Option Nat) : PrevSeg f p [] ↔ True := Iff.rfl

@[simp] theorem PrevSeg_cons (f : Nat → Option Nat) (p : Option Nat) (x : Nat) (xs : List Nat) :
    PrevSeg f p (x :: xs) ↔ f x = p ∧ PrevSeg f (some x) xs := Iff.rfl

@[simp] theorem lastPtr_nil (p : Option Nat) : lastPtr p [] = p := rfl

@[simp] theorem lastPtr_cons (p : Option Nat) (x : Nat) (xs : List Nat) :
    lastPtr p (x :: xs) = lastPtr (some x) xs := rfl

theorem eq_nil_or_snoc (xs : List Nat) : xs = [] ∨ ∃ ys b, xs = ys ++ [b] := by
  induction xs using List.reverseRecOn with
  | nil => exact Or.inl rfl
  | append_singleton ys b _ => exact Or.inr ⟨ys, b, rfl⟩

theorem Seg_congr {f g : Nat → Option Nat} {xs : List Nat} (h : ∀ x ∈ xs, g x = f x) :
    ∀ {c e}, Seg f c xs e → Seg g c xs e := by
  induction xs with
  | nil => intro c e hs; exact hs
  | cons x xs ih =>
    intro c e hs
    refine ⟨hs.1, ?_⟩
    rw [h x (List.mem_cons_self _ _)]
    exact ih (fun y hy => h y (List.mem_cons_of_mem _ hy)) hs.2

theorem Seg_append {f : Nat → Option Nat} {xs ys : List Nat} :
    ∀ {c e}, Seg f c (xs ++ ys) e ↔ ∃ m, Seg f c xs m ∧ Seg f m ys e := by
  induction xs with
  | nil => intro c e; simp
  | cons x xs ih =>
    intro c e
    simp only [List.cons_append, Seg_cons, ih]
    constructor
    · rintro ⟨h1, m, h2, h3⟩; exact ⟨m, ⟨h1, h2⟩, h3⟩
    · rintro ⟨m, ⟨h1, h2⟩, h3⟩; exact ⟨h1, m, h2, h3⟩

theorem PrevSeg_congr {f g : Nat → Option Nat} {xs : List Nat} (h : ∀ x ∈ xs, g x = f x) :
    ∀ {p}, PrevSeg f p xs → PrevSeg g p xs := by
  induction xs with
  | nil => intro p hs; exact hs
  | cons x xs ih =>
    intro p hs
    refine ⟨?_, ih (fun y hy => h y (List.mem_cons_of_mem _ hy)) hs.2⟩
    rw [h x (List.mem_cons_self _ _)]; exact hs.1

theorem PrevSeg_append {f : Nat → Option Nat} {xs ys : List Nat} :
    ∀ {p}, PrevSeg f p (xs ++ ys) ↔ PrevSeg f p xs ∧ PrevSeg f (lastPtr p xs) ys := by
  induction xs with
  | nil => intro p; simp
  | cons x xs ih => intro p; simp only [List.cons_append, PrevSeg_cons, ih, lastPtr_cons, and_assoc]

theorem lastPtr_append (p : Option Nat) (xs ys : List Nat) :
    lastPtr p (xs ++ ys) = lastPtr (lastPtr p xs) ys := by
  induction xs generalizing p with
  | nil => rfl
  | cons x xs ih => simp [ih]

@[simp] theorem lastPtr_concat (p : Option Nat) (xs : List Nat) (x : Nat) :
    lastPtr p (xs ++ [x]) = some x := by
  simp [lastPtr_append]

theorem lastPtr_eq_getLast (xs : List Nat) : lastPtr none xs = xs.getLast? := by
  rcases eq_nil_or_snoc xs with rfl | ⟨ys, b, rfl⟩
  · rfl
  · simp

theorem IsList_frame {s t : Store D} {r : ListRef} {xs : List Nat} (h : IsList s r xs)
    (hl : t.lists r = s.lists r) (hn : ∀ x ∈ xs, t.Next x = s.Next x)
    (hp : ∀ x ∈ xs, t.prev x = s.prev x) : IsList t r xs :=
  ⟨hl ▸ Seg_congr hn h.seg, hl ▸ h.back, hl ▸ h.length, PrevSeg_congr hp h.prevs, h.nodup⟩

theorem IsList_front_eq {s : Store D} {r : ListRef} {xs : List Nat} (h : IsList s r xs) :
    (s.lists r).front = xs.head? := by
  have := h.seg
  cases xs with
  | nil => exact this
  | cons x xs => exact this.1

theorem NodeList_Insert_ok {s : Store D} {r : ListRef} {xs : List Nat} {n : Nat}
    (hl : IsList s r xs) (hn : n ∉ xs) (h0 : xs = [] → s.Next n = none ∧ s.prev n = none) :
    ∃ t, NodeList.Insert r n s = .ok t () ∧ IsList t r (xs ++ [n]) ∧
      ListOp s t r (xs ++ [n]) := by
  rcases eq_nil_or_snoc xs with rfl | ⟨ys, b, rfl⟩
  · have hf : (s.lists r).front = none := hl.seg
    obtain ⟨h1, h2⟩ := h0 rfl
    refine ⟨_, by simp [NodeList.Insert, hf]; rfl, ?_, ?_⟩
    · constructor <;> simp [Seg, PrevSeg, lastPtr, h1, h2]
    · constructor <;> simp +contextual
  · have hb : (s.lists r).back = some b := by rw [hl.back]; simp
    obtain ⟨m, hs1, hs2⟩ := Seg_append.1 hl.seg
    obtain ⟨hp1, hp2⟩ := PrevSeg_append.1 hl.prevs
    have hf : ∃ a, (s.lists r).front = some a := by
      rw [IsList_front_eq hl]; cases ys <;> simp
    obtain ⟨a, hf⟩ := hf
    have hnb : n ≠ b := by rintro rfl; simp at hn
    have hny : n ∉ ys := fun h => hn (by simp [h])
    have hby : b ∉ ys := by
      have := hl.nodup; rw [List.nodup_append] at this
      intro h; exact this.2.2 h (List.mem_singleton_self b) 
    refine ⟨_, by simp [NodeList.Insert, hf, hb]; rfl, ?_, ?_⟩
    · constructor
      · simp only [Store.setList, Store.setNext, Store.setPrev, Function.update_same]
        rw [List.append_assoc, Seg_append]
        refine ⟨m, Seg_congr ?_ (hf ▸ hs1), ?_⟩
        · intro x hx
          have h1 : x ≠ b := fun h => hby (h ▸ hx)
          have h2 : x ≠ n := fun h => hny (h ▸ hx)
          simp [Function.update, h1, h2]
        · simp at hs2 ⊢
          simp [hs2.1, hnb, hnb.symm]
      · simp [lastPtr_append]
      · simp [hl.length]; ring
      · rw [List.append_assoc, PrevSeg_append]
        refine ⟨PrevSeg_congr ?_ hp1, ?_⟩
        · intro x hx
          have h2 : x ≠ n := fun h => hny (h ▸ hx)
          simp [Function.update, h2]
        · simp [hb, hnb.symm] at hp2 ⊢
          exact hp2
      · exact List.Nodup.append hl.nodup (List.nodup_singleton n) (by simpa using hn)
    · constructor <;> simp +contextual [Function.update]

theorem Seg_snoc {f : Nat → Option Nat} {ys : List Nat} {b : Nat} {c e : Option Nat} :
    Seg f c (ys ++ [b]) e ↔ Seg f c ys (some b) ∧ f b = e := by
  rw [Seg_append]
  constructor
  · rintro ⟨m, h1, h2⟩
    simp at h2
    exact ⟨h2.1 ▸ h1, h2.2⟩
  · rintro ⟨h1, h2⟩
    exact ⟨some b, h1, by simp [h2]⟩

theorem PrevSeg_snoc {f : Nat → Option Nat} {ys : List Nat} {b : Nat} {p : Option Nat} :
    PrevSeg f p (ys ++ [b]) ↔ PrevSeg f p ys ∧ f b = lastPtr p ys := by
  rw [PrevSeg_append]; simp

theorem split_of_mem {xs : List Nat} {n : Nat} (h : n ∈ xs) (hd : xs.Nodup) :
    ∃ pre post, xs = pre ++ n :: post ∧ n ∉ pre ∧ n ∉ post ∧ xs.erase n = pre ++ post ∧
      (∀ x ∈ pre, x ∉ post) := by
  obtain ⟨pre, post, rfl⟩ := List.append_of_mem h
  have h1 : n ∉ pre := by
    intro hp
    have := (List.nodup_append.1 hd).2.2 hp (List.mem_cons_self _ _)
    exact this
  have h2 : n ∉ post := by
    have := (List.nodup_append.1 hd).2.1
    exact (List.nodup_cons.1 this).1
  refine ⟨pre, post, rfl, h1, h2, ?_, ?_⟩
  · rw [List.erase_append_right _ h1, List.erase_cons_head]
  · intro x hx hx'
    exact (List.nodup_append.1 hd).2.2 hx (List.mem_cons_of_mem _ hx')

theorem NodeList_Remove_ok {s : Store D} {r : ListRef} {xs : List Nat} {n : Nat}
    (hl : IsList s r xs) (hn : n ∈ xs) :
    ∃ t, NodeList.Remove r (some n) s = (t, some n) ∧ IsList t r (xs.erase n) ∧
      ListOp s t r xs ∧ t.Next n = none ∧ t.prev n = none := by
  obtain ⟨pre, post, rfl, hn1, hn2, he, hdis⟩ := split_of_mem hn hl.nodup
  rw [he]
  have hlen : (s.lists r).length ≠ 0 := by rw [hl.length]; simp; omega
  obtain ⟨m, hs1, hs2⟩ := Seg_append.1 hl.seg
  obtain ⟨hp1, hp2⟩ := PrevSeg_append.1 hl.prevs
  simp only [Seg_cons, PrevSeg_cons] at hs2 hp2
  obtain ⟨rfl, hs2⟩ := hs2
  obtain ⟨hp2, hp3⟩ := hp2
  have hback := hl.back
  have hlength := hl.length
  have hnd := hl.nodup
  have hnd1 : pre.Nodup := (List.nodup_append.1 hnd).1
  have hnd2 : post.Nodup := (List.nodup_cons.1 (List.nodup_append.1 hnd).2.1).2
  rcases eq_nil_or_snoc pre with rfl | ⟨pre, pl, rfl⟩ <;>
  rcases post with _ | ⟨ph, post⟩
  · -- only element
    simp at hs1 hs2 hp2 hback hlength
    refine ⟨_, by simp [NodeList.Remove, hlen, hp2, hs1, hs2, hback]; rfl, ?_, ?_, ?_, ?_⟩
    · constructor <;> simp [hlength]
    · constructor <;> simp +contextual [Function.update]
    · simp
    · simp
  · -- front, with a successor
    simp at hs1 hs2 hp2 hp3 hback hlength hn2 hnd2
    obtain ⟨hs2, hs3⟩ := hs2
    obtain ⟨hp3, hp4⟩ := hp3
    have hne : ph ≠ n := fun h => hn2.1 h.symm
    refine ⟨_, by simp [NodeList.Remove, hlen, hp2, hs1, hs2, hback]; rfl, ?_, ?_, ?_, ?_⟩
    · constructor
      · simp [hne]
        refine Seg_congr ?_ hs3
        intro x hx
        have : x ≠ n := fun h => hn2.2 (h ▸ hx)
        simp [Function.update, this]
      · simp [hback]
      · simp [hlength]
      · simp [hne]
        refine PrevSeg_congr ?_ hp4
        intro x hx
        have h1 : x ≠ n := fun h => hn2.2 (h ▸ hx)
        have h2 : x ≠ ph := fun h => hnd2.1 (h ▸ hx)
        simp [Function.update, h1, h2]
      · simpa using hnd2
    · constructor <;> simp +contextual [Function.update]
    · simp
    · simp
  · -- back, with a predecessor
    simp at hs2 hp2 hback hlength hn1
    rw [Seg_snoc] at hs1
    rw [PrevSeg_snoc] at hp1
    have hne : pl ≠ n := fun h => hn1.2 h.symm
    have hpl : pl ∉ pre := by
      intro h; exact (List.nodup_append.1 hnd1).2.2 h (List.mem_singleton_self _)
    have hback' : (s.lists r).back = some n := by rw [hback]; simp [lastPtr_append]
    refine ⟨_, by simp [NodeList.Remove, hlen, hp2, hs1, hs2, hback', hne.symm]; rfl, ?_, ?_, ?_, ?_⟩
    · constructor
      · simp
        rw [Seg_snoc]
        refine ⟨Seg_congr ?_ hs1.1, by simp [hne]⟩
        intro x hx
        have h1 : x ≠ n := fun h => hn1.1 (h ▸ hx)
        have h2 : x ≠ pl := fun h => hpl (h ▸ hx)
        simp [Function.update, h1, h2]
      · simp
      · simp [hlength]; omega
      · simp
        rw [PrevSeg_snoc]
        refine ⟨PrevSeg_congr ?_ hp1.1, by simp [hne, hp1.2]⟩
        intro x hx
        have h1 : x ≠ n := fun h => hn1.1 (h ▸ hx)
        simp [Function.update, h1]
      · simpa using hnd1
    · constructor <;> simp +contextual [Function.update]
    · simp
    · simp
  · -- in the middle
    simp at hs2 hp2 hp3 hback hlength hn1 hn2 hnd2
    rw [Seg_snoc] at hs1
    rw [PrevSeg_snoc] at hp1
    obtain ⟨hs2, hs3⟩ := hs2
    obtain ⟨hp3, hp4⟩ := hp3
    have hne : pl ≠ n := fun h => hn1.2 h.symm
    have hne2 : ph ≠ n := fun h => hn2.1 h.symm
    have hpl : pl ∉ pre := by
      intro h; exact (List.nodup_append.1 hnd1).2.2 h (List.mem_singleton_self _)
    have hplph : pl ≠ ph := by
      intro h; exact hdis pl (by simp) (by simp [h])
    have hplpost : pl ∉ post := fun h => hdis pl (by simp) (by simp [h])
    refine ⟨_, by simp [NodeList.Remove, hlen, hp2, hs1, hs2, hne.symm]; rfl, ?_, ?_, ?_, ?_⟩
    · constructor
      · simp only [Function.update_same]
        rw [List.append_assoc, Seg_append]
        refine ⟨some pl, Seg_congr ?_ hs1.1, ?_⟩
        · intro x hx
          have h1 : x ≠ n := fun h => hn1.1 (h ▸ hx)
          have h2 : x ≠ pl := fun h => hpl (h ▸ hx)
          simp [Function.update, h1, h2]
        · simp [hne, hne2, hplph.symm]
          refine Seg_congr ?_ hs3
          intro x hx
          have h1 : x ≠ n := fun h => hn2.2 (h ▸ hx)
          have h2 : x ≠ pl := fun h => hplpost (h ▸ hx)
          simp [Function.update, h1, h2]
      · simp [hback, lastPtr_append]
      · simp [hlength]; omega
      · rw [List.append_assoc, PrevSeg_append]
        refine ⟨PrevSeg_congr ?_ hp1.1, ?_⟩
        · intro x hx
          have h1 : x ≠ n := fun h => hn1.1 (h ▸ hx)
          have h2 : x ≠ ph := fun h => hdis x (by simp [hx]) (by simp [h])
          simp [Function.update, h1, h2]
        · simp [hne, hne2, hp1.2, hplph]
          refine PrevSeg_congr ?_ hp4
          intro x hx
          have h1 : x ≠ n := fun h => hn2.2 (h ▸ hx)
          have h2 : x ≠ ph := fun h => hnd2.1 (h ▸ hx)
          simp [Function.update, h1, h2]
      · have := hnd
        rw [List.nodup_append] at this ⊢
        refine ⟨this.1, (List.nodup_cons.1 this.2.1).2, ?_⟩
        intro x hx hx'
        exact this.2.2 hx (List.mem_cons_of_mem _ hx')
    · constructor <;> simp +contextual [Function.update]
    · simp
    · simp

theorem lastPtr_cons_irrel (p q : Option Nat) (x : Nat) (xs : List Nat) :
    lastPtr p (x :: xs) = lastPtr q (x :: xs) := rfl

theorem NodeList_Merge_ok {s : Store D} {r o : ListRef} {xs ys : List Nat}
    (hl : IsList s r xs) (ho : IsList s o ys) (hro : r ≠ o) (hdis : ∀ x ∈ xs, x ∉ ys) :
    ∃ t, NodeList.Merge r (some o) s = .ok t () ∧ IsList t r (xs ++ ys) ∧
      ListOp s t r (xs ++ ys) := by
  rcases ys with _ | ⟨y, ys⟩
  · have hf : (s.lists o).front = none := ho.seg
    refine ⟨s, by simp [NodeList.Merge, hf], by simpa using hl, ?_⟩
    constructor <;> simp
  have hof : (s.lists o).front = some y := ho.seg.1
  have hos : Seg s.Next (s.Next y) ys none := ho.seg.2
  have holen : (s.lists o).length ≠ 0 := by rw [ho.length]; simp; omega
  have hop := ho.prevs
  simp only [PrevSeg_cons] at hop
  have hond := List.nodup_cons.1 ho.nodup
  rcases eq_nil_or_snoc xs with rfl | ⟨xs, b, rfl⟩
  · have hf : (s.lists r).front = none := hl.seg
    refine ⟨_, by simp [NodeList.Merge, hof, holen, hf]; rfl, ?_, ?_⟩
    · constructor
      · simp [hro.symm]
        exact hos
      · simp [hro.symm, ho.back]
      · simp [hro.symm, ho.length]
      · simpa using ho.prevs
      · simpa using ho.nodup
    · constructor <;> simp +contextual [Function.update]
  have hf : ∃ a, (s.lists r).front = some a := by
    rw [IsList_front_eq hl]; cases xs <;> simp
  obtain ⟨a, hf⟩ := hf
  by_cases h1 : (s.lists o).length = 1
  · have hys : ys = [] := by
      have hl' := ho.length
      simp only [List.length_cons, Nat.cast_add, Nat.cast_one] at hl'
      have : (ys.length : Int) = 0 := by omega
      exact List.length_eq_zero.1 (by exact_mod_cast this)
    subst hys
    obtain ⟨t, ht, hlt, hop⟩ :=
      NodeList_Insert_ok (n := y) hl (fun h => hdis y h (by simp)) (by simp)
    exact ⟨t, by simp [NodeList.Merge, hof, holen, hf, h1, ht], hlt, hop⟩
  have hb : (s.lists r).back = some b := by rw [hl.back]; simp
  have hs1 := hl.seg
  rw [Seg_snoc] at hs1
  have hp1 := hl.prevs
  rw [PrevSeg_snoc] at hp1
  have hby : b ≠ y := fun h => hdis b (by simp) (by simp [h])
  have hbys : b ∉ ys := fun h => hdis b (by simp) (by simp [h])
  have hbxs : b ∉ xs := by
    intro h; exact (List.nodup_append.1 hl.nodup).2.2 h (List.mem_singleton_self _)
  have hyxs : y ∉ xs := fun h => hdis y (by simp [h]) (by simp)
  refine ⟨_, by simp [NodeList.Merge, hof, holen, hf, h1, hb]; rfl, ?_, ?_⟩
  · constructor
    · simp only [Function.update_same]
      rw [Seg_append]
      refine ⟨some y, ?_, ?_⟩
      · rw [Seg_snoc]
        refine ⟨Seg_congr ?_ (hf ▸ hs1.1), by simp⟩
        intro x hx
        have h2 : x ≠ b := fun h => hbxs (h ▸ hx)
        simp [Function.update, h2]
      · simp [hby.symm]
        refine Seg_congr ?_ hos
        intro x hx
        have h2 : x ≠ b := fun h => hbys (h ▸ hx)
        simp [Function.update, h2]
    · simp [hro.symm, ho.back, lastPtr_append]
    · simp [hro.symm, ho.length, hl.length]; omega
    · rw [PrevSeg_append, PrevSeg_snoc]
      refine ⟨⟨PrevSeg_congr ?_ hp1.1, ?_⟩, ?_⟩
      · intro x hx
        have h2 : x ≠ y := fun h => hyxs (h ▸ hx)
        simp [Function.update, h2]
      · simp [hby, hp1.2]
      · simp
        refine PrevSeg_congr ?_ hop.2
        intro x hx
        have h2 : x ≠ y := fun h => hond.1 (h ▸ hx)
        simp [Function.update, h2]
    · exact List.Nodup.append hl.nodup ho.nodup (fun x hx hy => hdis x hx hy)
  · constructor <;> simp +contextual [Function.update]

/-! ## The lists of a heap -/

theorem own_congr {s t : Store D} {f x : Nat} (h : t.Parent x = s.Parent x) :
    own f t x = own f s x := by
  simp [own, h]

theorem own_none {s : Store D} {f x : Nat} (h : s.Parent x = none) : own f s x = .trees f := by
  simp [own, h]

theorem own_some {s : Store D} {f x p : Nat} (h : s.Parent x = some p) :
    own f s x = .children p := by
  simp [own, h]

theorem Lists_disjoint {s : Store D} {f : Nat} {N : List Nat} {M : ListRef → List Nat}
    (h : Lists s f N M) {r1 r2 : ListRef} (h1 : Rel f N r1) (h2 : Rel f N r2) {x : Nat}
    (hx1 : x ∈ M r1) (hx2 : x ∈ M r2) : r1 = r2 :=
  (h.memIn r1 h1 x hx1).2.symm.trans (h.memIn r2 h2 x hx2).2

theorem Lists_move {s t : Store D} {f : Nat} {N : List Nat} {M : ListRef → List Nat}
    {r1 r2 : ListRef} {n : Nat}
    (h : Lists s f N M) (h1 : Rel f N r1) (h2 : Rel f N r2) (hne : r1 ≠ r2) (hn : n ∈ M r1)
    (hl1 : IsList t r1 ((M r1).erase n)) (hl2 : IsList t r2 (M r2 ++ [n]))
    (hlists : ∀ r, r ≠ r1 → r ≠ r2 → t.lists r = s.lists r)
    (hnext : ∀ x, x ∉ M r1 → x ∉ M r2 → t.Next x = s.Next x)
    (hprev : ∀ x, x ∉ M r1 → x ∉ M r2 → t.prev x = s.prev x)
    (hown : own f t n = r2) (hpar : ∀ x, x ≠ n → t.Parent x = s.Parent x) :
    Lists t f N (Function.update (Function.update M r1 ((M r1).erase n)) r2 (M r2 ++ [n])) := by
  have hnd1 : (M r1).Nodup := (h.isList r1 h1).nodup
  have hnN : n ∈ N := (h.memIn r1 h1 n hn).1
  have hn2 : n ∉ M r2 := fun hx => hne (Lists_disjoint h h1 h2 hn hx)
  constructor
  · exact h.nodupN
  · intro r hr
    by_cases e2 : r = r2
    · subst e2; simpa using hl2
    by_cases e1 : r = r1
    · subst e1; simpa [Function.update_noteq hne] using hl1
    simp only [Function.update_noteq e2, Function.update_noteq e1]
    refine IsList_frame (h.isList r hr) (hlists r e1 e2) ?_ ?_
    · intro x hx
      exact hnext x (fun hx1 => e1 (Lists_disjoint h hr h1 hx hx1))
        (fun hx2 => e2 (Lists_disjoint h hr h2 hx hx2))
    · intro x hx
      exact hprev x (fun hx1 => e1 (Lists_disjoint h hr h1 hx hx1))
        (fun hx2 => e2 (Lists_disjoint h hr h2 hx hx2))
  · intro r hr x hx
    by_cases e2 : r = r2
    · subst e2
      simp only [Function.update_same, List.mem_append, List.mem_singleton] at hx
      rcases hx with hx | rfl
      · have hxn : x ≠ n := fun e => hn2 (e ▸ hx)
        exact ⟨(h.memIn r hr x hx).1, (own_congr (hpar x hxn)).trans (h.memIn r hr x hx).2⟩
      · exact ⟨hnN, hown⟩
    by_cases e1 : r = r1
    · subst e1
      simp only [Function.update_noteq hne, Function.update_same] at hx
      have hx' := (List.Nodup.mem_erase_iff hnd1).1 hx
      exact ⟨(h.memIn r hr x hx'.2).1, (own_congr (hpar x hx'.1)).trans (h.memIn r hr x hx'.2).2⟩
    simp only [Function.update_noteq e2, Function.update_noteq e1] at hx
    have hxn : x ≠ n := fun e => e1 (Lists_disjoint h hr h1 hx (e ▸ hn))
    exact ⟨(h.memIn r hr x hx).1, (own_congr (hpar x hxn)).trans (h.memIn r hr x hx).2⟩
  · intro x hx
    by_cases hxn : x = n
    · subst hxn
      rw [hown]
      exact ⟨h2, by simp⟩
    rw [own_congr (hpar x hxn)]
    obtain ⟨hr, hm⟩ := h.memOf x hx
    refine ⟨hr, ?_⟩
    by_cases e2 : own f s x = r2
    · rw [e2] at hm ⊢; simp [hm]
    by_cases e1 : own f s x = r1
    · rw [e1] at hm ⊢
      simp only [Function.update_noteq hne, Function.update_same]
      exact (List.Nodup.mem_erase_iff hnd1).2 ⟨hxn, hm⟩
    simpa only [Function.update_noteq e2, Function.update_noteq e1] using hm

/-! ## Frames, `cut` and the linking step -/

theorem Outside_refl (s : Store D) (f : Nat) (A : Nat → Prop) : Outside s s f A := by
  constructor <;> simp

theorem Outside_trans {s t u : Store D} {f : Nat} {A : Nat → Prop}
    (h1 : Outside s t f A) (h2 : Outside t u f A) : Outside s u f A := by
  constructor
  · intro x hx; rw [h2.Value x hx, h1.Value x hx]
  · intro x hx; rw [h2.Data x hx, h1.Data x hx]
  · intro x hx; rw [h2.Parent x hx, h1.Parent x hx]
  · intro x hx; rw [h2.Marked x hx, h1.Marked x hx]
  · intro x hx; rw [h2.Next x hx, h1.Next x hx]
  · intro x hx; rw [h2.prev x hx, h1.prev x hx]
  · intro x hx; rw [h2.children x hx, h1.children x hx]
  · intro g hg; rw [h2.trees g hg, h1.trees g hg]
  · intro g hg; rw [h2.min g hg, h1.min g hg]
  · intro g hg; rw [h2.nodeCount g hg, h1.nodeCount g hg]
  · exact le_trans h1.heapNext h2.heapNext
  · exact le_trans h1.nodeNext h2.nodeNext

theorem Outside_mono {s t : Store D} {f : Nat} {A B : Nat → Prop}
    (h : Outside s t f A) (hAB : ∀ x, A x → B x) : Outside s t f B := by
  constructor
  · intro x hx; exact h.Value x (fun ha => hx (hAB x ha))
  · intro x hx; exact h.Data x (fun ha => hx (hAB x ha))
  · intro x hx; exact h.Parent x (fun ha => hx (hAB x ha))
  · intro x hx; exact h.Marked x (fun ha => hx (hAB x ha))
  · intro x hx; exact h.Next x (fun ha => hx (hAB x ha))
  · intro x hx; exact h.prev x (fun ha => hx (hAB x ha))
  · intro x hx; exact h.children x (fun ha => hx (hAB x ha))
  · exact h.trees
  · exact h.min
  · exact h.nodeCount
  · exact h.heapNext
  · exact h.nodeNext

theorem Outside_of_ListOp {s t : Store D} {f : Nat} {N : List Nat} {r : ListRef} {A : List Nat}
    (h : ListOp s t r A) (hr : Rel f N r) (hA : ∀ x ∈ A, x ∈ N) :
    Outside s t f (fun x => x ∈ N) := by
  constructor
  · intro x _; rw [h.Value]
  · intro x _; rw [h.Data]
  · intro x _; rw [h.Parent]
  · intro x _; rw [h.Marked]
  · intro x hx; exact h.next x (fun ha => hx (hA x ha))
  · intro x hx; exact h.prev x (fun ha => hx (hA x ha))
  · intro x hx; apply h.lists; rintro rfl; exact hx hr
  · intro g hg; apply h.lists; rintro rfl; exact hg hr
  · intro g _; rw [h.min]
  · intro g _; rw [h.nodeCount]
  · exact le_of_eq h.heapNext.symm
  · exact le_of_eq h.nodeNext.symm

theorem Outside_setParent {s : Store D} {f n : Nat} {A : Nat → Prop} (hn : A n)
    (v : Option Nat) : Outside s (s.setParent n v) f A := by
  have hne : ∀ x, ¬ A x → x ≠ n := fun x hx e => hx (e ▸ hn)
  constructor
  case Parent => intro x hx; simp [Function.update, hne x hx]
  all_goals simp

theorem Outside_setMarked {s : Store D} {f n : Nat} {A : Nat → Prop} (hn : A n)
    (v : Bool) : Outside s (s.setMarked n v) f A := by
  have hne : ∀ x, ¬ A x → x ≠ n := fun x hx e => hx (e ▸ hn)
  constructor
  case Marked => intro x hx; simp [Function.update, hne x hx]
  all_goals simp

theorem Outside_setValue {s : Store D} {f n : Nat} {A : Nat → Prop} (hn : A n)
    (v : Val) : Outside s (s.setValue n v) f A := by
  have hne : ∀ x, ¬ A x → x ≠ n := fun x hx e => hx (e ▸ hn)
  constructor
  case Value => intro x hx; simp [Function.update, hne x hx]
  all_goals simp

theorem Outside_setNext {s : Store D} {f n : Nat} {A : Nat → Prop} (hn : A n)
    (v : Option Nat) : Outside s (s.setNext n v) f A := by
  have hne : ∀ x, ¬ A x → x ≠ n := fun x hx e => hx (e ▸ hn)
  constructor
  case Next => intro x hx; simp [Function.update, hne x hx]
  all_goals simp

theorem Outside_setPrev {s : Store D} {f n : Nat} {A : Nat → Prop} (hn : A n)
    (v : Option Nat) : Outside s (s.setPrev n v) f A := by
  have hne : ∀ x, ¬ A x → x ≠ n := fun x hx e => hx (e ▸ hn)
  constructor
  case prev => intro x hx; simp [Function.update, hne x hx]
  all_goals simp

theorem Outside_setMin {s : Store D} {f : Nat} {A : Nat → Prop}
    (v : Option Nat) : Outside s (s.setMin f v) f A := by
  constructor
  case min => intro g hg; simp [Function.update, hg]
  all_goals simp

theorem Outside_setCount {s : Store D} {f : Nat} {A : Nat → Prop}
    (v : Int) : Outside s (s.setCount f v) f A := by
  constructor
  case nodeCount => intro g hg; simp [Function.update, hg]
  all_goals simp

theorem Keeps_refl (s : Store D) : Keeps s s := ⟨rfl, rfl, rfl, rfl, rfl, rfl⟩

theorem Keeps_trans {s t u : Store D} (h1 : Keeps s t) (h2 : Keeps t u) : Keeps s u :=
  ⟨h2.Value.trans h1.Value, h2.Data.trans h1.Data, h2.min.trans h1.min,
    h2.nodeCount.trans h1.nodeCount, h2.nodeNext.trans h1.nodeNext, h2.heapNext.trans h1.heapNext⟩

theorem Keeps_of_ListOp {s t : Store D} {r : ListRef} {A : List Nat} (h : ListOp s t r A) :
    Keeps s t :=
  ⟨h.Value, h.Data, h.min, h.nodeCount, h.nodeNext, h.heapNext⟩

theorem Lists_parent_mem {s : Store D} {f : Nat} {N : List Nat} {M : ListRef → List Nat}
    (h : Lists s f N M) {n p : Nat} (hn : n ∈ N) (hp : s.Parent n = some p) :
    p ∈ N ∧ n ∈ M (.children p) := by
  have := h.memOf n hn
  rw [own_some hp] at this
  exact this

theorem Lists_root_mem {s : Store D} {f : Nat} {N : List Nat} {M : ListRef → List Nat}
    (h : Lists s f N M) {n : Nat} (hn : n ∈ N) (hp : s.Parent n = none) :
    n ∈ M (.trees f) := by
  have := h.memOf n hn
  rw [own_none hp] at this
  exact this.2

theorem cut_ok {s : Store D} {f : Nat} {N : List Nat} {M : ListRef → List Nat} {n p : Nat}
    (h : Lists s f N M) (hn : n ∈ N) (hp : s.Parent n = some p) :
    ∃ t, cut f n s = .ok t () ∧
      Lists t f N (Function.update (Function.update M (.children p)
        ((M (.children p)).erase n)) (.trees f) (M (.trees f) ++ [n])) ∧
      t.Parent = Function.update s.Parent n none ∧
      t.Marked = Function.update s.Marked n false ∧
      Keeps s t ∧ Outside s t f (fun x => x ∈ N) := by
  obtain ⟨hpN, hnp⟩ := Lists_parent_mem h hn hp
  have hr1 : Rel f N (.children p) := hpN
  have hr2 : Rel f N (.trees f) := rfl
  have hne : ListRef.children p ≠ ListRef.trees f := by simp
  have hnR : n ∉ M (.trees f) := fun hx => hne (Lists_disjoint h hr1 hr2 hnp hx)
  let s1 := (s.setParent n none).setMarked n false
  have hl1 : IsList s1 (.children p) (M (.children p)) :=
    IsList_frame (h.isList _ hr1) rfl (fun _ _ => rfl) (fun _ _ => rfl)
  obtain ⟨s2, e2, hl2, op2, hnx, hpv⟩ := NodeList_Remove_ok hl1 hnp
  have hl3 : IsList s2 (.trees f) (M (.trees f)) := by
    refine IsList_frame (h.isList _ hr2) (op2.lists _ hne.symm) ?_ ?_
    · intro x hx
      exact op2.next x (fun hx' => hne (Lists_disjoint h hr1 hr2 hx' hx))
    · intro x hx
      exact op2.prev x (fun hx' => hne (Lists_disjoint h hr1 hr2 hx' hx))
  obtain ⟨t, e3, hl4, op3⟩ := NodeList_Insert_ok hl3 hnR (fun _ => ⟨hnx, hpv⟩)
  have hcut : cut f n s = .ok t () := by
    simp only [cut, hp]
    show NodeList.Insert (.trees f) n (NodeList.Remove (.children p) (some n) s1).1 = _
    rw [e2]; exact e3
  have hPar : t.Parent = Function.update s.Parent n none := by
    rw [op3.Parent, op2.Parent]; rfl
  have hMar : t.Marked = Function.update s.Marked n false := by
    rw [op3.Marked, op2.Marked]; rfl
  refine ⟨t, hcut, ?_, hPar, hMar, ?_, ?_⟩
  · refine Lists_move h hr1 hr2 hne hnp ?_ hl4 ?_ ?_ ?_ ?_ ?_
    · refine IsList_frame hl2 (op3.lists _ hne) ?_ ?_
      · intro x hx
        have hx' := (List.Nodup.mem_erase_iff (h.isList _ hr1).nodup).1 hx
        apply op3.next
        simp only [List.mem_append, List.mem_singleton, not_or]
        exact ⟨fun hx2 => hne (Lists_disjoint h hr1 hr2 hx'.2 hx2), hx'.1⟩
      · intro x hx
        have hx' := (List.Nodup.mem_erase_iff (h.isList _ hr1).nodup).1 hx
        apply op3.prev
        simp only [List.mem_append, List.mem_singleton, not_or]
        exact ⟨fun hx2 => hne (Lists_disjoint h hr1 hr2 hx'.2 hx2), hx'.1⟩
    · intro r h1 h2
      rw [op3.lists r h2, op2.lists r h1]; rfl
    · intro x h1 h2
      have hxn : x ≠ n := fun e => h1 (e ▸ hnp)
      rw [op3.next x (by simp [h2, hxn]), op2.next x h1]; rfl
    · intro x h1 h2
      have hxn : x ≠ n := fun e => h1 (e ▸ hnp)
      rw [op3.prev x (by simp [h2, hxn]), op2.prev x h1]; rfl
    · simp [own, hPar]
    · intro x hx; simp [hPar, Function.update, hx]
  · have k2 := Keeps_of_ListOp op2
    have k3 := Keeps_of_ListOp op3
    exact ⟨k3.Value.trans k2.Value, k3.Data.trans k2.Data, k3.min.trans k2.min,
      k3.nodeCount.trans k2.nodeCount, k3.nodeNext.trans k2.nodeNext,
      k3.heapNext.trans k2.heapNext⟩
  · have o1 : Outside s s1 f (fun x => x ∈ N) :=
      Outside_trans (Outside_setParent hn none) (Outside_setMarked hn false)
    have o2 : Outside s1 s2 f (fun x => x ∈ N) :=
      Outside_of_ListOp op2 hr1 (fun x hx => (h.memIn _ hr1 x hx).1)
    have o3 : Outside s2 t f (fun x => x ∈ N) :=
      Outside_of_ListOp op3 hr2 (fun x hx => by
        simp only [List.mem_append, List.mem_singleton] at hx
        rcases hx with hx | rfl
        · exact (h.memIn _ hr2 x hx).1
        · exact hn)
    exact Outside_trans (Outside_trans o1 o2) o3

/-- The linking step of `consolidate`: `l` is removed from the top level and becomes the last
child of `w`. -/
theorem link_ok {s : Store D} {f : Nat} {N : List Nat} {M : ListRef → List Nat} {w l : Nat}
    (h : Lists s f N M) (hw : w ∈ M (.trees f)) (hl : l ∈ M (.trees f)) (hwl : w ≠ l) :
    ∃ t, Node.AddChild w l (NodeList.Remove (.trees f) (some l) s).1 = .ok t () ∧
      Lists t f N (Function.update (Function.update M (.trees f)
        ((M (.trees f)).erase l)) (.children w) (M (.children w) ++ [l])) ∧
      t.Parent = Function.update s.Parent l (some w) ∧
      t.Marked = s.Marked ∧
      Keeps s t ∧ Outside s t f (fun x => x ∈ N) := by
  have hr1 : Rel f N (.trees f) := rfl
  have hwN : w ∈ N := (h.memIn _ hr1 w hw).1
  have hlN : l ∈ N := (h.memIn _ hr1 l hl).1
  have hr2 : Rel f N (.children w) := hwN
  have hne : ListRef.trees f ≠ ListRef.children w := by simp
  have hlK : l ∉ M (.children w) := fun hx => hne (Lists_disjoint h hr1 hr2 hl hx)
  obtain ⟨s1, e1, hl1, op1, hnx, hpv⟩ := NodeList_Remove_ok (h.isList _ hr1) hl
  let s2 := ((s1.setParent l (some w)).setNext l none).setPrev l none
  have hl2 : IsList s2 (.children w) (M (.children w)) := by
    refine IsList_frame (h.isList _ hr2) (op1.lists _ hne.symm) ?_ ?_
    · intro x hx
      have hxl : x ≠ l := fun e => hlK (e ▸ hx)
      have : s2.Next x = s1.Next x := by simp [s2, Function.update, hxl]
      rw [this]
      exact op1.next x (fun hx' => hne (Lists_disjoint h hr1 hr2 hx' hx))
    · intro x hx
      have hxl : x ≠ l := fun e => hlK (e ▸ hx)
      have : s2.prev x = s1.prev x := by simp [s2, Function.update, hxl]
      rw [this]
      exact op1.prev x (fun hx' => hne (Lists_disjoint h hr1 hr2 hx' hx))
  obtain ⟨t, e3, hl4, op3⟩ := NodeList_Insert_ok hl2 hlK (fun _ => by simp [s2])
  have hadd : Node.AddChild w l (NodeList.Remove (.trees f) (some l) s).1 = .ok t () := by
    rw [e1]; exact e3
  have hPar : t.Parent = Function.update s.Parent l (some w) := by
    rw [op3.Parent]; show Function.update s1.Parent l (some w) = _; rw [op1.Parent]
  have hMar : t.Marked = s.Marked := by
    rw [op3.Marked]; show s1.Marked = _; rw [op1.Marked]
  have hs2next : ∀ x, x ≠ l → s2.Next x = s1.Next x := by
    intro x hx; simp [s2, Function.update, hx]
  have hs2prev : ∀ x, x ≠ l → s2.prev x = s1.prev x := by
    intro x hx; simp [s2, Function.update, hx]
  refine ⟨t, hadd, ?_, hPar, hMar, ?_, ?_⟩
  · refine Lists_move h hr1 hr2 hne hl ?_ hl4 ?_ ?_ ?_ ?_ ?_
    · have hl1' : IsList s2 (.trees f) ((M (.trees f)).erase l) := by
        refine IsList_frame hl1 rfl ?_ ?_
        · intro x hx
          exact hs2next x ((List.Nodup.mem_erase_iff (h.isList _ hr1).nodup).1 hx).1
        · intro x hx
          exact hs2prev x ((List.Nodup.mem_erase_iff (h.isList _ hr1).nodup).1 hx).1
      refine IsList_frame hl1' (op3.lists _ hne) ?_ ?_
      · intro x hx
        have hx' := (List.Nodup.mem_erase_iff (h.isList _ hr1).nodup).1 hx
        apply op3.next
        simp only [List.mem_append, List.mem_singleton, not_or]
        exact ⟨fun hx2 => hne (Lists_disjoint h hr1 hr2 hx'.2 hx2), hx'.1⟩
      · intro x hx
        have hx' := (List.Nodup.mem_erase_iff (h.isList _ hr1).nodup).1 hx
        apply op3.prev
        simp only [List.mem_append, List.mem_singleton, not_or]
        exact ⟨fun hx2 => hne (Lists_disjoint h hr1 hr2 hx'.2 hx2), hx'.1⟩
    · intro r h1 h2
      rw [op3.lists r h2]; show s1.lists r = _; rw [op1.lists r h1]
    · intro x h1 h2
      have hxl : x ≠ l := fun e => h1 (e ▸ hl)
      rw [op3.next x (by simp [h2, hxl]), hs2next x hxl, op1.next x h1]
    · intro x h1 h2
      have hxl : x ≠ l := fun e => h1 (e ▸ hl)
      rw [op3.prev x (by simp [h2, hxl]), hs2prev x hxl, op1.prev x h1]
    · simp [own, hPar]
    · intro x hx; simp [hPar, Function.update, hx]
  · have k1 := Keeps_of_ListOp op1
    have k3 := Keeps_of_ListOp op3
    exact ⟨k3.Value.trans k1.Value, k3.Data.trans k1.Data, k3.min.trans k1.min,
      k3.nodeCount.trans k1.nodeCount, k3.nodeNext.trans k1.nodeNext,
      k3.heapNext.trans k1.heapNext⟩
  · have o1 : Outside s s1 f (fun x => x ∈ N) :=
      Outside_of_ListOp op1 hr1 (fun x hx => (h.memIn _ hr1 x hx).1)
    have o2 : Outside s1 s2 f (fun x => x ∈ N) :=
      Outside_trans (Outside_trans (Outside_setParent hlN (some w)) (Outside_setNext hlN none))
        (Outside_setPrev hlN none)
    have o3 : Outside s2 t f (fun x => x ∈ N) :=
      Outside_of_ListOp op3 hr2 (fun x hx => by
        simp only [List.mem_append, List.mem_singleton] at hx
        rcases hx with hx | rfl
        · exact (h.memIn _ hr2 x hx).1
        · exact hlN)
    exact Outside_trans (Outside_trans o1 o2) o3

/-! ## Shape lemmas and the first half of `ExtractMin` -/

theorem cut_shape {s : Store D} {f : Nat} {N : List Nat} {M : ListRef → List Nat}
    {H : Nat → Nat} {n p : Nat}
    (h : Shape s f N M H) (hn : n ∈ N) (hp : s.Parent n = some p) :
    ∃ t, cut f n s = .ok t () ∧
      Shape t f N (Function.update (Function.update M (.children p)
        ((M (.children p)).erase n)) (.trees f) (M (.trees f) ++ [n])) H ∧
      t.Parent = Function.update s.Parent n none ∧
      t.Marked = Function.update s.Marked n false ∧
      Keeps s t ∧ Outside s t f (fun x => x ∈ N) := by
  obtain ⟨t, e, hl, hP, hM, hk, ho⟩ := cut_ok h.lists hn hp
  refine ⟨t, e, ⟨hl, ?_, ?_⟩, hP, hM, hk, ho⟩
  · intro x hx q hq
    rw [hP] at hq
    by_cases hxn : x = n
    · subst hxn; simp at hq
    · rw [Function.update_noteq hxn] at hq
      exact h.height x hx q hq
  · intro x hx
    simp only [Function.update_same, List.mem_append, List.mem_singleton] at hx
    rw [hM]
    rcases hx with hx | rfl
    · by_cases hxn : x = n
      · subst hxn; simp
      · rw [Function.update_noteq hxn]; exact h.unmarked x hx
    · simp

theorem link_shape {s : Store D} {f : Nat} {N : List Nat} {M : ListRef → List Nat}
    {H : Nat → Nat} {w l : Nat}
    (h : Shape s f N M H) (hw : w ∈ M (.trees f)) (hl : l ∈ M (.trees f)) (hwl : w ≠ l) :
    ∃ t, Node.AddChild w l (NodeList.Remove (.trees f) (some l) s).1 = .ok t () ∧
      Shape t f N (Function.update (Function.update M (.trees f)
        ((M (.trees f)).erase l)) (.children w) (M (.children w) ++ [l]))
        (Function.update H w (max (H w) (H l + 1))) ∧
      t.Parent = Function.update s.Parent l (some w) ∧
      t.Marked = s.Marked ∧
      Keeps s t ∧ Outside s t f (fun x => x ∈ N) := by
  obtain ⟨t, e, hL, hP, hM, hk, ho⟩ := link_ok h.lists hw hl hwl
  have hwroot : s.Parent w = none := by
    have := (h.lists.memIn _ (show Rel f N (.trees f) from rfl) w hw).2
    unfold own at this
    cases hq : s.Parent w with
    | none => rfl
    | some q => rw [hq] at this; simp at this
  refine ⟨t, e, ⟨hL, ?_, ?_⟩, hP, hM, hk, ho⟩
  · intro x hx q hq
    rw [hP] at hq
    by_cases hxl : x = l
    · subst hxl
      simp only [Function.update_same, Option.some.injEq] at hq
      subst hq
      simp only [Function.update_same, Function.update_noteq hwl.symm]
      omega
    · rw [Function.update_noteq hxl] at hq
      have hxw : x ≠ w := by rintro rfl; rw [hwroot] at hq; simp at hq
      have := h.height x hx q hq
      rw [Function.update_noteq hxw]
      by_cases hqw : q = w
      · subst hqw; simp only [Function.update_same]; omega
      · rw [Function.update_noteq hqw]; exact this
  · intro x hx
    have hne : ListRef.trees f ≠ ListRef.children w := by simp
    simp only [Function.update_noteq hne, Function.update_same] at hx
    rw [hM]
    exact h.unmarked x (List.mem_of_mem_erase hx)

theorem promote_nil (s : Store D) : promote [] s = s := by
  cases s; simp [promote]

theorem ExtractMin_loop_ok {ks : List Nat} :
    ∀ {s : Store D} {c : Option Nat} (fuel : Nat), Seg s.Next c ks none → ks.length < fuel →
      ExtractMin.loop fuel c s = .ok (promote ks s) () := by
  induction ks with
  | nil =>
    intro s c fuel hs hf
    simp only [Seg_nil] at hs
    subst hs
    obtain ⟨k, rfl⟩ : ∃ k, fuel = k + 1 := ⟨fuel - 1, by simp at hf; omega⟩
    simp [ExtractMin.loop, promote_nil]
  | cons x ks ih =>
    intro s c fuel hs hf
    simp only [Seg_cons] at hs
    obtain ⟨rfl, hs⟩ := hs
    obtain ⟨k, rfl⟩ : ∃ k, fuel = k + 1 := ⟨fuel - 1, by simp at hf; omega⟩
    simp only [ExtractMin.loop]
    refine (ih (s := (s.setParent x none).setMarked x false) (c := s.Next x) k hs
      (by simpa using hf)).trans ?_
    congr 1
    simp only [promote, Store.setParent, Store.setMarked, List.mem_cons]
    congr 1
    · funext y
      by_cases h1 : y = x <;> by_cases h2 : y ∈ ks <;> simp [h1, h2, Function.update]
    · funext y
      by_cases h1 : y = x <;> by_cases h2 : y ∈ ks <;> simp [h1, h2, Function.update]

theorem Lists_own_trees {s : Store D} {f : Nat} {N : List Nat} {M : ListRef → List Nat}
    (h : Lists s f N M) {x : Nat} (hx : x ∈ M (.trees f)) : s.Parent x = none := by
  have := (h.memIn _ (show Rel f N (.trees f) from rfl) x hx).2
  unfold own at this
  cases hq : s.Parent x with
  | none => rfl
  | some q => rw [hq] at this; simp at this

theorem Lists_own_children {s : Store D} {f : Nat} {N : List Nat} {M : ListRef → List Nat}
    (h : Lists s f N M) {x p : Nat} (hp : p ∈ N) (hx : x ∈ M (.children p)) :
    s.Parent x = some p := by
  have := (h.memIn _ (show Rel f N (.children p) from hp) x hx).2
  unfold own at this
  cases hq : s.Parent x with
  | none => rw [hq] at this; simp at this
  | some q => rw [hq] at this; simp at this; rw [this]

/-- The first half of `ExtractMin`: the minimum root `m` is removed from the top level, its
children are made roots and spliced into the top level. -/
theorem extract_prefix_shape {s : Store D} {f : Nat} {N : List Nat} {M : ListRef → List Nat}
    {H : Nat → Nat} {m : Nat} (h : Shape s f N M H) (hm : m ∈ M (.trees f)) (c : Int) :
    ∃ t, NodeList.Merge (.trees f) (some (.children m))
        (promote (M (.children m))
          ((NodeList.Remove (.trees f) (some m) s).1.setCount f c)) = .ok t () ∧
      Shape t f (N.erase m)
        (Function.update M (.trees f) ((M (.trees f)).erase m ++ M (.children m))) H ∧
      t.Parent = (fun x => if x ∈ M (.children m) then none else s.Parent x) ∧
      t.Marked = (fun x => if x ∈ M (.children m) then false else s.Marked x) ∧
      t.Value = s.Value ∧ t.Data = s.Data ∧ t.min = s.min ∧
      t.nodeCount = Function.update s.nodeCount f c ∧
      t.nodeNext = s.nodeNext ∧ t.heapNext = s.heapNext ∧
      Outside s t f (fun x => x ∈ N) := by
  have hL := h.lists
  have hr1 : Rel f N (.trees f) := rfl
  have hmN : m ∈ N := (hL.memIn _ hr1 m hm).1
  have hr2 : Rel f N (.children m) := hmN
  have hne : ListRef.trees f ≠ ListRef.children m := by simp
  have hRnd := (hL.isList _ hr1).nodup
  have hdisj : ∀ x, x ∈ M (.trees f) → x ∉ M (.children m) :=
    fun x h1 h2 => hne (Lists_disjoint hL hr1 hr2 h1 h2)
  obtain ⟨s1, e1, hl1, op1, -, -⟩ := NodeList_Remove_ok (hL.isList _ hr1) hm
  let s3 := promote (M (.children m)) (s1.setCount f c)
  have hl3 : IsList s3 (.trees f) ((M (.trees f)).erase m) :=
    IsList_frame hl1 rfl (fun _ _ => rfl) (fun _ _ => rfl)
  have hk3 : IsList s3 (.children m) (M (.children m)) := by
    refine IsList_frame (hL.isList _ hr2) (op1.lists _ hne.symm) ?_ ?_
    · intro x hx; exact op1.next x (fun hx' => hdisj x hx' hx)
    · intro x hx; exact op1.prev x (fun hx' => hdisj x hx' hx)
  obtain ⟨t, e3, hl4, op3⟩ := NodeList_Merge_ok hl3 hk3 hne
    (fun x hx => hdisj x (List.mem_of_mem_erase hx))
  have hPar : t.Parent = (fun x => if x ∈ M (.children m) then none else s.Parent x) := by
    rw [op3.Parent]; show (fun x => if x ∈ M (.children m) then none else s1.Parent x) = _
    rw [op1.Parent]
  have hMar : t.Marked = (fun x => if x ∈ M (.children m) then false else s.Marked x) := by
    rw [op3.Marked]; show (fun x => if x ∈ M (.children m) then false else s1.Marked x) = _
    rw [op1.Marked]
  have hframe : ∀ r, r ≠ .trees f → ∀ xs : List Nat, (∀ x ∈ xs, x ∉ M (.trees f)) →
      (∀ x ∈ xs, x ∉ M (.children m)) → IsList s r xs → IsList t r xs := by
    intro r hr xs h1 h2 hi
    refine IsList_frame hi ?_ ?_ ?_
    · rw [op3.lists r hr]; show s1.lists r = _; exact op1.lists r hr
    · intro x hx
      rw [op3.next x (by
        simp only [List.mem_append, not_or]
        exact ⟨fun hx' => h1 x hx (List.mem_of_mem_erase hx'), h2 x hx⟩)]
      exact op1.next x (h1 x hx)
    · intro x hx
      rw [op3.prev x (by
        simp only [List.mem_append, not_or]
        exact ⟨fun hx' => h1 x hx (List.mem_of_mem_erase hx'), h2 x hx⟩)]
      exact op1.prev x (h1 x hx)
  refine ⟨t, by rw [e1] at *; exact e3, ⟨⟨?_, ?_, ?_, ?_⟩, ?_, ?_⟩, hPar, hMar, ?_, ?_, ?_, ?_, ?_, ?_, ?_⟩
  · exact hL.nodupN.erase m
  · intro r hr
    cases r with
    | trees g =>
      have : g = f := hr
      subst this
      simpa using hl4
    | children x =>
      have hx : x ∈ N.erase m := hr
      have hx' := (List.Nodup.mem_erase_iff hL.nodupN).1 hx
      have hrx : Rel f N (.children x) := hx'.2
      have hnx : ListRef.children x ≠ ListRef.trees f := by simp
      have hxm : ListRef.children x ≠ ListRef.children m := by simp [hx'.1]
      rw [Function.update_noteq hnx]
      exact hframe _ hnx _ (fun y hy hy' => hnx (Lists_disjoint hL hrx hr1 hy hy'))
        (fun y hy hy' => hxm (Lists_disjoint hL hrx hr2 hy hy')) (hL.isList _ hrx)
  · intro r hr x hx
    cases r with
    | trees g =>
      have : g = f := hr
      subst this
      simp only [Function.update_same, List.mem_append] at hx
      rcases hx with hx | hx
      · have hx' := (List.Nodup.mem_erase_iff hRnd).1 hx
        refine ⟨(List.Nodup.mem_erase_iff hL.nodupN).2 ⟨hx'.1, (hL.memIn _ hr1 x hx'.2).1⟩, ?_⟩
        simp [own, hPar, hdisj x hx'.2, Lists_own_trees hL hx'.2]
      · have hxm : x ≠ m := fun e => hdisj m hm (e ▸ hx)
        refine ⟨(List.Nodup.mem_erase_iff hL.nodupN).2 ⟨hxm, (hL.memIn _ hr2 x hx).1⟩, ?_⟩
        simp [own, hPar, hx]
    | children y =>
      have hy : y ∈ N.erase m := hr
      have hy' := (List.Nodup.mem_erase_iff hL.nodupN).1 hy
      have hry : Rel f N (.children y) := hy'.2
      have hny : ListRef.children y ≠ ListRef.trees f := by simp
      have hym : ListRef.children y ≠ ListRef.children m := by simp [hy'.1]
      rw [Function.update_noteq hny] at hx
      have hxK : x ∉ M (.children m) := fun hx' => hym (Lists_disjoint hL hry hr2 hx hx')
      have hxm : x ≠ m := fun e => hny (Lists_disjoint hL hry hr1 hx (e ▸ hm))
      refine ⟨(List.Nodup.mem_erase_iff hL.nodupN).2 ⟨hxm, (hL.memIn _ hry x hx).1⟩, ?_⟩
      simp [own, hPar, hxK, Lists_own_children hL hy'.2 hx]
  · intro x hx
    have hx' := (List.Nodup.mem_erase_iff hL.nodupN).1 hx
    by_cases hxK : x ∈ M (.children m)
    · have : own f t x = .trees f := by simp [own, hPar, hxK]
      rw [this]
      exact ⟨rfl, by simp [hxK]⟩
    · have hown : own f t x = own f s x := by simp [own, hPar, hxK]
      rw [hown]
      obtain ⟨hrel, hmem⟩ := hL.memOf x hx'.2
      cases hp : s.Parent x with
      | none =>
        rw [own_none hp] at hmem ⊢
        refine ⟨rfl, ?_⟩
        simp only [Function.update_same, List.mem_append]
        exact Or.inl ((List.Nodup.mem_erase_iff hRnd).2 ⟨hx'.1, hmem⟩)
      | some p =>
        rw [own_some hp] at hmem hrel ⊢
        have hpm : p ≠ m := by rintro rfl; exact hxK hmem
        have hpN : p ∈ N := hrel
        refine ⟨(List.Nodup.mem_erase_iff hL.nodupN).2 ⟨hpm, hpN⟩, ?_⟩
        rw [Function.update_noteq (by simp)]
        exact hmem
  · intro x hx p hp
    have hx' := (List.Nodup.mem_erase_iff hL.nodupN).1 hx
    rw [hPar] at hp
    by_cases hxK : x ∈ M (.children m)
    · simp [hxK] at hp
    · simp only [hxK, if_false] at hp
      exact h.height x hx'.2 p hp
  · intro x hx
    simp only [Function.update_same, List.mem_append] at hx
    rw [hMar]
    by_cases hxK : x ∈ M (.children m)
    · simp [hxK]
    · simp only [hxK, if_false]
      rcases hx with hx | hx
      · exact h.unmarked x (List.mem_of_mem_erase hx)
      · exact absurd hx hxK
  · rw [op3.Value]; show s1.Value = _; exact op1.Value
  · rw [op3.Data]; show s1.Data = _; exact op1.Data
  · rw [op3.min]; show s1.min = _; exact op1.min
  · rw [op3.nodeCount]; show Function.update s1.nodeCount f c = _; rw [op1.nodeCount]
  · rw [op3.nodeNext]; show s1.nodeNext = _; exact op1.nodeNext
  · rw [op3.heapNext]; show s1.heapNext = _; exact op1.heapNext
  · have o1 : Outside s s1 f (fun x => x ∈ N) :=
      Outside_of_ListOp op1 hr1 (fun x hx => (hL.memIn _ hr1 x hx).1)
    have o2 : Outside s1 (s1.setCount f c) f (fun x => x ∈ N) := Outside_setCount c
    have o3 : Outside (s1.setCount f c) s3 f (fun x => x ∈ N) := by
      have hK : ∀ x, x ∉ N → x ∉ M (.children m) := fun x hx hx' => hx (hL.memIn _ hr2 x hx').1
      constructor
      case Parent => intro x hx; simp [s3, promote, hK x hx]
      case Marked => intro x hx; simp [s3, promote, hK x hx]
      all_goals simp [s3, promote]
    have o4 : Outside s3 t f (fun x => x ∈ N) :=
      Outside_of_ListOp op3 hr1 (fun x hx => by
        simp only [List.mem_append] at hx
        rcases hx with hx | hx
        · exact (hL.memIn _ hr1 x (List.mem_of_mem_erase hx)).1
        · exact (hL.memIn _ hr2 x hx).1)
    exact Outside_trans (Outside_trans (Outside_trans o1 o2) o3) o4

/-! ## Runs with fuel, the loop of `ExtractMin`, and `resetMin` -/

@[simp] theorem bind_ok {α β : Type} (t : Store D) (a : α) (k : Store D → α → Res D β) :
    (Res.ok t a).bind k = k t a := rfl

@[simp] theorem bind_crash {α β : Type} (t : Store D) (k : Store D → α → Res D β) :
    (Res.crash t : Res D α).bind k = .crash t := rfl

@[simp] theorem bind_timeout {α β : Type} (k : Store D → α → Res D β) :
    (Res.timeout : Res D α).bind k = .timeout := rfl

theorem Runs_const {α : Type} {run : Nat → Res D α} {t : Store D} {a : α}
    (h : ∀ fuel, run fuel = .ok t a) : Runs run 0 t a := by
  intro fuel; simp [h]

theorem Runs_bind {α β : Type} {r : Nat → Res D α} {k : Nat → Store D → α → Res D β}
    {K1 K2 : Nat} {t u : Store D} {a : α} {b : β}
    (h1 : Runs r K1 t a) (h2 : Runs (fun fuel => k fuel t a) K2 u b) :
    Runs (fun fuel => (r fuel).bind (k fuel)) (max K1 K2) u b := by
  intro fuel
  have e1 := h1 fuel
  have e2 := h2 fuel
  simp only at e2 ⊢
  rw [e1]
  by_cases c1 : K1 ≤ fuel
  · simp only [c1, if_true, bind_ok, e2]
    by_cases c2 : K2 ≤ fuel
    · simp [c1, c2]
    · simp [c2]
  · simp [c1]

theorem Runs_succ {α : Type} {run : Nat → Res D α} {step : Nat → Res D α} {K : Nat}
    {t : Store D} {a : α} (h0 : run 0 = .timeout) (hs : ∀ k, run (k + 1) = step k)
    (h : Runs step K t a) : Runs run (K + 1) t a := by
  intro fuel
  cases fuel with
  | zero => simp [h0]
  | succ k => rw [hs k, h k]; simp

theorem Runs_ok {α : Type} {run : Nat → Res D α} {K : Nat} {t u : Store D} {a b : α}
    (h : Runs run K t a) {fuel : Nat} (hr : run fuel = .ok u b) : u = t ∧ b = a := by
  rw [h fuel] at hr
  split at hr
  · injection hr with e1 e2; exact ⟨e1.symm, e2.symm⟩
  · cases hr

theorem Runs_enough {α : Type} {run : Nat → Res D α} {K : Nat} {t : Store D} {a : α}
    (h : Runs run K t a) : run K = .ok t a := by
  rw [h K]; simp

theorem Runs_congr {α : Type} {run run' : Nat → Res D α} {K : Nat} {t : Store D} {a : α}
    (h : Runs run K t a) (e : ∀ fuel, run' fuel = run fuel) : Runs run' K t a := by
  intro fuel; rw [e, h]

theorem ExtractMin_loop_runs {ks : List Nat} :
    ∀ {s : Store D} {c : Option Nat}, Seg s.Next c ks none →
      Runs (fun fuel => ExtractMin.loop fuel c s) (ks.length + 1) (promote ks s) () := by
  induction ks with
  | nil =>
    intro s c hs
    simp only [Seg_nil] at hs
    subst hs
    intro fuel
    cases fuel with
    | zero => simp [ExtractMin.loop]
    | succ k => simp [ExtractMin.loop, promote_nil]
  | cons x ks ih =>
    intro s c hs
    simp only [Seg_cons] at hs
    obtain ⟨rfl, hs⟩ := hs
    have := ih (s := (s.setParent x none).setMarked x false) (c := s.Next x) hs
    have e : promote ks ((s.setParent x none).setMarked x false) = promote (x :: ks) s := by
      simp only [promote, Store.setParent, Store.setMarked, List.mem_cons]
      congr 1
      · funext y
        by_cases h1 : y = x <;> by_cases h2 : y ∈ ks <;> simp [h1, h2, Function.update]
      · funext y
        by_cases h1 : y = x <;> by_cases h2 : y ∈ ks <;> simp [h1, h2, Function.update]
    rw [e] at this
    exact Runs_succ rfl (fun k => rfl) this

theorem setMin_self (s : Store D) (f : Nat) : s.setMin f (s.min f) = s := by
  cases s; simp

theorem resetMin_loop_runs (f : Nat) {xs : List Nat} :
    ∀ {s : Store D} {c : Option Nat} (m : Val), Seg s.Next c xs none →
      Runs (fun fuel => resetMin.loop f fuel m c s) (xs.length + 1)
        (s.setMin f (scanMin s.Value m (s.min f) xs)) () := by
  induction xs with
  | nil =>
    intro s c m hs
    simp only [Seg_nil] at hs
    subst hs
    intro fuel
    cases fuel with
    | zero => simp [resetMin.loop]
    | succ k => simp [resetMin.loop, scanMin]
  | cons x xs ih =>
    intro s c m hs
    simp only [Seg_cons] at hs
    obtain ⟨rfl, hs⟩ := hs
    by_cases hlt : s.Value x < m
    · have := ih (s := s.setMin f (some x)) (c := s.Next x) (s.Value x) hs
      have e : (s.setMin f (some x)).setMin f
          (scanMin (s.setMin f (some x)).Value (s.Value x) ((s.setMin f (some x)).min f) xs) =
          s.setMin f (scanMin s.Value m (s.min f) (x :: xs)) := by
        simp [scanMin, hlt]
      rw [e] at this
      exact Runs_succ rfl (fun k => by simp [resetMin.loop, hlt]) this
    · have := ih (s := s) (c := s.Next x) m hs
      have e : s.setMin f (scanMin s.Value m (s.min f) xs) =
          s.setMin f (scanMin s.Value m (s.min f) (x :: xs)) := by
        simp [scanMin, hlt]
      rw [e] at this
      exact Runs_succ rfl (fun k => by simp [resetMin.loop, hlt]) this

theorem scanMin_mem (val : Nat → Val) (xs : List Nat) :
    ∀ (m : Val) (cur : Option Nat),
      scanMin val m cur xs = cur ∨ ∃ y ∈ xs, scanMin val m cur xs = some y := by
  induction xs with
  | nil => intro m cur; left; simp [scanMin]
  | cons x xs ih =>
    intro m cur
    simp only [scanMin]
    split
    · right
      rcases ih (val x) (some x) with h1 | ⟨y, hy, h1⟩
      · exact ⟨x, by simp, h1⟩
      · exact ⟨y, by simp [hy], h1⟩
    · rcases ih m cur with h1 | ⟨y, hy, h1⟩
      · exact Or.inl h1
      · exact Or.inr ⟨y, by simp [hy], h1⟩

theorem scanMin_spec (val : Nat → Val) (xs : List Nat) (hnn : ∀ x ∈ xs, val x ≠ Val.nan) :
    ∀ (m : Val) (cur : Option Nat), m ≠ Val.nan →
      (scanMin val m cur xs = cur ∧ ∀ x ∈ xs, m ≤ val x) ∨
      (∃ y ∈ xs, scanMin val m cur xs = some y ∧ val y < m ∧ ∀ x ∈ xs, val y ≤ val x) := by
  induction xs with
  | nil => intro m cur _; left; simp [scanMin]
  | cons x xs ih =>
    intro m cur hm
    have hx : val x ≠ Val.nan := hnn x (by simp)
    have ih' := ih (fun z hz => hnn z (List.mem_cons_of_mem _ hz))
    simp only [scanMin]
    split
    · rename_i hlt
      right
      rcases ih' (val x) (some x) hx with ⟨h1, h2⟩ | ⟨y, hy, h1, h2, h3⟩
      · refine ⟨x, by simp, h1, hlt, ?_⟩
        intro z hz
        simp only [List.mem_cons] at hz
        rcases hz with rfl | hz
        · exact Val_le_refl hx
        · exact h2 z hz
      · refine ⟨y, by simp [hy], h1, Val_lt_trans h2 hlt, ?_⟩
        intro z hz
        simp only [List.mem_cons] at hz
        rcases hz with rfl | hz
        · exact Val_le_of_lt h2
        · exact h3 z hz
    · rename_i hlt
      have hle : m ≤ val x := Val_le_of_not_lt hx hm hlt
      rcases ih' m cur hm with ⟨h1, h2⟩ | ⟨y, hy, h1, h2, h3⟩
      · left
        refine ⟨h1, ?_⟩
        intro z hz
        simp only [List.mem_cons] at hz
        rcases hz with rfl | hz
        · exact hle
        · exact h2 z hz
      · right
        refine ⟨y, by simp [hy], h1, h2, ?_⟩
        intro z hz
        simp only [List.mem_cons] at hz
        rcases hz with rfl | hz
        · exact Val_le_trans (Val_le_of_lt h2) hle
        · exact h3 z hz

/-- `resetMin` on a well-formed top-level list `R`: only `f.min` changes, to nil or to a
root; when no root has the key `NaN`, it is nil exactly when every root has value `+Inf`,
otherwise a root of minimal value. -/
theorem resetMin_runs {s : Store D} {f : Nat} {R : List Nat} (hl : IsList s (.trees f) R) :
    ∃ r, Runs (fun fuel => resetMin fuel f s) (R.length + 1) (s.setMin f r) () ∧
      (∀ y, r = some y → y ∈ R) ∧
      ((∀ x ∈ R, s.Value x ≠ Val.nan) →
        ((r = none ∧ ∀ x ∈ R, s.Value x = Val.posInf) ∨
         (∃ y ∈ R, r = some y ∧ s.Value y < Val.posInf ∧
          ∀ x ∈ R, s.Value y ≤ s.Value x))) := by
  have hs : Seg (s.setMin f none).Next (NodeList.Front (.trees f) (s.setMin f none)) R none :=
    hl.seg
  refine ⟨scanMin s.Value Val.posInf none R, ?_, ?_, ?_⟩
  · have := resetMin_loop_runs f Val.posInf hs
    have e : (s.setMin f none).setMin f
        (scanMin (s.setMin f none).Value Val.posInf ((s.setMin f none).min f) R) =
        s.setMin f (scanMin s.Value Val.posInf none R) := by simp
    rw [e] at this
    exact this
  · intro y hy
    rcases scanMin_mem s.Value R Val.posInf none with h1 | ⟨z, hz, h1⟩
    · rw [h1] at hy; cases hy
    · rw [h1] at hy
      cases hy
      exact hz
  · intro hnn
    rcases scanMin_spec s.Value R hnn Val.posInf none (by intro e; cases e) with
      ⟨h1, h2⟩ | ⟨y, hy, h1, h2, h3⟩
    · left
      exact ⟨h1, fun x hx => Val_posInf_le (h2 x hx)⟩
    · right
      exact ⟨y, hy, h1, h2, h3⟩

/-! ## `consolidate` -/

theorem Degree_eq_length {s : Store D} {f : Nat} {N : List Nat} {M : ListRef → List Nat}
    (h : Lists s f N M) {x : Nat} (hx : x ∈ N) :
    Node.Degree x s = (M (.children x)).length :=
  (h.isList (.children x) hx).length

theorem Seg_head {g : Nat → Option Nat} {c : Option Nat} {xs : List Nat}
    (h : Seg g c xs none) : c = xs.head? := by
  cases xs with
  | nil => exact h
  | cons x xs => exact h.1

theorem erase_mid {pre tl : List Nat} {c : Nat} (hc : c ∉ pre) :
    (pre ++ c :: tl).erase c = pre ++ tl := by
  rw [List.erase_append_right _ hc, List.erase_cons_head]

theorem erase_around {pre mid rest : List Nat} {c r : Nat} (hrc : r ≠ c)
    (hr : r ∈ pre ∨ r ∈ mid) (hnd : (pre ++ c :: (mid ++ rest)).Nodup) :
    (pre ++ c :: (mid ++ rest)).erase r = pre.erase r ++ c :: (mid.erase r ++ rest) := by
  by_cases h1 : r ∈ pre
  · rw [List.erase_append_left _ h1]
    have hnm : r ∉ mid := by
      intro h2
      exact (List.nodup_append.1 hnd).2.2 h1 (by simp [h2])
    rw [List.erase_of_not_mem hnm]
  · have h2 : r ∈ mid := hr.resolve_left h1
    rw [List.erase_append_right _ h1, List.erase_of_not_mem h1,
      List.erase_cons_tail (by simpa using hrc.symm), List.erase_append_left _ h2]

/-- The state after the first (and only) pass of the inner loop of `consolidate`, when `curr`
wins: `ranks[deg]` is cleared and `rank` is linked under `curr`. -/
theorem CInv_link_curr {O : Prop} {s : Store D} {f : Nat} {N : List Nat} {M : ListRef → List Nat}
    {H : Nat → Nat} {ranks : Int → Option Nat} {pre mid rest : List Nat} {c rank : Nat}
    (h : CInv O s f N M H ranks pre (c :: (mid ++ rest)) mid rest)
    (hr : ranks (Node.Degree c s) = some rank) (hne : rank ≠ c)
    (hv : s.Value c ≤ s.Value rank) :
    ∃ t M' H', Node.AddChild c rank (NodeList.Remove (.trees f) (some rank) s).1 = .ok t () ∧
      CInv O t f N M' H' (Function.update ranks (Node.Degree c s) none)
        (pre.erase rank) (c :: (mid.erase rank ++ rest)) (mid.erase rank) rest ∧
      (M' (.trees f)).length + 1 = (M (.trees f)).length ∧
      Node.Degree c t = Node.Degree c s + 1 ∧
      Keeps s t ∧ Outside s t f (fun x => x ∈ N) := by
  have hL := h.shape.lists
  have hrel : Rel f N (.trees f) := rfl
  have hnd : (pre ++ c :: (mid ++ rest)).Nodup := h.split ▸ (hL.isList _ hrel).nodup
  obtain ⟨hrankR, hrankD⟩ := h.rk _ _ hr
  have hcR : c ∈ M (.trees f) := by rw [h.split]; simp
  have hcN : c ∈ N := (hL.memIn _ hrel c hcR).1
  have hrankRec : Recorded s ranks rank := by unfold Recorded; rw [hrankD]; exact hr
  have hrankpm : rank ∈ pre ∨ rank ∈ mid := by
    rw [h.split] at hrankR
    simp only [List.mem_append, List.mem_cons] at hrankR
    rcases hrankR with h1 | h1 | h1 | h1
    · exact Or.inl h1
    · exact absurd h1 hne
    · exact Or.inr h1
    · exact absurd hrankRec (h.unrec rank h1)
  obtain ⟨t, e, hS, hP, hM, hK, hO⟩ := link_shape h.shape hcR hrankR hne.symm
  have hne' : ListRef.trees f ≠ ListRef.children c := by simp
  have hM'R : (Function.update (Function.update M (.trees f) ((M (.trees f)).erase rank))
      (.children c) (M (.children c) ++ [rank])) (.trees f) = (M (.trees f)).erase rank := by
    rw [Function.update_noteq hne', Function.update_same]
  have hdeg : ∀ x ∈ N, x ≠ c → Node.Degree x t = Node.Degree x s := by
    intro x hx hxc
    rw [Degree_eq_length hS.lists hx, Degree_eq_length hL hx,
      Function.update_noteq (by simp [hxc]), Function.update_noteq (by simp)]
  have hdegc : Node.Degree c t = Node.Degree c s + 1 := by
    rw [Degree_eq_length hS.lists hcN, Degree_eq_length hL hcN, Function.update_same]
    simp
  have hrec : ∀ x ∈ N, x ≠ c → x ≠ rank →
      (Recorded t (Function.update ranks (Node.Degree c s) none) x ↔ Recorded s ranks x) := by
    intro x hx hxc hxr
    unfold Recorded
    rw [hdeg x hx hxc]
    by_cases hd : Node.Degree x s = Node.Degree c s
    · rw [hd, Function.update_same, hr]; simp [Ne.symm hxr]
    · rw [Function.update_noteq hd]
  have hmemN : ∀ x, x ∈ pre ∨ x ∈ mid ∨ x ∈ rest → x ∈ N := by
    intro x hx
    refine (hL.memIn _ hrel x ?_).1
    rw [h.split]
    simp only [List.mem_append, List.mem_cons]
    tauto
  have hc_notin : c ∉ pre ∧ c ∉ mid ∧ c ∉ rest := by
    have h1 := List.nodup_append.1 hnd
    have h2 := List.nodup_cons.1 h1.2.1
    refine ⟨fun hx => h1.2.2 hx (by simp), fun hx => h2.1 (by simp [hx]),
      fun hx => h2.1 (by simp [hx])⟩
  refine ⟨t, _, _, e, ⟨hS, ?_, fun o x hx => by rw [hK.Value]; exact h.nonan o x hx, ?_, ?_,
    rfl, ?_, ?_, ?_⟩, ?_, hdegc, hK, hO⟩
  · intro o x hx p hp
    rw [hP] at hp
    rw [hK.Value]
    by_cases hxr : x = rank
    · subst hxr
      simp only [Function.update_same, Option.some.injEq] at hp
      subst hp; exact hv
    · rw [Function.update_noteq hxr] at hp
      exact h.order o x hx p hp
  · intro d r hdr
    by_cases hd : d = Node.Degree c s
    · subst hd; simp at hdr
    · rw [Function.update_noteq hd] at hdr
      obtain ⟨h1, h2⟩ := h.rk d r hdr
      have hrr : r ≠ rank := by
        rintro rfl; exact hd (h2.symm.trans hrankD)
      have hrc : r ≠ c := by
        rintro rfl; exact hd h2.symm
      rw [hM'R]
      exact ⟨(List.Nodup.mem_erase_iff (hL.isList _ hrel).nodup).2 ⟨hrr, h1⟩,
        (hdeg r (hL.memIn _ hrel r h1).1 hrc).trans h2⟩
  · rw [hM'R, h.split]
    exact erase_around hne hrankpm hnd
  · intro r hr'
    have hnd1 : pre.Nodup := (List.nodup_append.1 hnd).1
    have := (List.Nodup.mem_erase_iff hnd1).1 hr'
    have hrc : r ≠ c := fun e => hc_notin.1 (e ▸ this.2)
    exact (hrec r (hmemN r (Or.inl this.2)) hrc this.1).2 (h.recPre r this.2)
  · intro r hr'
    have hnd1 : mid.Nodup :=
      (List.nodup_append.1 (List.nodup_cons.1 (List.nodup_append.1 hnd).2.1).2).1
    have := (List.Nodup.mem_erase_iff hnd1).1 hr'
    have hrc : r ≠ c := fun e => hc_notin.2.1 (e ▸ this.2)
    exact (hrec r (hmemN r (Or.inr (Or.inl this.2))) hrc this.1).2 (h.recMid r this.2)
  · intro r hr' hrec'
    have hrc : r ≠ c := fun e => hc_notin.2.2 (e ▸ hr')
    have hrr : r ≠ rank := fun e => h.unrec r hr' (e ▸ hrankRec)
    exact h.unrec r hr' ((hrec r (hmemN r (Or.inr (Or.inr hr'))) hrc hrr).1 hrec')
  · rw [hM'R, List.length_erase_of_mem hrankR]
    have : 0 < (M (.trees f)).length := List.length_pos_of_mem hrankR
    omega

/-- The state after the pass of the inner loop of `consolidate` when `rank` wins: `curr` is
linked under `rank`, and `rank` becomes the scan pointer. -/
theorem CInv_link_rank {O : Prop} {s : Store D} {f : Nat} {N : List Nat} {M : ListRef → List Nat}
    {H : Nat → Nat} {ranks : Int → Option Nat} {pre mid rest : List Nat} {c rank : Nat}
    (h : CInv O s f N M H ranks pre (c :: (mid ++ rest)) mid rest)
    (hr : ranks (Node.Degree c s) = some rank) (hne : rank ≠ c)
    (hv : O → s.Value rank ≤ s.Value c) :
    ∃ t M' H' pre' mid',
      Node.AddChild rank c (NodeList.Remove (.trees f) (some c) s).1 = .ok t () ∧
      CInv O t f N M' H' (Function.update ranks (Node.Degree c s) none)
        pre' (rank :: (mid' ++ rest)) mid' rest ∧
      (M' (.trees f)).length + 1 = (M (.trees f)).length ∧
      Node.Degree rank t = Node.Degree c s + 1 ∧
      Keeps s t ∧ Outside s t f (fun x => x ∈ N) := by
  have hL := h.shape.lists
  have hrel : Rel f N (.trees f) := rfl
  have hnd : (pre ++ c :: (mid ++ rest)).Nodup := h.split ▸ (hL.isList _ hrel).nodup
  obtain ⟨hrankR, hrankD⟩ := h.rk _ _ hr
  have hcR : c ∈ M (.trees f) := by rw [h.split]; simp
  have hcN : c ∈ N := (hL.memIn _ hrel c hcR).1
  have hrankN : rank ∈ N := (hL.memIn _ hrel rank hrankR).1
  have hrankRec : Recorded s ranks rank := by unfold Recorded; rw [hrankD]; exact hr
  have hrankpm : rank ∈ pre ∨ rank ∈ mid := by
    rw [h.split] at hrankR
    simp only [List.mem_append, List.mem_cons] at hrankR
    rcases hrankR with h1 | h1 | h1 | h1
    · exact Or.inl h1
    · exact absurd h1 hne
    · exact Or.inr h1
    · exact absurd hrankRec (h.unrec rank h1)
  obtain ⟨t, e, hS, hP, hM, hK, hO⟩ := link_shape h.shape hrankR hcR hne
  have hne' : ListRef.trees f ≠ ListRef.children rank := by simp
  have hM'R : (Function.update (Function.update M (.trees f) ((M (.trees f)).erase c))
      (.children rank) (M (.children rank) ++ [c])) (.trees f) = (M (.trees f)).erase c := by
    rw [Function.update_noteq hne', Function.update_same]
  have hdeg : ∀ x ∈ N, x ≠ rank → Node.Degree x t = Node.Degree x s := by
    intro x hx hxc
    rw [Degree_eq_length hS.lists hx, Degree_eq_length hL hx,
      Function.update_noteq (by simp [hxc]), Function.update_noteq (by simp)]
  have hdegr : Node.Degree rank t = Node.Degree c s + 1 := by
    rw [Degree_eq_length hS.lists hrankN, ← hrankD, Degree_eq_length hL hrankN,
      Function.update_same]
    simp
  have hrec : ∀ x ∈ N, x ≠ rank →
      (Recorded t (Function.update ranks (Node.Degree c s) none) x ↔ Recorded s ranks x) := by
    intro x hx hxr
    unfold Recorded
    rw [hdeg x hx hxr]
    by_cases hd : Node.Degree x s = Node.Degree c s
    · rw [hd, Function.update_same, hr]; simp [Ne.symm hxr]
    · rw [Function.update_noteq hd]
  have hmemN : ∀ x, x ∈ pre ∨ x ∈ mid ∨ x ∈ rest → x ∈ N := by
    intro x hx
    refine (hL.memIn _ hrel x ?_).1
    rw [h.split]
    simp only [List.mem_append, List.mem_cons]
    tauto
  have hc_notin : c ∉ pre ∧ c ∉ mid ∧ c ∉ rest := by
    have h1 := List.nodup_append.1 hnd
    have h2 := List.nodup_cons.1 h1.2.1
    refine ⟨fun hx => h1.2.2 hx (by simp), fun hx => h2.1 (by simp [hx]),
      fun hx => h2.1 (by simp [hx])⟩
  have hR' : (M (.trees f)).erase c = pre ++ (mid ++ rest) := by
    rw [h.split]; exact erase_mid hc_notin.1
  have hnd' : (pre ++ (mid ++ rest)).Nodup := by
    rw [← hR']; exact (hL.isList _ hrel).nodup.erase c
  have hord : O → Ordered t N := by
    intro o x hx p hp
    rw [hP] at hp
    rw [hK.Value]
    by_cases hxc : x = c
    · subst hxc
      simp only [Function.update_same, Option.some.injEq] at hp
      subst hp; exact hv o
    · rw [Function.update_noteq hxc] at hp
      exact h.order o x hx p hp
  have hnn : O → NoNaN t N := fun o x hx => by rw [hK.Value]; exact h.nonan o x hx
  have hrk : ∀ d r, Function.update ranks (Node.Degree c s) none d = some r →
      r ∈ (M (.trees f)).erase c ∧ Node.Degree r t = d := by
    intro d r hdr
    by_cases hd : d = Node.Degree c s
    · subst hd; simp at hdr
    · rw [Function.update_noteq hd] at hdr
      obtain ⟨h1, h2⟩ := h.rk d r hdr
      have hrr : r ≠ rank := by
        rintro rfl; exact hd (h2.symm.trans hrankD)
      have hrc : r ≠ c := by
        rintro rfl; exact hd h2.symm
      exact ⟨(List.Nodup.mem_erase_iff (hL.isList _ hrel).nodup).2 ⟨hrc, h1⟩,
        (hdeg r (hL.memIn _ hrel r h1).1 hrr).trans h2⟩
  have hlen : ((M (.trees f)).erase c).length + 1 = (M (.trees f)).length := by
    rw [List.length_erase_of_mem hcR]
    have : 0 < (M (.trees f)).length := List.length_pos_of_mem hcR
    omega
  have hunrec : ∀ r ∈ rest, ¬ Recorded t (Function.update ranks (Node.Degree c s) none) r := by
    intro r hr' hrec'
    have hrr : r ≠ rank := fun e => h.unrec r hr' (e ▸ hrankRec)
    exact h.unrec r hr' ((hrec r (hmemN r (Or.inr (Or.inr hr'))) hrr).1 hrec')
  rcases hrankpm with hpre | hmid
  · obtain ⟨p1, p2, rfl, hn1, hn2, -, -⟩ := split_of_mem hpre (List.nodup_append.1 hnd).1
    refine ⟨t, _, _, p1, p2 ++ mid, e, ⟨hS, hord, hnn, ?_, ?_, rfl, ?_, ?_, hunrec⟩, ?_, hdegr, hK,
      hO⟩
    · rw [hM'R]; exact hrk
    · rw [hM'R, hR']; simp
    · intro r hr'
      have hrr : r ≠ rank := fun e => hn1 (e ▸ hr')
      exact (hrec r (hmemN r (Or.inl (by simp [hr']))) hrr).2 (h.recPre r (by simp [hr']))
    · intro r hr'
      simp only [List.mem_append] at hr'
      rcases hr' with hr' | hr'
      · have hrr : r ≠ rank := fun e => hn2 (e ▸ hr')
        exact (hrec r (hmemN r (Or.inl (by simp [hr']))) hrr).2 (h.recPre r (by simp [hr']))
      · have hrr : r ≠ rank := by
          rintro rfl
          exact (List.nodup_append.1 hnd').2.2 hpre (by simp [hr'])
        exact (hrec r (hmemN r (Or.inr (Or.inl hr'))) hrr).2 (h.recMid r hr')
    · rw [hM'R]; exact hlen
  · have hndm : mid.Nodup := (List.nodup_append.1 (List.nodup_append.1 hnd').2.1).1
    obtain ⟨m1, m2, rfl, hn1, hn2, -, -⟩ := split_of_mem hmid hndm
    refine ⟨t, _, _, pre ++ m1, m2, e, ⟨hS, hord, hnn, ?_, ?_, rfl, ?_, ?_, hunrec⟩, ?_, hdegr, hK,
      hO⟩
    · rw [hM'R]; exact hrk
    · rw [hM'R, hR']; simp
    · intro r hr'
      simp only [List.mem_append] at hr'
      rcases hr' with hr' | hr'
      · have hrr : r ≠ rank := by
          rintro rfl
          exact (List.nodup_append.1 hnd').2.2 hr' (by simp)
        exact (hrec r (hmemN r (Or.inl hr')) hrr).2 (h.recPre r hr')
      · have hrr : r ≠ rank := fun e => hn1 (e ▸ hr')
        exact (hrec r (hmemN r (Or.inr (Or.inl (by simp [hr'])))) hrr).2
          (h.recMid r (by simp [hr']))
    · intro r hr'
      have hrr : r ≠ rank := fun e => hn2 (e ▸ hr')
      exact (hrec r (hmemN r (Or.inr (Or.inl (by simp [hr'])))) hrr).2
        (h.recMid r (by simp [hr']))
    · rw [hM'R]; exact hlen

theorem consolidate_inner_runs {O : Prop} {s : Store D} {f : Nat} {N : List Nat} {M : ListRef → List Nat}
    {H : Nat → Nat} {ranks : Int → Option Nat} {pre mid rest : List Nat} {c rank : Nat}
    (h : CInv O s f N M H ranks pre (c :: (mid ++ rest)) mid rest)
    (hr : ranks (Node.Degree c s) = some rank) (hne : rank ≠ c) :
    ∃ t M' H' pre' mid' c',
      Runs (fun fuel => consolidate.inner f (Node.Degree c s) fuel ranks c s) 2 t
        (Function.update ranks (Node.Degree c s) none, c') ∧
      CInv O t f N M' H' (Function.update ranks (Node.Degree c s) none)
        pre' (c' :: (mid' ++ rest)) mid' rest ∧
      (M' (.trees f)).length + 1 = (M (.trees f)).length ∧
      Keeps s t ∧ Outside s t f (fun x => x ∈ N) := by
  by_cases hv : s.Value c ≤ s.Value rank
  · obtain ⟨t, M', H', e, hC, hlen, -, hK, hO⟩ := CInv_link_curr h hr hne hv
    refine ⟨t, M', H', _, _, c, ?_, hC, hlen, hK, hO⟩
    intro fuel
    rcases fuel with _ | _ | k
    · simp [consolidate.inner]
    · simp [consolidate.inner, hr, hv, e]
    · simp [consolidate.inner, hr, hv, e]
  · have hcN : c ∈ N :=
      (h.shape.lists.memIn (.trees f) rfl c (by rw [h.split]; simp)).1
    have hrN : rank ∈ N := (h.shape.lists.memIn (.trees f) rfl rank (h.rk _ _ hr).1).1
    obtain ⟨t, M', H', pre', mid', e, hC, hlen, -, hK, hO⟩ :=
      CInv_link_rank h hr hne (fun o =>
        Val_le_of_lt (Val_lt_of_not_le (h.nonan o c hcN) (h.nonan o rank hrN) hv))
    refine ⟨t, M', H', pre', mid', rank, ?_, hC, hlen, hK, hO⟩
    intro fuel
    rcases fuel with _ | _ | k
    · simp [consolidate.inner]
    · simp [consolidate.inner, hr, hv, e]
    · simp [consolidate.inner, hr, hv, e]

theorem CInv_advance {O : Prop} {s : Store D} {f : Nat} {N : List Nat} {M : ListRef → List Nat}
    {H : Nat → Nat} {ranks ranks' : Int → Option Nat} {pre mid rest : List Nat} {c : Nat}
    (h : CInv O s f N M H ranks pre (c :: (mid ++ rest)) mid rest)
    (hc : Recorded s ranks' c)
    (hrk : ∀ d r, ranks' d = some r → r ∈ M (.trees f) ∧ Node.Degree r s = d)
    (hrec : ∀ x, x ≠ c → (Recorded s ranks' x ↔ Recorded s ranks x)) :
    ∃ mid2 rest2, CInv O s f N M H ranks' (pre ++ [c]) (mid ++ rest) mid2 rest2 := by
  have hrel : Rel f N (.trees f) := rfl
  have hnd : (pre ++ c :: (mid ++ rest)).Nodup :=
    h.split ▸ (h.shape.lists.isList _ hrel).nodup
  have h1 := List.nodup_append.1 hnd
  have h2 := List.nodup_cons.1 h1.2.1
  have hcpre : c ∉ pre := fun hx => h1.2.2 hx (by simp)
  have hcmid : c ∉ mid := fun hx => h2.1 (by simp [hx])
  have hcrest : c ∉ rest := fun hx => h2.1 (by simp [hx])
  have hpre : ∀ r ∈ pre ++ [c], Recorded s ranks' r := by
    intro r hr
    simp only [List.mem_append, List.mem_singleton] at hr
    rcases hr with hr | rfl
    · exact (hrec r (fun e => hcpre (e ▸ hr))).2 (h.recPre r hr)
    · exact hc
  have hsplit : M (.trees f) = (pre ++ [c]) ++ (mid ++ rest) := by rw [h.split]; simp
  cases mid with
  | nil =>
    refine ⟨[], rest.tail, h.shape, h.order, h.nonan, hrk, hsplit, by simp, hpre, by simp, ?_⟩
    intro r hr hr'
    have hr2 : r ∈ rest := List.mem_of_mem_tail hr
    exact h.unrec r hr2 ((hrec r (fun e => hcrest (e ▸ hr2))).1 hr')
  | cons m mid' =>
    refine ⟨mid', rest, h.shape, h.order, h.nonan, hrk, hsplit, by simp, hpre, ?_, ?_⟩
    · intro r hr
      have hr2 : r ∈ m :: mid' := List.mem_cons_of_mem _ hr
      exact (hrec r (fun e => hcmid (e ▸ hr2))).2 (h.recMid r hr2)
    · intro r hr hr'
      exact h.unrec r hr ((hrec r (fun e => hcrest (e ▸ hr))).1 hr')

theorem CInv_next {O : Prop} {s : Store D} {f : Nat} {N : List Nat} {M : ListRef → List Nat}
    {H : Nat → Nat} {ranks : Int → Option Nat} {pre mid rest tl : List Nat} {c : Nat}
    (h : CInv O s f N M H ranks pre (c :: tl) mid rest) : s.Next c = tl.head? := by
  have hs := (h.shape.lists.isList _ (show Rel f N (.trees f) from rfl)).seg
  rw [h.split, Seg_append] at hs
  obtain ⟨m, -, hs2⟩ := hs
  exact Seg_head hs2.2

theorem consolidate_loop_runs {O : Prop} (f : Nat) (N : List Nat) :
    ∀ (n p : Nat) (s : Store D) (M : ListRef → List Nat) (H : Nat → Nat)
      (ranks : Int → Option Nat) (pre post mid rest : List Nat),
      CInv O s f N M H ranks pre post mid rest → (M (.trees f)).length = n → post.length = p →
      ∃ K t M' H' ranks',
        Runs (fun fuel => consolidate.loop f fuel ranks post.head? s) K t ranks' ∧
        CInv O t f N M' H' ranks' (M' (.trees f)) [] [] [] ∧
        Keeps s t ∧ Outside s t f (fun x => x ∈ N) := by
  intro n
  induction n using Nat.strong_induction_on with
  | _ n ihn =>
  intro p
  induction p with
  | zero =>
    intro s M H ranks pre post mid rest h hn hp
    have hpost : post = [] := List.length_eq_zero.1 hp
    subst hpost
    have ht := h.tail
    simp only [List.tail_nil] at ht
    have hmid : mid = [] := (List.append_eq_nil.1 ht.symm).1
    have hrest : rest = [] := (List.append_eq_nil.1 ht.symm).2
    subst hmid hrest
    have hpre : M (.trees f) = pre := by rw [h.split]; simp
    refine ⟨1, s, M, H, ranks, ?_, ?_, Keeps_refl s, Outside_refl s f _⟩
    · intro fuel
      cases fuel with
      | zero => simp [consolidate.loop]
      | succ k => simp [consolidate.loop]
    · rw [hpre]
      exact ⟨h.shape, h.order, h.nonan, h.rk, by rw [hpre]; simp, rfl, h.recPre, by simp, by simp⟩
  | succ p ihp =>
    intro s M H ranks pre post mid rest h hn hp
    obtain ⟨c, tl, rfl⟩ : ∃ c tl, post = c :: tl := by
      cases post with
      | nil => simp at hp
      | cons c tl => exact ⟨c, tl, rfl⟩
    have htl : tl = mid ++ rest := h.tail
    subst htl
    have hnext := CInv_next h
    have hcR : c ∈ M (.trees f) := by rw [h.split]; simp
    have hlen : (mid ++ rest).length = p := by simpa using hp
    cases hr : ranks (Node.Degree c s) with
    | none =>
      obtain ⟨mid2, rest2, h'⟩ := @CInv_advance _ _ _ _ _ _ _ _ (Function.update ranks
          (Node.Degree c s) (some c)) _ _ _ _ h (by simp [Recorded])
        (by
          intro d r hdr
          by_cases hd : d = Node.Degree c s
          · subst hd
            simp only [Function.update_same, Option.some.injEq] at hdr
            subst hdr; exact ⟨hcR, rfl⟩
          · rw [Function.update_noteq hd] at hdr
            exact h.rk d r hdr)
        (by
          intro x hx
          unfold Recorded
          by_cases hd : Node.Degree x s = Node.Degree c s
          · rw [hd, Function.update_same, hr]; simp [Ne.symm hx]
          · rw [Function.update_noteq hd])
      obtain ⟨K, t, M', H', ranks', hR, hC, hK, hO⟩ := ihp s M H _ _ _ _ _ h' hn hlen
      refine ⟨K + 1, t, M', H', ranks', ?_, hC, hK, hO⟩
      exact Runs_succ rfl (fun k => by simp [consolidate.loop, hr, hnext]) hR
    | some rank =>
      by_cases hrc : rank = c
      · subst hrc
        obtain ⟨mid2, rest2, h'⟩ := @CInv_advance _ _ _ _ _ _ _ _ ranks _ _ _ _ h hr h.rk
          (fun x _ => Iff.rfl)
        obtain ⟨K, t, M', H', ranks', hR, hC, hK, hO⟩ := ihp s M H _ _ _ _ _ h' hn hlen
        refine ⟨K + 1, t, M', H', ranks', ?_, hC, hK, hO⟩
        exact Runs_succ rfl (fun k => by simp [consolidate.loop, hr, hnext]) hR
      · obtain ⟨t1, M1, H1, pre1, mid1, c1, hR1, hC1, hlen1, hK1, hO1⟩ :=
          consolidate_inner_runs h hr hrc
        obtain ⟨K, t, M', H', ranks', hR, hC, hK, hO⟩ :=
          ihn ((M1 (.trees f)).length) (by omega) _ t1 M1 H1 _ _ _ _ _ hC1 rfl rfl
        refine ⟨max 2 K + 1, t, M', H', ranks', ?_, hC, Keeps_trans hK1 hK,
          Outside_trans hO1 hO⟩
        refine Runs_succ rfl (fun k => ?_) (Runs_bind
          (k := fun fuel s rc => consolidate.loop f fuel rc.1 (some rc.2) s) hR1 hR)
        simp [consolidate.loop, hr, hrc]

/-! ## `consolidate` as a whole, the heap invariant, `ExtractMin` -/

/-- `consolidate` on a well-shaped heap terminates, keeps the shape, the order, the nodes and
their keys, and (unless it returns at once because `nodeCount` is 0) leaves roots of pairwise
different degree. -/
theorem consolidate_runs {s : Store D} {f : Nat} {N : List Nat} {M : ListRef → List Nat}
    {H : Nat → Nat} (h : Shape s f N M H) :
    ∃ K t M' H', Runs (fun fuel => consolidate fuel f s) K t () ∧
      Shape t f N M' H' ∧ (Ordered s N → NoNaN s N → Ordered t N) ∧ Keeps s t ∧ Outside s t f (fun x => x ∈ N) ∧
      (s.nodeCount f ≠ 0 → ∀ r ∈ M' (.trees f), ∀ r' ∈ M' (.trees f),
        Node.Degree r t = Node.Degree r' t → r = r') := by
  have hfront := IsList_front_eq (h.lists.isList _ (show Rel f N (.trees f) from rfl))
  by_cases hc : s.nodeCount f = 0 ∨ (M (.trees f)) = []
  · refine ⟨0, s, M, H, Runs_const (fun fuel => ?_), h, fun o _ => o, Keeps_refl s, Outside_refl _ _ _, ?_⟩
    · rcases hc with hc | hc
      · simp [consolidate, hc]
      · simp [consolidate, NodeList.Front, hfront, hc]
    · intro hne r hr
      rcases hc with hc | hc
      · exact absurd hc hne
      · rw [hc] at hr; simp at hr
  · have hc1 : s.nodeCount f ≠ 0 := fun e => hc (Or.inl e)
    have hc2 : M (.trees f) ≠ [] := fun e => hc (Or.inr e)
    have hC : CInv (Ordered s N ∧ NoNaN s N) s f N M H (fun _ => none) [] (M (.trees f)) []
        (M (.trees f)).tail :=
      ⟨h, fun o => o.1, fun o => o.2, by simp, by simp, by simp, by simp, by simp, by simp [Recorded]⟩
    obtain ⟨K, t, M', H', ranks', hR, hC', hK, hO⟩ :=
      consolidate_loop_runs f N _ _ s M H _ _ _ _ _ hC rfl rfl
    refine ⟨max K 0, t, M', H', ?_, hC'.shape, fun o n => hC'.order ⟨o, n⟩, hK, hO, ?_⟩
    · refine Runs_congr (Runs_bind (k := fun _ s _ => Res.ok s ()) hR
        (Runs_const (fun _ => rfl))) (fun fuel => ?_)
      have : NodeList.Front (.trees f) s ≠ none := by
        rw [NodeList.Front, hfront]
        cases hM : M (.trees f) with
        | nil => exact absurd hM hc2
        | cons a l => simp
      simp [consolidate, hc1, NodeList.Front, hfront, hc2]
    · intro _ r hr r' hr' hd
      have h1 := hC'.recPre r hr
      have h2 := hC'.recPre r' hr'
      unfold Recorded at h1 h2
      rw [hd, h2] at h1
      exact (Option.some.inj h1).symm

theorem exists_height_bound (H : Nat → Nat) (N : List Nat) : ∃ B, ∀ x ∈ N, H x < B := by
  induction N with
  | nil => exact ⟨0, by simp⟩
  | cons a N ih =>
    obtain ⟨B, hB⟩ := ih
    refine ⟨max B (H a + 1), ?_⟩
    intro x hx
    simp only [List.mem_cons] at hx
    rcases hx with rfl | hx
    · omega
    · have := hB x hx; omega

/-- Every node of a well-shaped heap lies under a root. -/
theorem exists_root {s : Store D} {f : Nat} {N : List Nat} {M : ListRef → List Nat}
    {H : Nat → Nat} (h : Shape s f N M H) : ∀ x ∈ N, ∃ r, r ∈ M (.trees f) := by
  obtain ⟨B, hB⟩ := exists_height_bound H N
  have key : ∀ k x, x ∈ N → B ≤ H x + k → ∃ r, r ∈ M (.trees f) := by
    intro k
    induction k with
    | zero => intro x hx hk; have := hB x hx; omega
    | succ k ih =>
      intro x hx hk
      cases hp : s.Parent x with
      | none => exact ⟨x, Lists_root_mem h.lists hx hp⟩
      | some p =>
        have hpN := (Lists_parent_mem h.lists hx hp).1
        have hh := h.height x hx p hp
        exact ih p hpN (by omega)
  intro x hx
  exact key B x hx (by omega)

/-- Every node of a well-shaped, ordered heap without `NaN` keys lies under a root whose key
is not larger. -/
theorem exists_root_le {s : Store D} {f : Nat} {N : List Nat} {M : ListRef → List Nat}
    {H : Nat → Nat} (h : Shape s f N M H) (ho : Ordered s N) (hnn : NoNaN s N) :
    ∀ x ∈ N, ∃ r ∈ M (.trees f), s.Value r ≤ s.Value x := by
  obtain ⟨B, hB⟩ := exists_height_bound H N
  have key : ∀ k x, x ∈ N → B ≤ H x + k → ∃ r ∈ M (.trees f), s.Value r ≤ s.Value x := by
    intro k
    induction k with
    | zero => intro x hx hk; have := hB x hx; omega
    | succ k ih =>
      intro x hx hk
      cases hp : s.Parent x with
      | none => exact ⟨x, Lists_root_mem h.lists hx hp, Val_le_refl (hnn x hx)⟩
      | some p =>
        have hpN := (Lists_parent_mem h.lists hx hp).1
        have hh := h.height x hx p hp
        obtain ⟨r, hr, hle⟩ := ih p hpN (by omega)
        exact ⟨r, hr, Val_le_trans hle (ho x hx p hp)⟩
  intro x hx
  exact key B x hx (by omega)

theorem HeapInv_min_mem {O : Prop} {s : Store D} {f : Nat} {N : List Nat}
    {M : ListRef → List Nat} {H : Nat → Nat} (h : HeapInv O s f N M H) {m : Nat}
    (hm : s.min f = some m) : m ∈ N :=
  (h.shape.lists.memIn _ (show Rel f N (.trees f) from rfl) m (h.minRoot m hm)).1

/-- The cached minimum of a heap without `NaN` keys is a least key over all its nodes. -/
theorem HeapInv_min_le {O : Prop} {s : Store D} {f : Nat} {N : List Nat}
    {M : ListRef → List Nat} {H : Nat → Nat} (h : HeapInv O s f N M H) (o : O) {m : Nat}
    (hm : s.min f = some m) : m ∈ N ∧ ∀ x ∈ N, s.Value m ≤ s.Value x := by
  refine ⟨HeapInv_min_mem h hm, ?_⟩
  intro x hx
  obtain ⟨r, hr, hle⟩ := exists_root_le h.shape (h.order o) (h.nonan o) x hx
  exact Val_le_trans (h.minLe o m hm r hr) hle

theorem HeapInv_roots_nil {s : Store D} {f : Nat} {N : List Nat} {M : ListRef → List Nat}
    {H : Nat → Nat} (h : Shape s f N M H) : M (.trees f) = [] ↔ N = [] := by
  constructor
  · intro hR
    cases N with
    | nil => rfl
    | cons a N =>
      obtain ⟨r, hr⟩ := exists_root h a (by simp)
      rw [hR] at hr; simp at hr
  · intro hN
    cases hR : M (.trees f) with
    | nil => rfl
    | cons a l =>
      have := (h.lists.memIn _ (show Rel f N (.trees f) from rfl) a (by rw [hR]; simp)).1
      rw [hN] at this; simp at this

theorem Lists_congr {s t : Store D} {f : Nat} {N : List Nat} {M : ListRef → List Nat}
    (h : Lists s f N M) (hl : t.lists = s.lists) (hn : t.Next = s.Next) (hp : t.prev = s.prev)
    (hP : t.Parent = s.Parent) : Lists t f N M := by
  have hown : ∀ x, own f t x = own f s x := fun x => own_congr (by rw [hP])
  refine ⟨h.nodupN, ?_, ?_, ?_⟩
  · intro r hr
    exact IsList_frame (h.isList r hr) (by rw [hl]) (fun x _ => by rw [hn])
      (fun x _ => by rw [hp])
  · intro r hr x hx
    rw [hown]; exact h.memIn r hr x hx
  · intro x hx
    rw [hown]; exact h.memOf x hx

theorem Shape_congr {s t : Store D} {f : Nat} {N : List Nat} {M : ListRef → List Nat}
    {H : Nat → Nat} (h : Shape s f N M H) (hl : t.lists = s.lists) (hn : t.Next = s.Next)
    (hp : t.prev = s.prev) (hP : t.Parent = s.Parent) (hM : t.Marked = s.Marked) :
    Shape t f N M H :=
  ⟨Lists_congr h.lists hl hn hp hP, by rw [hP]; exact h.height, by rw [hM]; exact h.unmarked⟩

theorem int_length_erase {N : List Nat} {m : Nat} (hm : m ∈ N) :
    ((N.erase m).length : Int) = (N.length : Int) - 1 := by
  rw [List.length_erase_of_mem hm]
  have : 0 < N.length := List.length_pos_of_mem hm
  omega

/-- `ExtractMin` on a heap whose cached minimum is `m`: it returns the payload of `m`, removes
exactly `m` from the nodes of the heap, and re-establishes the invariant. -/
theorem ExtractMin_runs {O : Prop} {s : Store D} {f : Nat} {N : List Nat}
    {M : ListRef → List Nat} {H : Nat → Nat} {m : Nat} (h : HeapInv O s f N M H)
    (hm : s.min f = some m) :
    ∃ K t M' H', Runs (fun fuel => ExtractMin fuel f s) K t (s.Data m) ∧
      HeapInv O t f (N.erase m) M' H' ∧
      t.Value = s.Value ∧ t.Data = s.Data ∧
      t.nodeNext = s.nodeNext ∧ t.heapNext = s.heapNext ∧
      Outside s t f (fun x => x ∈ N) ∧
      (N.erase m ≠ [] → ∀ r ∈ M' (.trees f), ∀ r' ∈ M' (.trees f),
        Node.Degree r t = Node.Degree r' t → r = r') := by
  have hrel : Rel f N (.trees f) := rfl
  have hL := h.shape.lists
  have hmR := h.minRoot m hm
  have hmN : m ∈ N := (hL.memIn _ hrel m hmR).1
  have hlen : Len f s ≠ 0 := by
    unfold Len NodeList.Len
    rw [(hL.isList _ hrel).length]
    have : 0 < (M (.trees f)).length := List.length_pos_of_mem hmR
    omega
  obtain ⟨s1, e1, -, op1, -, -⟩ := NodeList_Remove_ok (hL.isList _ hrel) hmR
  have hne : ListRef.trees f ≠ ListRef.children m := by simp
  let c : Int := s1.nodeCount f - 1
  have hk : IsList (s1.setCount f c) (.children m) (M (.children m)) := by
    refine IsList_frame (hL.isList (.children m) hmN) (op1.lists _ hne.symm) ?_ ?_
    · intro x hx
      exact op1.next x (fun hx' => hne (Lists_disjoint hL hrel (show Rel f N (.children m) from hmN) hx' hx))
    · intro x hx
      exact op1.prev x (fun hx' => hne (Lists_disjoint hL hrel (show Rel f N (.children m) from hmN) hx' hx))
  have hR1 := ExtractMin_loop_runs (s := s1.setCount f c) hk.seg
  obtain ⟨t3, e3, hS3, hP3, hM3, hV3, hD3, hmin3, hcnt3, hnn3, hhn3, hO3⟩ :=
    extract_prefix_shape h.shape hmR c
  rw [e1] at e3
  have hord3 : O → Ordered t3 (N.erase m) := by
    intro o x hx p hp
    have hx' := List.mem_of_mem_erase hx
    rw [hP3] at hp
    rw [hV3]
    by_cases hxK : x ∈ M (.children m)
    · simp [hxK] at hp
    · simp only [hxK, if_false] at hp
      exact h.order o x hx' p hp
  have hnan3 : O → NoNaN t3 (N.erase m) := fun o x hx => by
    rw [hV3]
    exact h.nonan o x (List.mem_of_mem_erase hx)
  obtain ⟨K4, t4, M4, H4, hR4, hS4, hord4', hK4, hO4, hdeg4⟩ := consolidate_runs hS3
  have hord4 : O → Ordered t4 (N.erase m) := fun o => hord4' (hord3 o) (hnan3 o)
  have hnan4 : O → NoNaN t4 (N.erase m) := fun o x hx => by
    rw [hK4.Value]
    exact hnan3 o x hx
  have hrel' : Rel f (N.erase m) (.trees f) := rfl
  obtain ⟨r, hR5, hrm, hr⟩ := resetMin_runs (hS4.lists.isList _ hrel')
  have hr' : O → ((r = none ∧ ∀ x ∈ M4 (.trees f), t4.Value x = Val.posInf) ∨
      (∃ y ∈ M4 (.trees f), r = some y ∧ t4.Value y < Val.posInf ∧
        ∀ x ∈ M4 (.trees f), t4.Value y ≤ t4.Value x)) := fun o =>
    hr (fun x hx => hnan4 o x (hS4.lists.memIn _ hrel' x hx).1)
  have hcnt : (t4.setMin f r).nodeCount f = ((N.erase m).length : Int) := by
    show t4.nodeCount f = _
    rw [hK4.nodeCount, hcnt3, Function.update_same, int_length_erase hmN]
    show s1.nodeCount f - 1 = _
    rw [op1.nodeCount, h.count]
  have hrun0 := Runs_bind (k := fun fuel s (_ : Unit) =>
        (NodeList.Merge (.trees f) (some (.children m)) s).bind fun s _ =>
        (consolidate fuel f s).bind fun s _ =>
        (resetMin fuel f s).bind fun s _ => Res.ok s (s1.Data m)) hR1
      (Runs_congr (Runs_bind (k := fun fuel s (_ : Unit) =>
          (resetMin fuel f s).bind fun s _ => Res.ok s (s1.Data m)) hR4
        (Runs_bind (k := fun _ s (_ : Unit) => Res.ok s (s1.Data m)) hR5
          (Runs_const (fun _ => rfl))))
        (fun fuel => by simp only [e3, bind_ok]))
  rw [op1.Data] at hrun0
  obtain ⟨Kx, hrun⟩ : ∃ K, Runs (fun fuel => ExtractMin fuel f s) K (t4.setMin f r)
      (s.Data m) :=
    ⟨_, Runs_congr hrun0 (fun fuel => by
      simp only [ExtractMin, hm, hlen, if_false, e1]
      rfl)⟩
  refine ⟨Kx, t4.setMin f r, M4, H4, hrun, ⟨?_, hcnt, ?_, hnan4, hord4, ?_, ?_⟩, ?_, ?_, ?_, ?_,
    ?_, ?_⟩
  · exact Shape_congr hS4 rfl rfl rfl rfl rfl
  · intro y hy
    have hy' : r = some y := by simpa using hy
    exact hrm y hy'
  · intro o y hy
    have hy' : r = some y := by simpa using hy
    rcases hr' o with ⟨h1, -⟩ | ⟨z, hz, h1, -, h3⟩
    · rw [h1] at hy'; cases hy'
    · rw [h1] at hy'
      cases hy'
      exact h3
  · intro o hnone
    have hy' : r = none := by simpa using hnone
    rcases hr' o with ⟨-, h2⟩ | ⟨z, hz, h1, -, -⟩
    · exact h2
    · rw [h1] at hy'; cases hy'
  · show t4.Value = _; rw [hK4.Value, hV3]
  · show t4.Data = _; rw [hK4.Data, hD3]
  · show t4.nodeNext = _; rw [hK4.nodeNext, hnn3]
  · show t4.heapNext = _; rw [hK4.heapNext, hhn3]
  · have o4 : Outside t3 t4 f (fun x => x ∈ N) :=
      Outside_mono hO4 (fun x hx => List.mem_of_mem_erase hx)
    exact Outside_trans (Outside_trans hO3 o4) (Outside_setMin r)
  · intro hne' r1 hr1 r2 hr2 hd
    refine hdeg4 ?_ r1 hr1 r2 hr2 hd
    rw [hcnt3, Function.update_same]
    show s1.nodeCount f - 1 ≠ 0
    rw [op1.nodeCount, h.count, ← int_length_erase hmN]
    intro e
    exact hne' (List.length_eq_zero.1 (by exact_mod_cast e))

/-! ## `Insert` -/

theorem IsList_nil_of {s : Store D} {r : ListRef} (h : s.lists r = NewNodeList) :
    IsList s r [] := by
  constructor <;> simp [h, NewNodeList]

/-- `Insert` on a heap that satisfies the invariant, all of whose nodes were allocated
before: the new node is `s.nodeNext`, it becomes the last root, and the invariant holds
again. -/
theorem Insert_ok {O : Prop} {s : Store D} {f : Nat} {N : List Nat}
    {M : ListRef → List Nat} {H : Nat → Nat} (h : HeapInv O s f N M H)
    (hfresh : ∀ x ∈ N, x < s.nodeNext) {v : Val} (hv : v ≠ NEG_INF)
    (hvn : O → v ≠ Val.nan) (d : D) :
    ∃ t M', Insert f v d s = .ok t s.nodeNext ∧
      HeapInv O t f (N ++ [s.nodeNext]) M' H ∧
      M' (.trees f) = M (.trees f) ++ [s.nodeNext] ∧
      M' (.children s.nodeNext) = [] ∧
      t.Value = Function.update s.Value s.nodeNext v ∧
      t.Data = Function.update s.Data s.nodeNext d ∧
      t.Parent = Function.update s.Parent s.nodeNext none ∧
      t.Marked = Function.update s.Marked s.nodeNext false ∧
      t.nodeCount = Function.update s.nodeCount f (s.nodeCount f + 1) ∧
      t.min = Function.update s.min f
        (match s.min f with
          | none => some s.nodeNext
          | some m => if v < s.Value m then some s.nodeNext else some m) ∧
      t.nodeNext = s.nodeNext + 1 ∧ t.heapNext = s.heapNext ∧
      (∀ r, r ≠ .trees f → r ≠ .children s.nodeNext → t.lists r = s.lists r) ∧
      t.lists (.children s.nodeNext) = NewNodeList ∧
      Outside s t f (fun x => x ∈ N ∨ x = s.nodeNext) := by
  have hL := h.shape.lists
  have hrel : Rel f N (.trees f) := rfl
  set n := s.nodeNext with hn
  have hnN : n ∉ N := fun hx => Nat.lt_irrefl _ (hfresh n hx)
  have hnR : n ∉ M (.trees f) := fun hx => hnN (hL.memIn _ hrel n hx).1
  have hneN : ∀ x ∈ N, x ≠ n := by
    intro x hx e; rw [e] at hx; exact hnN hx
  have hneR : ∀ x ∈ M (.trees f), x ≠ n := by
    intro x hx e; rw [e] at hx; exact hnR hx
  let s0 := (NewNode v d none s).1
  have hs0l : ∀ r, r ≠ .children n → s0.lists r = s.lists r := by
    intro r hr; simp [s0, NewNode, Function.update, hr]
  have hs0n : ∀ x, x ≠ n → s0.Next x = s.Next x := by
    intro x hx; simp [s0, NewNode, Function.update, hx, ← hn]
  have hs0p : ∀ x, x ≠ n → s0.prev x = s.prev x := by
    intro x hx; simp [s0, NewNode, Function.update, hx, ← hn]
  have hl0 : IsList s0 (.trees f) (M (.trees f)) :=
    IsList_frame (hL.isList _ hrel) (hs0l _ (by simp))
      (fun x hx => hs0n x (hneR x hx)) (fun x hx => hs0p x (hneR x hx))
  obtain ⟨t1, e1, hl1, op1⟩ := NodeList_Insert_ok hl0 hnR
    (fun _ => by simp [s0, NewNode, ← hn])
  let newmin : Option Nat :=
    match s.min f with
    | none => some n
    | some m => if v < s.Value m then some n else some m
  let t := (t1.setMin f newmin).setCount f (s.nodeCount f + 1)
  have hV : t.Value = Function.update s.Value n v := by
    show t1.Value = _; rw [op1.Value]; simp [s0, NewNode, ← hn]
  have hins : Insert f v d s = .ok t n := by
    have hmin1 : t1.min f = s.min f := by rw [op1.min]; simp [s0, NewNode]
    have hcnt1 : t1.nodeCount f = s.nodeCount f := by rw [op1.nodeCount]; simp [s0, NewNode]
    have hV1 : t1.Value = Function.update s.Value n v := hV
    have hVn : t1.Value n = v := by rw [hV1]; simp
    have hcode : Insert f v d s = .ok
        ((match t1.min f with
          | none => t1.setMin f (some n)
          | some m => if t1.Value n < t1.Value m then t1.setMin f (some n) else t1).setCount f
          ((match t1.min f with
          | none => t1.setMin f (some n)
          | some m => if t1.Value n < t1.Value m then t1.setMin f (some n) else t1).nodeCount f
            + 1)) n := by
      unfold Insert
      rw [if_neg hv]
      show (NodeList.Insert (.trees f) n s0).bind _ = _
      rw [e1]
      rfl
    rw [hcode]
    congr 1
    rw [hmin1]
    cases hm : s.min f with
    | none =>
      show (t1.setMin f (some n)).setCount f (t1.nodeCount f + 1) = _
      rw [hcnt1]
      simp only [t, newmin, hm]
    | some m =>
      have hmN := HeapInv_min_mem h hm
      have hVm : t1.Value m = s.Value m := by
        rw [hV1, Function.update_noteq (hneN m hmN)]
      simp only [hVn, hVm]
      by_cases hlt : v < s.Value m
      · simp only [hlt, if_true]
        show (t1.setMin f (some n)).setCount f (t1.nodeCount f + 1) = _
        rw [hcnt1]
        simp only [t, newmin, hm, hlt, if_true]
      · simp only [hlt, if_false]
        rw [hcnt1]
        have e : t1.setMin f (some m) = t1 := by
          have := setMin_self t1 f
          rw [hmin1, hm] at this; exact this
        simp only [t, newmin, hm, hlt, if_false, e]
  have hP : t.Parent = Function.update s.Parent n none := by
    show t1.Parent = _; rw [op1.Parent]; simp [s0, NewNode, ← hn]
  have hMk : t.Marked = Function.update s.Marked n false := by
    show t1.Marked = _; rw [op1.Marked]; simp [s0, NewNode, ← hn]
  have hown : ∀ x, x ≠ n → own f t x = own f s x := by
    intro x hx; apply own_congr; rw [hP, Function.update_noteq hx]
  have hownn : own f t n = .trees f := by simp [own, hP]
  have hlists : ∀ r, r ≠ .trees f → r ≠ .children n → t.lists r = s.lists r := by
    intro r h1 h2
    show t1.lists r = _
    rw [op1.lists r h1, hs0l r h2]
  have hkn : t.lists (.children n) = NewNodeList := by
    show t1.lists (.children n) = _
    rw [op1.lists _ (by simp)]
    simp [s0, NewNode, ← hn]
  have hnext : ∀ x, x ∉ M (.trees f) → x ≠ n → t.Next x = s.Next x ∧ t.prev x = s.prev x := by
    intro x h1 h2
    have : x ∉ M (.trees f) ++ [n] := by simp [h1, h2]
    exact ⟨(op1.next x this).trans (hs0n x h2), (op1.prev x this).trans (hs0p x h2)⟩
  let M' := Function.update (Function.update M (.children n) []) (.trees f)
    (M (.trees f) ++ [n])
  have hM'R : M' (.trees f) = M (.trees f) ++ [n] := by simp [M']
  have hM'n : M' (.children n) = [] := by simp [M']
  have hM'o : ∀ r, r ≠ .trees f → r ≠ .children n → M' r = M r := by
    intro r h1 h2; simp [M', Function.update, h1, h2]
  have hLists : Lists t f (N ++ [n]) M' := by
    refine ⟨?_, ?_, ?_, ?_⟩
    · exact List.Nodup.append hL.nodupN (List.nodup_singleton n) (by simpa using hnN)
    · intro r hr
      cases r with
      | trees g =>
        have : g = f := hr
        subst this
        rw [hM'R]
        exact IsList_frame hl1 rfl (fun _ _ => rfl) (fun _ _ => rfl)
      | children x =>
        have hx : x ∈ N ++ [n] := hr
        simp only [List.mem_append, List.mem_singleton] at hx
        rcases hx with hx | rfl
        · have hxn : x ≠ n := hneN x hx
          rw [hM'o _ (by simp) (by simp [hxn])]
          have hrx : Rel f N (.children x) := hx
          refine IsList_frame (hL.isList _ hrx) (hlists _ (by simp) (by simp [hxn])) ?_ ?_
          · intro y hy
            exact (hnext y (fun hy' => by
              have := Lists_disjoint hL hrx hrel hy hy'
              simp at this) (hneN y (hL.memIn _ hrx y hy).1)).1
          · intro y hy
            exact (hnext y (fun hy' => by
              have := Lists_disjoint hL hrx hrel hy hy'
              simp at this) (hneN y (hL.memIn _ hrx y hy).1)).2
        · rw [hM'n]; exact IsList_nil_of hkn
    · intro r hr x hx
      cases r with
      | trees g =>
        have : g = f := hr
        subst this
        rw [hM'R] at hx
        simp only [List.mem_append, List.mem_singleton] at hx
        rcases hx with hx | rfl
        · have hxn : x ≠ n := hneR x hx
          exact ⟨by simp [(hL.memIn _ hrel x hx).1], (hown x hxn).trans (hL.memIn _ hrel x hx).2⟩
        · exact ⟨by simp, hownn⟩
      | children y =>
        have hy : y ∈ N ++ [n] := hr
        simp only [List.mem_append, List.mem_singleton] at hy
        rcases hy with hy | rfl
        · have hyn : y ≠ n := hneN y hy
          rw [hM'o _ (by simp) (by simp [hyn])] at hx
          have hry : Rel f N (.children y) := hy
          have hxN := (hL.memIn _ hry x hx).1
          have hxn : x ≠ n := hneN x hxN
          exact ⟨by simp [hxN], (hown x hxn).trans (hL.memIn _ hry x hx).2⟩
        · rw [hM'n] at hx; simp at hx
    · intro x hx
      simp only [List.mem_append, List.mem_singleton] at hx
      rcases hx with hx | rfl
      · have hxn : x ≠ n := hneN x hx
        rw [hown x hxn]
        obtain ⟨h1, h2⟩ := hL.memOf x hx
        cases hp : s.Parent x with
        | none =>
          rw [own_none hp] at h2 ⊢
          exact ⟨rfl, by rw [hM'R]; simp [h2]⟩
        | some p =>
          rw [own_some hp] at h1 h2 ⊢
          have hpN : p ∈ N := h1
          have hpn : p ≠ n := hneN p hpN
          refine ⟨?_, by rw [hM'o _ (by simp) (by simp [hpn])]; exact h2⟩
          show p ∈ N ++ [n]
          simp [hpN]
      · rw [hownn]
        exact ⟨rfl, by rw [hM'R]; simp⟩
  have hShape : Shape t f (N ++ [n]) M' H := by
    refine ⟨hLists, ?_, ?_⟩
    · intro x hx p hp
      rw [hP] at hp
      by_cases hxn : x = n
      · subst hxn; simp at hp
      · rw [Function.update_noteq hxn] at hp
        have hxN : x ∈ N := by
          simp only [List.mem_append, List.mem_singleton] at hx
          exact hx.resolve_right hxn
        exact h.shape.height x hxN p hp
    · intro x hx
      rw [hM'R] at hx
      rw [hMk]
      simp only [List.mem_append, List.mem_singleton] at hx
      rcases hx with hx | rfl
      · rw [Function.update_noteq (hneR x hx)]
        exact h.shape.unmarked x hx
      · simp
  have hOrd : O → Ordered t (N ++ [n]) := by
    intro o x hx p hp
    rw [hP] at hp
    by_cases hxn : x = n
    · subst hxn; simp at hp
    · rw [Function.update_noteq hxn] at hp
      have hxN : x ∈ N := by
        simp only [List.mem_append, List.mem_singleton] at hx
        exact hx.resolve_right hxn
      have hpN := (Lists_parent_mem hL hxN hp).1
      rw [hV, Function.update_noteq hxn, Function.update_noteq (hneN p hpN)]
      exact h.order o x hxN p hp
  have hNN : O → NoNaN t (N ++ [n]) := by
    intro o x hx
    rw [hV]
    simp only [List.mem_append, List.mem_singleton] at hx
    rcases hx with hx | rfl
    · rw [Function.update_noteq (hneN x hx)]
      exact h.nonan o x hx
    · rw [Function.update_same]
      exact hvn o
  have hmin : t.min = Function.update s.min f newmin := by
    show Function.update t1.min f newmin = _
    rw [op1.min]; simp [s0, NewNode]
  have hcnt : t.nodeCount = Function.update s.nodeCount f (s.nodeCount f + 1) := by
    show Function.update t1.nodeCount f _ = _
    rw [op1.nodeCount]; simp [s0, NewNode]
  refine ⟨t, M', hins, ⟨hShape, ?_, ?_, hNN, hOrd, ?_, ?_⟩, hM'R, hM'n, hV, ?_, hP, hMk, hcnt,
    hmin, ?_, ?_, hlists, hkn, ?_⟩
  · rw [hcnt, Function.update_same, h.count]; simp
  · intro m hm
    rw [hmin, Function.update_same] at hm
    rw [hM'R]
    cases hsm : s.min f with
    | none =>
      simp only [newmin, hsm, Option.some.injEq] at hm
      subst hm
      simp
    | some m0 =>
      have hm0R := h.minRoot m0 hsm
      simp only [newmin, hsm] at hm
      split at hm
      · simp only [Option.some.injEq] at hm
        subst hm
        simp
      · simp only [Option.some.injEq] at hm
        subst hm
        simp [hm0R]
  · intro o m hm
    have hvn' := hvn o
    rw [hmin, Function.update_same] at hm
    rw [hM'R, hV]
    cases hsm : s.min f with
    | none =>
      simp only [newmin, hsm, Option.some.injEq] at hm
      subst hm
      intro x hx
      simp only [List.mem_append, List.mem_singleton] at hx
      rcases hx with hx | rfl
      · rw [Function.update_noteq (hneR x hx), h.minNone o hsm x hx, Function.update_same]
        exact Val_le_posInf hvn'
      · exact Val_le_refl (by rw [Function.update_same]; exact hvn')
    | some m0 =>
      have hm0R := h.minRoot m0 hsm
      have hm0le := h.minLe o m0 hsm
      have hm0n : m0 ≠ n := hneR m0 hm0R
      have hm0nn : s.Value m0 ≠ Val.nan := h.nonan o m0 (hL.memIn _ hrel m0 hm0R).1
      simp only [newmin, hsm] at hm
      by_cases hlt : v < s.Value m0
      · simp only [hlt, if_true, Option.some.injEq] at hm
        subst hm
        intro x hx
        simp only [List.mem_append, List.mem_singleton] at hx
        rcases hx with hx | rfl
        · rw [Function.update_noteq (hneR x hx), Function.update_same]
          exact Val_le_trans (Val_le_of_lt hlt) (hm0le x hx)
        · exact Val_le_refl (by rw [Function.update_same]; exact hvn')
      · simp only [hlt, if_false, Option.some.injEq] at hm
        subst hm
        intro x hx
        simp only [List.mem_append, List.mem_singleton] at hx
        rw [Function.update_noteq hm0n]
        rcases hx with hx | rfl
        · rw [Function.update_noteq (hneR x hx)]
          exact hm0le x hx
        · rw [Function.update_same]; exact Val_le_of_not_lt hvn' hm0nn hlt
  · intro o hnone
    rw [hmin, Function.update_same] at hnone
    cases hsm : s.min f with
    | none => simp [newmin, hsm] at hnone
    | some m0 =>
      simp only [newmin, hsm] at hnone
      split at hnone <;> cases hnone
  · show t1.Data = _; rw [op1.Data]; simp [s0, NewNode, ← hn]
  · show t1.nodeNext = _; rw [op1.nodeNext]; simp [s0, NewNode, ← hn]
  · show t1.heapNext = _; rw [op1.heapNext]; simp [s0, NewNode]
  · have hA : ∀ x, ¬ (x ∈ N ∨ x = n) → x ≠ n ∧ x ∉ M (.trees f) := by
      intro x hx
      exact ⟨fun e => hx (Or.inr e), fun hx' => hx (Or.inl (hL.memIn _ hrel x hx').1)⟩
    constructor
    · intro x hx; rw [hV, Function.update_noteq (hA x hx).1]
    · intro x hx
      show t1.Data x = _
      rw [op1.Data]; simp [s0, NewNode, ← hn, Function.update, (hA x hx).1]
    · intro x hx; rw [hP, Function.update_noteq (hA x hx).1]
    · intro x hx; rw [hMk, Function.update_noteq (hA x hx).1]
    · intro x hx; exact (hnext x (hA x hx).2 (hA x hx).1).1
    · intro x hx; exact (hnext x (hA x hx).2 (hA x hx).1).2
    · intro x hx; exact hlists _ (by simp) (by simp [(hA x hx).1])
    · intro g hg; exact hlists _ (by simp [hg]) (by simp)
    · intro g hg; rw [hmin, Function.update_noteq hg]
    · intro g hg; rw [hcnt, Function.update_noteq hg]
    · show s.heapNext ≤ t1.heapNext; rw [op1.heapNext]; simp [s0, NewNode]
    · show s.nodeNext ≤ t1.nodeNext; rw [op1.nodeNext]; simp [s0, NewNode]

/-! ## `Merge` of two heaps -/

/-- `f.Merge(g)` for two heaps that satisfy the invariant, share no node, and both have a
cached minimum: the roots of `g` are appended to the roots of `f`. -/
theorem Merge_ok {O : Prop} {s : Store D} {f g : Nat} {Nf Ng : List Nat}
    {Mf Mg : ListRef → List Nat} {Hf Hg : Nat → Nat} (hf : HeapInv O s f Nf Mf Hf)
    (hg : HeapInv O s g Ng Mg Hg)
    (hfg : f ≠ g) (hdis : ∀ x ∈ Nf, x ∉ Ng) (hne : Ng ≠ [])
    {fm gm : Nat} (hfm : s.min f = some fm) (hgm : s.min g = some gm) :
    ∃ t M' H', Merge f (some g) s = .ok t () ∧
      HeapInv O t f (Nf ++ Ng) M' H' ∧
      M' (.trees f) = Mf (.trees f) ++ Mg (.trees g) ∧
      t.Value = s.Value ∧ t.Data = s.Data ∧ t.Parent = s.Parent ∧ t.Marked = s.Marked ∧
      t.nodeCount = Function.update s.nodeCount f (s.nodeCount f + s.nodeCount g) ∧
      t.min = Function.update s.min f
        (if s.Value gm < s.Value fm then some gm else some fm) ∧
      t.nodeNext = s.nodeNext ∧ t.heapNext = s.heapNext ∧
      Outside s t f (fun x => x ∈ Nf ++ Ng) := by
  have hLf := hf.shape.lists
  have hLg := hg.shape.lists
  have hrf : Rel f Nf (.trees f) := rfl
  have hrg : Rel g Ng (.trees g) := rfl
  have hRf : ∀ x ∈ Mf (.trees f), x ∈ Nf := fun x hx => (hLf.memIn _ hrf x hx).1
  have hRg : ∀ x ∈ Mg (.trees g), x ∈ Ng := fun x hx => (hLg.memIn _ hrg x hx).1
  have hne' : ListRef.trees f ≠ ListRef.trees g := by simp [hfg]
  have hdisR : ∀ x ∈ Mf (.trees f), x ∉ Mg (.trees g) :=
    fun x hx hx' => hdis x (hRf x hx) (hRg x hx')
  have hRgne : Mg (.trees g) ≠ [] := fun e => hne ((HeapInv_roots_nil hg.shape).1 e)
  have hlen : Len g s ≠ 0 := by
    unfold Len NodeList.Len
    rw [(hLg.isList _ hrg).length]
    have : 0 < (Mg (.trees g)).length := List.length_pos.2 hRgne
    omega
  obtain ⟨t1, e1, hl1, op1⟩ := NodeList_Merge_ok (hLf.isList _ hrf) (hLg.isList _ hrg) hne' hdisR
  let newmin : Option Nat := if s.Value gm < s.Value fm then some gm else some fm
  let t := (t1.setMin f newmin).setCount f (s.nodeCount f + s.nodeCount g)
  have hmerge : Merge f (some g) s = .ok t () := by
    have hcode : Merge f (some g) s = .ok
        ((if t1.Value gm < t1.Value fm then t1.setMin f (t1.min g) else t1).setCount f
          ((if t1.Value gm < t1.Value fm then t1.setMin f (t1.min g) else t1).nodeCount f +
           (if t1.Value gm < t1.Value fm then t1.setMin f (t1.min g) else t1).nodeCount g)) () := by
      unfold Merge
      simp only [hlen, if_false, e1, bind_ok]
      rw [op1.min, hgm, hfm]
    rw [hcode]
    congr 1
    rw [op1.Value]
    by_cases hlt : s.Value gm < s.Value fm
    · simp only [hlt, if_true]
      show (t1.setMin f (t1.min g)).setCount f (t1.nodeCount f + t1.nodeCount g) = _
      rw [op1.min, op1.nodeCount, hgm]
      simp only [t, newmin, hlt, if_true]
    · simp only [hlt, if_false]
      rw [op1.nodeCount]
      have e : t1.setMin f (some fm) = t1 := by
        have := setMin_self t1 f
        rw [op1.min, hfm] at this; exact this
      simp only [t, newmin, hlt, if_false, e]
  let M' : ListRef → List Nat := fun r =>
    match r with
    | .trees _ => Mf (.trees f) ++ Mg (.trees g)
    | .children x => if x ∈ Ng then Mg (.children x) else Mf (.children x)
  let H' : Nat → Nat := fun x => if x ∈ Ng then Hg x else Hf x
  have hP : t.Parent = s.Parent := op1.Parent
  have hMk : t.Marked = s.Marked := op1.Marked
  have hV : t.Value = s.Value := op1.Value
  have hown_f : ∀ x ∈ Nf, own f t x = own f s x := fun x _ => own_congr (by rw [hP])
  have hown_g : ∀ x ∈ Ng, own f t x =
      (match own g s x with | .trees _ => .trees f | .children p => .children p) := by
    intro x _
    unfold own
    rw [hP]
    cases s.Parent x <;> rfl
  have hnd : (Nf ++ Ng).Nodup :=
    List.Nodup.append hLf.nodupN hLg.nodupN (fun x hx hx' => hdis x hx hx')
  have hlists : ∀ r, r ≠ .trees f → t.lists r = s.lists r := fun r hr => op1.lists r hr
  have hnext : ∀ x, x ∉ Mf (.trees f) → x ∉ Mg (.trees g) →
      t.Next x = s.Next x ∧ t.prev x = s.prev x := by
    intro x h1 h2
    have : x ∉ Mf (.trees f) ++ Mg (.trees g) := by simp [h1, h2]
    exact ⟨op1.next x this, op1.prev x this⟩
  have hLists : Lists t f (Nf ++ Ng) M' := by
    refine ⟨hnd, ?_, ?_, ?_⟩
    · intro r hr
      cases r with
      | trees k =>
        have : k = f := hr
        subst this
        exact IsList_frame hl1 rfl (fun _ _ => rfl) (fun _ _ => rfl)
      | children x =>
        have hx : x ∈ Nf ++ Ng := hr
        show IsList t (.children x) (if x ∈ Ng then Mg (.children x) else Mf (.children x))
        by_cases hxg : x ∈ Ng
        · rw [if_pos hxg]
          have hrx : Rel g Ng (.children x) := hxg
          refine IsList_frame (hLg.isList _ hrx) (hlists _ (by simp)) ?_ ?_
          · intro y hy
            have hyN := (hLg.memIn _ hrx y hy).1
            exact (hnext y (fun h1 => hdis y (hRf y h1) hyN)
              (fun h2 => by have := Lists_disjoint hLg hrx hrg hy h2; simp at this)).1
          · intro y hy
            have hyN := (hLg.memIn _ hrx y hy).1
            exact (hnext y (fun h1 => hdis y (hRf y h1) hyN)
              (fun h2 => by have := Lists_disjoint hLg hrx hrg hy h2; simp at this)).2
        · rw [if_neg hxg]
          have hxf : x ∈ Nf := (List.mem_append.1 hx).resolve_right hxg
          have hrx : Rel f Nf (.children x) := hxf
          refine IsList_frame (hLf.isList _ hrx) (hlists _ (by simp)) ?_ ?_
          · intro y hy
            have hyN := (hLf.memIn _ hrx y hy).1
            exact (hnext y (fun h1 => by have := Lists_disjoint hLf hrx hrf hy h1; simp at this)
              (fun h2 => hdis y hyN (hRg y h2))).1
          · intro y hy
            have hyN := (hLf.memIn _ hrx y hy).1
            exact (hnext y (fun h1 => by have := Lists_disjoint hLf hrx hrf hy h1; simp at this)
              (fun h2 => hdis y hyN (hRg y h2))).2
    · intro r hr x hx
      cases r with
      | trees k =>
        have : k = f := hr
        subst this
        have hx' : x ∈ Mf (.trees k) ++ Mg (.trees g) := hx
        simp only [List.mem_append] at hx'
        rcases hx' with hx' | hx'
        · exact ⟨by simp [hRf x hx'], (hown_f x (hRf x hx')).trans (hLf.memIn _ hrf x hx').2⟩
        · refine ⟨by simp [hRg x hx'], ?_⟩
          rw [hown_g x (hRg x hx'), (hLg.memIn _ hrg x hx').2]
      | children y =>
        have hy : y ∈ Nf ++ Ng := hr
        have hx' : x ∈ (if y ∈ Ng then Mg (.children y) else Mf (.children y)) := hx
        by_cases hyg : y ∈ Ng
        · rw [if_pos hyg] at hx'
          have hry : Rel g Ng (.children y) := hyg
          have hxN := (hLg.memIn _ hry x hx').1
          refine ⟨by simp [hxN], ?_⟩
          rw [hown_g x hxN, (hLg.memIn _ hry x hx').2]
        · rw [if_neg hyg] at hx'
          have hyf : y ∈ Nf := (List.mem_append.1 hy).resolve_right hyg
          have hry : Rel f Nf (.children y) := hyf
          have hxN := (hLf.memIn _ hry x hx').1
          exact ⟨by simp [hxN], (hown_f x hxN).trans (hLf.memIn _ hry x hx').2⟩
    · intro x hx
      simp only [List.mem_append] at hx
      rcases hx with hx | hx
      · rw [hown_f x hx]
        obtain ⟨h1, h2⟩ := hLf.memOf x hx
        cases hp : s.Parent x with
        | none =>
          rw [own_none hp] at h2 ⊢
          exact ⟨rfl, by show x ∈ Mf (.trees f) ++ Mg (.trees g); simp [h2]⟩
        | some p =>
          rw [own_some hp] at h1 h2 ⊢
          have hpN : p ∈ Nf := h1
          refine ⟨by show p ∈ Nf ++ Ng; simp [hpN], ?_⟩
          show x ∈ (if p ∈ Ng then Mg (.children p) else Mf (.children p))
          rw [if_neg (hdis p hpN)]; exact h2
      · rw [hown_g x hx]
        obtain ⟨h1, h2⟩ := hLg.memOf x hx
        cases hp : s.Parent x with
        | none =>
          rw [own_none hp] at h2 ⊢
          exact ⟨rfl, by show x ∈ Mf (.trees f) ++ Mg (.trees g); simp [h2]⟩
        | some p =>
          rw [own_some hp] at h1 h2 ⊢
          have hpN : p ∈ Ng := h1
          refine ⟨by show p ∈ Nf ++ Ng; simp [hpN], ?_⟩
          show x ∈ (if p ∈ Ng then Mg (.children p) else Mf (.children p))
          rw [if_pos hpN]; exact h2
  have hShape : Shape t f (Nf ++ Ng) M' H' := by
    refine ⟨hLists, ?_, ?_⟩
    · intro x hx p hp
      rw [hP] at hp
      show (if x ∈ Ng then Hg x else Hf x) < (if p ∈ Ng then Hg p else Hf p)
      by_cases hxg : x ∈ Ng
      · have hpN := (Lists_parent_mem hLg hxg hp).1
        rw [if_pos hxg, if_pos hpN]
        exact hg.shape.height x hxg p hp
      · have hxf : x ∈ Nf := (List.mem_append.1 hx).resolve_right hxg
        have hpN := (Lists_parent_mem hLf hxf hp).1
        rw [if_neg hxg, if_neg (hdis p hpN)]
        exact hf.shape.height x hxf p hp
    · intro x hx
      have hx' : x ∈ Mf (.trees f) ++ Mg (.trees g) := hx
      rw [hMk]
      simp only [List.mem_append] at hx'
      rcases hx' with hx' | hx'
      · exact hf.shape.unmarked x hx'
      · exact hg.shape.unmarked x hx'
  have hOrd : O → Ordered t (Nf ++ Ng) := by
    intro o x hx p hp
    rw [hP] at hp
    rw [hV]
    simp only [List.mem_append] at hx
    rcases hx with hx | hx
    · exact hf.order o x hx p hp
    · exact hg.order o x hx p hp
  have hNN : O → NoNaN t (Nf ++ Ng) := by
    intro o x hx
    rw [hV]
    simp only [List.mem_append] at hx
    rcases hx with hx | hx
    · exact hf.nonan o x hx
    · exact hg.nonan o x hx
  have hmin : t.min = Function.update s.min f newmin := by
    show Function.update t1.min f newmin = _
    rw [op1.min]
  have hcnt : t.nodeCount = Function.update s.nodeCount f (s.nodeCount f + s.nodeCount g) := by
    show Function.update t1.nodeCount f _ = _
    rw [op1.nodeCount]
  have hfmR := hf.minRoot fm hfm
  have hgmR := hg.minRoot gm hgm
  refine ⟨t, M', H', hmerge, ⟨hShape, ?_, ?_, hNN, hOrd, ?_, ?_⟩, rfl, hV, op1.Data, hP, hMk,
    hcnt, hmin, op1.nodeNext, op1.heapNext, ?_⟩
  · rw [hcnt, Function.update_same, hf.count, hg.count]; simp
  · intro m hm
    rw [hmin, Function.update_same] at hm
    show m ∈ Mf (.trees f) ++ Mg (.trees g)
    simp only [newmin] at hm
    split at hm
    · simp only [Option.some.injEq] at hm
      subst hm
      simp [hgmR]
    · simp only [Option.some.injEq] at hm
      subst hm
      simp [hfmR]
  · intro o m hm
    have hfmle := hf.minLe o fm hfm
    have hgmle := hg.minLe o gm hgm
    have hfnn : s.Value fm ≠ Val.nan := hf.nonan o fm (hRf fm hfmR)
    have hgnn : s.Value gm ≠ Val.nan := hg.nonan o gm (hRg gm hgmR)
    rw [hmin, Function.update_same] at hm
    rw [hV]
    show ∀ x ∈ Mf (.trees f) ++ Mg (.trees g), s.Value m ≤ s.Value x
    by_cases hlt : s.Value gm < s.Value fm
    · simp only [newmin, hlt, if_true, Option.some.injEq] at hm
      subst hm
      intro x hx
      simp only [List.mem_append] at hx
      rcases hx with hx | hx
      · exact Val_le_trans (Val_le_of_lt hlt) (hfmle x hx)
      · exact hgmle x hx
    · simp only [newmin, hlt, if_false, Option.some.injEq] at hm
      subst hm
      intro x hx
      simp only [List.mem_append] at hx
      rcases hx with hx | hx
      · exact hfmle x hx
      · exact Val_le_trans (Val_le_of_not_lt hgnn hfnn hlt) (hgmle x hx)
  · intro o hnone
    rw [hmin, Function.update_same] at hnone
    simp only [newmin] at hnone
    split at hnone <;> cases hnone
  · have hA : ∀ x, x ∉ Nf ++ Ng → x ∉ Mf (.trees f) ∧ x ∉ Mg (.trees g) := by
      intro x hx
      exact ⟨fun h1 => hx (by simp [hRf x h1]), fun h2 => hx (by simp [hRg x h2])⟩
    constructor
    · intro x _; rw [hV]
    · intro x _; show t1.Data x = _; rw [op1.Data]
    · intro x _; rw [hP]
    · intro x _; rw [hMk]
    · intro x hx; exact (hnext x (hA x hx).1 (hA x hx).2).1
    · intro x hx; exact (hnext x (hA x hx).1 (hA x hx).2).2
    · intro x _; exact hlists _ (by simp)
    · intro k hk; exact hlists _ (by simp [hk])
    · intro k hk; rw [hmin, Function.update_noteq hk]
    · intro k hk; rw [hcnt, Function.update_noteq hk]
    · exact le_of_eq op1.heapNext.symm
    · exact le_of_eq op1.nodeNext.symm

/-! ## `upCut` and `DecreaseKey` -/

theorem upCut_runs {f : Nat} {N : List Nat} {H : Nat → Nat} {B : Nat}
    (hB : ∀ x ∈ N, H x < B) :
    ∀ (k : Nat) (s : Store D) (M : ListRef → List Nat) (n : Nat),
      Shape s f N M H → n ∈ N → B ≤ H n + k →
      ∃ K t M', Runs (fun fuel => upCut f fuel n s) K t () ∧ Shape t f N M' H ∧
        Keeps s t ∧ (∀ x p, t.Parent x = some p → s.Parent x = some p) ∧
        Outside s t f (fun x => x ∈ N) := by
  intro k
  induction k with
  | zero => intro s M n _ hn hk; have := hB n hn; omega
  | succ k ih =>
    intro s M n h hn hk
    cases hp : s.Parent n with
    | none =>
      refine ⟨1, s, M, ?_, h, Keeps_refl s, fun _ _ hx => hx, Outside_refl _ _ _⟩
      intro fuel
      cases fuel with
      | zero => simp [upCut]
      | succ j => simp [upCut, Node.IsRoot, hp]
    | some p =>
      by_cases hm : s.Marked n = true
      · obtain ⟨t1, e1, hS1, hP1, -, hK1, hO1⟩ := cut_shape h hn hp
        have hpN := (Lists_parent_mem h.lists hn hp).1
        have hh := h.height n hn p hp
        obtain ⟨K, t, M', hR, hS, hK, hPar, hO⟩ := ih t1 _ p hS1 hpN (by omega)
        refine ⟨K + 1, t, M', ?_, hS, Keeps_trans hK1 hK, ?_, Outside_trans hO1 hO⟩
        · refine Runs_succ rfl (fun j => ?_) hR
          simp [upCut, Node.IsRoot, hp, hm, e1]
        · intro x q hq
          have := hPar x q hq
          rw [hP1] at this
          by_cases hxn : x = n
          · subst hxn; simp at this
          · rwa [Function.update_noteq hxn] at this
      · have hm' : s.Marked n = false := by simpa using hm
        refine ⟨1, s.setMarked n true, M, ?_, ?_, ⟨rfl, rfl, rfl, rfl, rfl, rfl⟩,
          fun _ _ hx => hx, Outside_setMarked hn true⟩
        · intro fuel
          cases fuel with
          | zero => simp [upCut]
          | succ j => simp [upCut, Node.IsRoot, hp, hm']
        · refine ⟨Lists_congr h.lists rfl rfl rfl rfl, h.height, ?_⟩
          intro x hx
          have hxn : x ≠ n := by
            rintro rfl
            rw [Lists_own_trees h.lists hx] at hp; cases hp
          simp only [Store.setMarked, Function.update_noteq hxn]
          exact h.unmarked x hx

/-- `DecreaseKey(n, v)` with `v <= n.Value` on a heap that satisfies the invariant: the key
of `n` becomes `v`, nothing else about the keys and payloads changes, and the invariant holds
again. -/
theorem DecreaseKey_runs {O : Prop} {s : Store D} {f : Nat} {N : List Nat}
    {M : ListRef → List Nat} {H : Nat → Nat} {n : Nat} {v : Val} (h : HeapInv O s f N M H)
    (hn : n ∈ N) (hguard : ¬ s.Value n < v) (hvn : O → v ≠ Val.nan) :
    ∃ K t M', Runs (fun fuel => DecreaseKey fuel f n v s) K t n ∧
      HeapInv O t f N M' H ∧
      t.Value = Function.update s.Value n v ∧ t.Data = s.Data ∧
      t.nodeCount = s.nodeCount ∧ t.nodeNext = s.nodeNext ∧ t.heapNext = s.heapNext ∧
      Outside s t f (fun x => x ∈ N) := by
  have hL := h.shape.lists
  let s1 := s.setValue n v
  have hS1 : Shape s1 f N M H := Shape_congr h.shape rfl rfl rfl rfl rfl
  have hO1 : Outside s s1 f (fun x => x ∈ N) := Outside_setValue hn v
  have hv : O → v ≤ s.Value n := fun o => Val_le_of_not_lt (h.nonan o n hn) (hvn o) hguard
  have hnn1 : O → NoNaN s1 N := by
    intro o x hx
    show Function.update s.Value n v x ≠ Val.nan
    by_cases hxn : x = n
    · rw [hxn, Function.update_same]
      exact hvn o
    · rw [Function.update_noteq hxn]
      exact h.nonan o x hx
  -- the state after the cut (if any), in all cases
  have hmid : ∃ K t2 M2, Runs (fun fuel =>
        (if Node.IsRoot n s1 then (Res.ok s1 () : Res D Unit) else
          match s1.Parent n with
          | none => .crash s1
          | some p =>
            if s1.Value n < s1.Value p then
              (cut f n s1).bind fun s _ => upCut f fuel p s
            else .ok s1 ())) K t2 () ∧
      Shape t2 f N M2 H ∧ (O → Ordered t2 N) ∧ Keeps s1 t2 ∧
      Outside s1 t2 f (fun x => x ∈ N) := by
    have hord_other : O → ∀ x ∈ N, x ≠ n → ∀ p, s.Parent x = some p →
        s1.Value p ≤ s1.Value x := by
      intro o x hx hxn p hp
      show Function.update s.Value n v p ≤ Function.update s.Value n v x
      rw [Function.update_noteq hxn]
      by_cases hpn : p = n
      · subst hpn
        rw [Function.update_same]
        exact Val_le_trans (hv o) (h.order o x hx p hp)
      · rw [Function.update_noteq hpn]; exact h.order o x hx p hp
    cases hp : s.Parent n with
    | none =>
      refine ⟨0, s1, M, Runs_const (fun fuel => ?_), hS1, ?_, Keeps_refl _, Outside_refl _ _ _⟩
      · have : Node.IsRoot n s1 = true := by simp [Node.IsRoot, s1, hp]
        simp [this]
      · intro o x hx p hq
        by_cases hxn : x = n
        · subst hxn
          have : s.Parent x = some p := hq
          rw [hp] at this; cases this
        · exact hord_other o x hx hxn p hq
    | some p =>
      have hroot : Node.IsRoot n s1 = false := by simp [Node.IsRoot, s1, hp]
      have hp1 : s1.Parent n = some p := hp
      have hpN := (Lists_parent_mem hL hn hp).1
      have hpn : p ≠ n := by
        rintro rfl
        exact Nat.lt_irrefl _ (h.shape.height p hn p hp)
      by_cases hlt : s1.Value n < s1.Value p
      · obtain ⟨t1, e1, hSc, hPc, -, hKc, hOc⟩ := cut_shape hS1 hn hp1
        obtain ⟨B, hB⟩ := exists_height_bound H N
        obtain ⟨K, t2, M2, hR, hS2, hK2, hPar2, hO2⟩ :=
          upCut_runs hB B t1 _ p hSc hpN (by omega)
        refine ⟨K, t2, M2, Runs_congr hR (fun fuel => ?_), hS2, ?_, Keeps_trans hKc hK2,
          Outside_trans hOc hO2⟩
        · simp only [hroot, hp1, hlt, if_true, e1, bind_ok]
          simp
        · intro o x hx q hq
          have hq1 := hPar2 x q hq
          rw [hPc] at hq1
          rw [hK2.Value, hKc.Value]
          by_cases hxn : x = n
          · subst hxn; simp at hq1
          · rw [Function.update_noteq hxn] at hq1
            exact hord_other o x hx hxn q hq1
      · refine ⟨0, s1, M, Runs_const (fun fuel => ?_), hS1, ?_, Keeps_refl _, Outside_refl _ _ _⟩
        · simp only [hroot, hp1, hlt, if_false]
          simp
        · intro o x hx q hq
          by_cases hxn : x = n
          · subst hxn
            have : s.Parent x = some q := hq
            rw [hp] at this
            cases this
            exact Val_le_of_not_lt (hnn1 o x hn) (hnn1 o p hpN) hlt
          · exact hord_other o x hx hxn q hq
  obtain ⟨K2, t2, M2, hR2, hS2, hord2, hK2, hO2⟩ := hmid
  have hnn2 : O → NoNaN t2 N := fun o x hx => by
    rw [hK2.Value]
    exact hnn1 o x hx
  obtain ⟨r, hR3, hrm, hr0⟩ :=
    resetMin_runs (hS2.lists.isList _ (show Rel f N (.trees f) from rfl))
  have hr := fun o => hr0 (fun x hx =>
    hnn2 o x (hS2.lists.memIn _ (show Rel f N (.trees f) from rfl) x hx).1)
  have hrun0 := Runs_bind (k := fun fuel s (_ : Unit) =>
      (resetMin fuel f s).bind fun s _ => Res.ok s n) hR2
    (Runs_bind (k := fun _ s (_ : Unit) => Res.ok s n) hR3 (Runs_const (fun _ => rfl)))
  obtain ⟨Kx, hrun⟩ : ∃ K, Runs (fun fuel => DecreaseKey fuel f n v s) K (t2.setMin f r) n :=
    ⟨_, Runs_congr hrun0 (fun fuel => by
      show DecreaseKey fuel f n v s = _
      unfold DecreaseKey
      exact (if_neg hguard).trans rfl)⟩
  refine ⟨Kx, t2.setMin f r, M2, hrun, ⟨?_, ?_, ?_, hnn2, hord2, ?_, ?_⟩, ?_, ?_, ?_, ?_, ?_,
    ?_⟩
  · exact Shape_congr hS2 rfl rfl rfl rfl rfl
  · show t2.nodeCount f = _
    rw [hK2.nodeCount]; exact h.count
  · intro y hy
    have hy' : r = some y := by simpa using hy
    exact hrm y hy'
  · intro o y hy
    have hy' : r = some y := by simpa using hy
    rcases hr o with ⟨h1, -⟩ | ⟨z, hz, h1, -, h3⟩
    · rw [h1] at hy'; cases hy'
    · rw [h1] at hy'
      cases hy'
      exact h3
  · intro o hnone
    have hy' : r = none := by simpa using hnone
    rcases hr o with ⟨-, h2⟩ | ⟨z, hz, h1, -, -⟩
    · exact h2
    · rw [h1] at hy'; cases hy'
  · show t2.Value = _; rw [hK2.Value]; rfl
  · show t2.Data = _; rw [hK2.Data]; rfl
  · show t2.nodeCount = _; rw [hK2.nodeCount]; rfl
  · show t2.nodeNext = _; rw [hK2.nodeNext]; rfl
  · show t2.heapNext = _; rw [hK2.heapNext]; rfl
  · exact Outside_trans (Outside_trans hO1 hO2) (Outside_setMin r)

/-! ## `Delete`, membership, frames -/

/-- After `DecreaseKey(n, -Inf)` on a heap with no other key `-Inf`, the cached minimum
is `n`. -/
theorem min_after_sentinel {t : Store D} {f : Nat} {N : List Nat} {M : ListRef → List Nat}
    {H : Nat → Nat} {n : Nat} {O : Prop} (h : HeapInv O t f N M H) (o : O) (hn : n ∈ N)
    (hv : t.Value n = Val.negInf) (hother : ∀ x ∈ N, x ≠ n → t.Value x ≠ Val.negInf) :
    t.min f = some n := by
  cases hm : t.min f with
  | none =>
    obtain ⟨r, hr, hle⟩ := exists_root_le h.shape (h.order o) (h.nonan o) n hn
    rw [h.minNone o hm r hr, hv] at hle
    exact (hle : False).elim
  | some y =>
    obtain ⟨hyN, hle⟩ := HeapInv_min_le h o hm
    have := hle n hn
    rw [hv] at this
    have hy := Val_le_negInf this
    by_cases hyn : y = n
    · rw [hyn]
    · exact absurd hy (hother y hyN hyn)

/-- `Delete(n)` on a heap that satisfies the invariant and holds no key `-Inf`: exactly `n`
leaves the heap. -/
theorem Delete_runs {O : Prop} {s : Store D} {f : Nat} {N : List Nat}
    {M : ListRef → List Nat} {H : Nat → Nat} {n : Nat} (h : HeapInv O s f N M H) (o : O)
    (hn : n ∈ N) (hno : ∀ x ∈ N, s.Value x ≠ Val.negInf) :
    ∃ K t M' H', Runs (fun fuel => Delete fuel f n s) K t () ∧
      HeapInv O t f (N.erase n) M' H' ∧
      (∀ x, x ≠ n → t.Value x = s.Value x) ∧ t.Data = s.Data ∧
      t.nodeNext = s.nodeNext ∧ t.heapNext = s.heapNext ∧
      Outside s t f (fun x => x ∈ N) := by
  obtain ⟨K1, t1, M1, hR1, hI1, hV1, hD1, -, hnn1, hhn1, hO1⟩ :=
    DecreaseKey_runs (v := NEG_INF) h hn (Val_not_lt_negInf _) (fun _ e => by cases e)
  have hmin : t1.min f = some n := by
    refine min_after_sentinel hI1 o hn (by rw [hV1]; simp [NEG_INF]) ?_
    intro x hx hxn
    rw [hV1, Function.update_noteq hxn]
    exact hno x hx
  obtain ⟨K2, t2, M2, H2, hR2, hI2, hV2, hD2, hnn2, hhn2, hO2, -⟩ := ExtractMin_runs hI1 hmin
  have hrun0 := Runs_bind (k := fun fuel s (_ : Nat) =>
      (ExtractMin fuel f s).bind fun s _ => Res.ok s ()) hR1
    (Runs_bind (k := fun _ s (_ : D) => Res.ok s ()) hR2 (Runs_const (fun _ => rfl)))
  refine ⟨_, t2, M2, H2, Runs_congr hrun0 (fun fuel => rfl), hI2, ?_, ?_, ?_, ?_,
    Outside_trans hO1 hO2⟩
  · intro x hx
    rw [hV2, hV1, Function.update_noteq hx]
  · rw [hD2, hD1]
  · rw [hnn2, hnn1]
  · rw [hhn2, hhn1]

theorem InList_mem {s : Store D} {c : Option Nat} {n : Nat} (h : InList s c n) :
    ∀ {xs : List Nat}, Seg s.Next c xs none → n ∈ xs := by
  induction h with
  | head n =>
    intro xs hs
    cases xs with
    | nil => simp at hs
    | cons x xs =>
      simp only [Seg_cons, Option.some.injEq] at hs
      rw [hs.1]; simp
  | tail x n _ ih =>
    intro xs hs
    cases xs with
    | nil => simp at hs
    | cons y xs =>
      simp only [Seg_cons, Option.some.injEq] at hs
      obtain ⟨rfl, hs⟩ := hs
      exact List.mem_cons_of_mem _ (ih hs)

theorem InList_of_mem {s : Store D} {xs : List Nat} :
    ∀ {c : Option Nat} {n : Nat}, Seg s.Next c xs none → n ∈ xs → InList s c n := by
  induction xs with
  | nil => intro c n _ hn; simp at hn
  | cons x xs ih =>
    intro c n hs hn
    simp only [Seg_cons] at hs
    obtain ⟨rfl, hs⟩ := hs
    simp only [List.mem_cons] at hn
    rcases hn with rfl | hn
    · exact InList.head _
    · exact InList.tail _ _ (ih hs hn)

/-- The nodes of a heap that satisfies the invariant are exactly the nodes reached from its
top-level list through `Next` and `Children`. -/
theorem Member_iff {s : Store D} {f : Nat} {N : List Nat} {M : ListRef → List Nat}
    {H : Nat → Nat} (h : Shape s f N M H) (n : Nat) : Member s f n ↔ n ∈ N := by
  have hrel : Rel f N (.trees f) := rfl
  constructor
  · intro hm
    induction hm with
    | root n hn =>
      exact (h.lists.memIn _ hrel n (InList_mem hn (h.lists.isList _ hrel).seg)).1
    | child p n _ hn ih =>
      have hr : Rel f N (.children p) := ih
      exact (h.lists.memIn _ hr n (InList_mem hn (h.lists.isList _ hr).seg)).1
  · obtain ⟨B, hB⟩ := exists_height_bound H N
    have key : ∀ k x, x ∈ N → B ≤ H x + k → Member s f x := by
      intro k
      induction k with
      | zero => intro x hx hk; have := hB x hx; omega
      | succ k ih =>
        intro x hx hk
        cases hp : s.Parent x with
        | none =>
          exact Member.root x (InList_of_mem (h.lists.isList _ hrel).seg
            (Lists_root_mem h.lists hx hp))
        | some p =>
          obtain ⟨hpN, hxp⟩ := Lists_parent_mem h.lists hx hp
          have hh := h.height x hx p hp
          have hr : Rel f N (.children p) := hpN
          exact Member.child p x (ih p hpN (by omega))
            (InList_of_mem (h.lists.isList _ hr).seg hxp)
    intro hn
    exact key B n hn (by omega)

/-- A heap is untouched by what happens outside its nodes. -/
theorem HeapInv_frame {s t : Store D} {f g : Nat} {N : List Nat} {M : ListRef → List Nat}
    {H : Nat → Nat} {A : Nat → Prop} {O : Prop} (h : HeapInv O s g N M H)
    (ho : Outside s t f A) (hgf : g ≠ f) (hA : ∀ x ∈ N, ¬ A x) : HeapInv O t g N M H := by
  have hL := h.shape.lists
  have hrel : Rel g N (.trees g) := rfl
  have hown : ∀ x ∈ N, own g t x = own g s x := fun x hx => own_congr (ho.Parent x (hA x hx))
  have hlist : ∀ r, Rel g N r → t.lists r = s.lists r := by
    intro r hr
    cases r with
    | trees k =>
      have : k = g := hr
      subst this
      exact ho.trees k hgf
    | children x => exact ho.children x (hA x hr)
  have hRN : ∀ x ∈ M (.trees g), x ∈ N := fun x hx => (hL.memIn _ hrel x hx).1
  refine ⟨⟨⟨hL.nodupN, ?_, ?_, ?_⟩, ?_, ?_⟩, ?_, ?_, ?_, ?_, ?_, ?_⟩
  · intro r hr
    refine IsList_frame (hL.isList r hr) (hlist r hr) ?_ ?_
    · intro x hx; exact ho.Next x (hA x (hL.memIn r hr x hx).1)
    · intro x hx; exact ho.prev x (hA x (hL.memIn r hr x hx).1)
  · intro r hr x hx
    have := hL.memIn r hr x hx
    exact ⟨this.1, (hown x this.1).trans this.2⟩
  · intro x hx
    rw [hown x hx]; exact hL.memOf x hx
  · intro x hx p hp
    rw [ho.Parent x (hA x hx)] at hp
    exact h.shape.height x hx p hp
  · intro x hx
    rw [ho.Marked x (hA x (hRN x hx))]
    exact h.shape.unmarked x hx
  · rw [ho.nodeCount g hgf]; exact h.count
  · intro m hm
    rw [ho.min g hgf] at hm
    exact h.minRoot m hm
  · intro o x hx
    rw [ho.Value x (hA x hx)]
    exact h.nonan o x hx
  · intro o x hx p hp
    rw [ho.Parent x (hA x hx)] at hp
    have hpN := (Lists_parent_mem hL hx hp).1
    rw [ho.Value x (hA x hx), ho.Value p (hA p hpN)]
    exact h.order o x hx p hp
  · intro o m hm x hx
    rw [ho.min g hgf] at hm
    have h1 := h.minRoot m hm
    rw [ho.Value x (hA x (hRN x hx)), ho.Value m (hA m (hRN m h1))]
    exact h.minLe o m hm x hx
  · intro o hm x hx
    rw [ho.min g hgf] at hm
    rw [ho.Value x (hA x (hRN x hx))]
    exact h.minNone o hm x hx

/-! ## Reachable stores -/

theorem bind_eq_ok {α β : Type} {r : Res D α} {k : Store D → α → Res D β} {t : Store D}
    {b : β} (h : r.bind k = .ok t b) : ∃ u a, r = .ok u a ∧ k u a = .ok t b := by
  cases r with
  | ok u a => exact ⟨u, a, rfl, h⟩
  | crash u => cases h
  | timeout => cases h

/-- `f.Merge(g)` panics, after the lists were spliced, when `f` or `g` has no cached
minimum. -/
theorem Merge_crash {O : Prop} {s : Store D} {f g : Nat} {Nf Ng : List Nat}
    {Mf Mg : ListRef → List Nat} {Hf Hg : Nat → Nat} (hf : HeapInv O s f Nf Mf Hf)
    (hg : HeapInv O s g Ng Mg Hg)
    (hfg : f ≠ g) (hdis : ∀ x ∈ Nf, x ∉ Ng) (hne : Ng ≠ [])
    (hmin : s.min f = none ∨ s.min g = none) :
    ∃ t, Merge f (some g) s = .crash t ∧
      (t.lists (.trees f)).length = (s.lists (.trees f)).length + (s.lists (.trees g)).length := by
  have hLf := hf.shape.lists
  have hLg := hg.shape.lists
  have hrf : Rel f Nf (.trees f) := rfl
  have hrg : Rel g Ng (.trees g) := rfl
  have hne' : ListRef.trees f ≠ ListRef.trees g := by simp [hfg]
  have hdisR : ∀ x ∈ Mf (.trees f), x ∉ Mg (.trees g) :=
    fun x hx hx' => hdis x (hLf.memIn _ hrf x hx).1 (hLg.memIn _ hrg x hx').1
  have hRgne : Mg (.trees g) ≠ [] := fun e => hne ((HeapInv_roots_nil hg.shape).1 e)
  have hlen : Len g s ≠ 0 := by
    unfold Len NodeList.Len
    rw [(hLg.isList _ hrg).length]
    have : 0 < (Mg (.trees g)).length := List.length_pos.2 hRgne
    omega
  obtain ⟨t1, e1, hl1, op1⟩ := NodeList_Merge_ok (hLf.isList _ hrf) (hLg.isList _ hrg) hne' hdisR
  refine ⟨t1, ?_, ?_⟩
  · unfold Merge
    simp only [hlen, if_false, e1, bind_ok]
    rw [op1.min]
    cases hgm : s.min g with
    | none => rfl
    | some gm =>
      cases hfm : s.min f with
      | none => rfl
      | some fm =>
        rcases hmin with h1 | h1
        · rw [hfm] at h1; cases h1
        · rw [hgm] at h1; cases h1
  · rw [hl1.length, (hLf.isList _ hrf).length, (hLg.isList _ hrg).length]
    simp

theorem NewHeap_inv {O : Prop} (s : Store D) :
    HeapInv O (NewHeap s).1 (NewHeap s).2 [] (fun _ => []) (fun _ => 0) := by
  refine ⟨⟨⟨List.nodup_nil, ?_, ?_, ?_⟩, ?_, ?_⟩, ?_, ?_, ?_, ?_, ?_, ?_⟩
  · intro r hr
    cases r with
    | trees k =>
      have : k = s.heapNext := hr
      subst this
      exact IsList_nil_of (by simp [NewHeap])
    | children x => exact absurd hr (List.not_mem_nil x)
  · intro r _ x hx; exact absurd hx (List.not_mem_nil x)
  · intro x hx; exact absurd hx (List.not_mem_nil x)
  · intro x hx; exact absurd hx (List.not_mem_nil x)
  · intro x hx; exact absurd hx (List.not_mem_nil x)
  · simp [NewHeap]
  · intro m hm; simp [NewHeap] at hm
  · intro _ x hx; exact absurd hx (List.not_mem_nil x)
  · intro _ x hx; exact absurd hx (List.not_mem_nil x)
  · intro _ m hm; simp [NewHeap] at hm
  · intro _ _ x hx; exact absurd hx (List.not_mem_nil x)

theorem NewHeap_outside (s : Store D) :
    Outside s (NewHeap s).1 (NewHeap s).2 (fun _ => False) := by
  constructor
  case trees => intro g hg; have hg' : g ≠ s.heapNext := hg; simp [NewHeap, Function.update, hg']
  case min => intro g hg; have hg' : g ≠ s.heapNext := hg; simp [NewHeap, Function.update, hg']
  case nodeCount =>
    intro g hg; have hg' : g ≠ s.heapNext := hg; simp [NewHeap, Function.update, hg']
  all_goals simp [NewHeap]

/-- A call on the live heap `f` that re-establishes its invariant, on nodes that are old nodes
of `f` or newly allocated, and leaves everything outside `f` alone, keeps the invariant of
the store. -/
theorem WInv_update {s t : Store D} {L : List Nat} {nodes : Nat → List Nat} {f : Nat}
    {N' : List Nat} {M' : ListRef → List Nat} {H' : Nat → Nat} {A : Nat → Prop} {O : Prop}
    (hW : WInv O s L nodes) (hf : f ∈ L) (hI : HeapInv O t f N' M' H')
    (hO : Outside s t f A)
    (hA : ∀ x, A x → x ∈ nodes f ∨ s.nodeNext ≤ x)
    (hN : ∀ x ∈ N', x ∈ nodes f ∨ (s.nodeNext ≤ x ∧ x < t.nodeNext)) :
    WInv O t L (Function.update nodes f N') := by
  have hnotA : ∀ g ∈ L, g ≠ f → ∀ x ∈ nodes g, ¬ A x := by
    intro g hg hgf x hx hAx
    rcases hA x hAx with h1 | h1
    · exact hW.disj g hg f hf hgf x hx h1
    · have := hW.fresh g hg x hx; omega
  refine ⟨hW.nodupL, ?_, ?_, ?_, ?_⟩
  · intro g hg; exact lt_of_lt_of_le (hW.live g hg) hO.heapNext
  · intro g hg
    by_cases hgf : g = f
    · subst hgf; rw [Function.update_same]; exact ⟨M', H', hI⟩
    · rw [Function.update_noteq hgf]
      obtain ⟨Mg, Hg, hIg⟩ := hW.heap g hg
      exact ⟨Mg, Hg, HeapInv_frame hIg hO hgf (hnotA g hg hgf)⟩
  · intro g hg x hx
    by_cases hgf : g = f
    · subst hgf
      rw [Function.update_same] at hx
      rcases hN x hx with h1 | h1
      · exact lt_of_lt_of_le (hW.fresh g hg x h1) hO.nodeNext
      · exact h1.2
    · rw [Function.update_noteq hgf] at hx
      exact lt_of_lt_of_le (hW.fresh g hg x hx) hO.nodeNext
  · intro g hg k hk hgk x hx
    by_cases hgf : g = f
    · subst hgf
      rw [Function.update_same] at hx
      rw [Function.update_noteq (Ne.symm hgk)]
      rcases hN x hx with h1 | h1
      · exact hW.disj g hg k hk hgk x h1
      · intro hx'
        have := hW.fresh k hk x hx'; omega
    · rw [Function.update_noteq hgf] at hx
      by_cases hkf : k = f
      · subst hkf
        rw [Function.update_same]
        intro hx'
        rcases hN x hx' with h1 | h1
        · exact hW.disj g hg k hk hgk x hx h1
        · have := hW.fresh g hg x hx; omega
      · rw [Function.update_noteq hkf]
        exact hW.disj g hg k hk hgk x hx

/-- Every reachable store satisfies the invariant; the part of it that is about the order
of the keys holds when no key handed to the heap was `NaN`. -/
theorem ReachableBy_inv {P : Val → Prop} {s : Store D} {L : List Nat}
    (h : ReachableBy P s L) : ∃ nodes, WInv (∀ v, P v → v ≠ Val.nan) s L nodes := by
  induction h with
  | init s =>
    exact ⟨fun _ => [], List.nodup_nil, by simp, by simp, by simp, by simp⟩
  | @newHeap s L _ ih =>
    obtain ⟨nodes, hW⟩ := ih
    have hf : (NewHeap s).2 = s.heapNext := rfl
    have hnotin : s.heapNext ∉ L := fun hx => Nat.lt_irrefl _ (hW.live _ hx)
    have hne : ∀ g ∈ L, g ≠ s.heapNext := fun g hg e => hnotin (e ▸ hg)
    refine ⟨Function.update nodes s.heapNext [], ?_, ?_, ?_, ?_, ?_⟩
    · rw [hf]; exact List.nodup_cons.2 ⟨hnotin, hW.nodupL⟩
    · intro g hg
      rw [hf] at hg
      simp only [List.mem_cons] at hg
      have : (NewHeap s).1.heapNext = s.heapNext + 1 := by simp [NewHeap]
      rw [this]
      rcases hg with rfl | hg
      · omega
      · have := hW.live g hg; omega
    · intro g hg
      rw [hf] at hg
      simp only [List.mem_cons] at hg
      rcases hg with rfl | hg
      · rw [Function.update_same]
        exact ⟨_, _, NewHeap_inv s⟩
      · rw [Function.update_noteq (hne g hg)]
        obtain ⟨M, H, hI⟩ := hW.heap g hg
        exact ⟨M, H, HeapInv_frame hI (NewHeap_outside s) (hne g hg) (fun _ _ hx => hx)⟩
    · intro g hg x hx
      rw [hf] at hg
      simp only [List.mem_cons] at hg
      have hnn : (NewHeap s).1.nodeNext = s.nodeNext := by simp [NewHeap]
      rw [hnn]
      rcases hg with rfl | hg
      · rw [Function.update_same] at hx; simp at hx
      · rw [Function.update_noteq (hne g hg)] at hx
        exact hW.fresh g hg x hx
    · intro g hg k hk hgk x hx
      rw [hf] at hg hk
      simp only [List.mem_cons] at hg hk
      rcases hg with rfl | hg
      · rw [Function.update_same] at hx; simp at hx
      · rw [Function.update_noteq (hne g hg)] at hx
        rcases hk with rfl | hk
        · rw [Function.update_same]; simp
        · rw [Function.update_noteq (hne k hk)]
          exact hW.disj g hg k hk hgk x hx
  | @insert s t L f n v d _ hf hPv hins ih =>
    obtain ⟨nodes, hW⟩ := ih
    obtain ⟨M, H, hI⟩ := hW.heap f hf
    have hv : v ≠ NEG_INF := by
      intro e
      unfold Insert at hins
      rw [if_pos e] at hins
      cases hins
    obtain ⟨t', M', e, hI', -, -, -, -, -, -, -, -, hnn, -, -, -, hO⟩ :=
      Insert_ok hI (hW.fresh f hf) hv (fun o => o v hPv) d
    rw [e] at hins
    injection hins with e1 e2
    subst e1
    refine ⟨_, WInv_update hW hf hI' hO ?_ ?_⟩
    · intro x hx
      rcases hx with hx | hx
      · exact Or.inl hx
      · exact Or.inr (le_of_eq hx.symm)
    · intro x hx
      simp only [List.mem_append, List.mem_singleton] at hx
      rcases hx with hx | hx
      · exact Or.inl hx
      · right; rw [hnn, hx]; omega
  | @extractMin s t L f fuel d _ hf hex ih =>
    obtain ⟨nodes, hW⟩ := ih
    obtain ⟨M, H, hI⟩ := hW.heap f hf
    cases hm : s.min f with
    | none =>
      unfold ExtractMin at hex
      rw [hm] at hex
      cases hex
    | some m =>
      obtain ⟨K, t', M', H', hR, hI', -, -, -, -, hO, -⟩ := ExtractMin_runs hI hm
      obtain ⟨rfl, -⟩ := Runs_ok hR hex
      exact ⟨_, WInv_update hW hf hI' hO (fun x hx => Or.inl hx)
        (fun x hx => Or.inl (List.mem_of_mem_erase hx))⟩
  | @decreaseKey s t L f fuel n r v _ hf hmem hPv hdk ih =>
    obtain ⟨nodes, hW⟩ := ih
    obtain ⟨M, H, hI⟩ := hW.heap f hf
    have hn : n ∈ nodes f := (Member_iff hI.shape n).1 hmem
    have hv : ¬ s.Value n < v := by
      intro hc
      unfold DecreaseKey at hdk
      rw [if_pos hc] at hdk
      cases hdk
    obtain ⟨K, t', M', hR, hI', -, -, -, -, -, hO⟩ :=
      DecreaseKey_runs hI hn hv (fun o => o v hPv)
    obtain ⟨rfl, -⟩ := Runs_ok hR hdk
    refine ⟨nodes, ?_⟩
    have := WInv_update hW hf hI' hO (fun x hx => Or.inl hx) (fun x hx => Or.inl hx)
    rwa [Function.update_eq_self] at this
  | @delete s t L f fuel n _ hf hmem hdel ih =>
    obtain ⟨nodes, hW⟩ := ih
    obtain ⟨M, H, hI⟩ := hW.heap f hf
    have hn : n ∈ nodes f := (Member_iff hI.shape n).1 hmem
    unfold Delete at hdel
    obtain ⟨u, a, hdk, hrest⟩ := bind_eq_ok hdel
    obtain ⟨u2, a2, hex, h4⟩ := bind_eq_ok hrest
    have hu2 : u2 = t := by
      injection h4
    subst hu2
    obtain ⟨K, t', M', hR, hI', -, -, -, -, -, hO⟩ :=
      DecreaseKey_runs (v := NEG_INF) hI hn (Val_not_lt_negInf _) (fun _ e => by cases e)
    obtain ⟨rfl, -⟩ := Runs_ok hR hdk
    cases hm : u.min f with
    | none =>
      unfold ExtractMin at hex
      rw [hm] at hex
      cases hex
    | some m =>
      obtain ⟨K2, t2, M2, H2, hR2, hI2, -, -, -, -, hO2, -⟩ := ExtractMin_runs hI' hm
      obtain ⟨rfl, -⟩ := Runs_ok hR2 hex
      exact ⟨_, WInv_update hW hf hI2 (Outside_trans hO hO2) (fun x hx => Or.inl hx)
        (fun x hx => Or.inl (List.mem_of_mem_erase hx))⟩
  | @merge s t L f g _ hf hg hfg hlen hmerge ih =>
    obtain ⟨nodes, hW⟩ := ih
    obtain ⟨Mf, Hf, hIf⟩ := hW.heap f hf
    obtain ⟨Mg, Hg, hIg⟩ := hW.heap g hg
    have hdis := hW.disj f hf g hg hfg
    have hne : nodes g ≠ [] := by
      intro e
      have := (HeapInv_roots_nil hIg.shape).2 e
      apply hlen
      unfold Len NodeList.Len
      rw [(hIg.shape.lists.isList _ (show Rel g (nodes g) (.trees g) from rfl)).length, this]
      rfl
    cases hfm : s.min f with
    | none =>
      obtain ⟨t', e, -⟩ := Merge_crash hIf hIg hfg hdis hne (Or.inl hfm)
      rw [e] at hmerge; cases hmerge
    | some fm =>
      cases hgm : s.min g with
      | none =>
        obtain ⟨t', e, -⟩ := Merge_crash hIf hIg hfg hdis hne (Or.inr hgm)
        rw [e] at hmerge; cases hmerge
      | some gm =>
        obtain ⟨t', M', H', e, hI', -, -, -, -, -, -, -, hnn, hhn, hO⟩ :=
          Merge_ok hIf hIg hfg hdis hne hfm hgm
        rw [e] at hmerge
        injection hmerge with e1 e2
        subst e1
        have hLe : ∀ k, k ∈ L.erase g ↔ k ≠ g ∧ k ∈ L :=
          fun k => List.Nodup.mem_erase_iff hW.nodupL
        refine ⟨Function.update nodes f (nodes f ++ nodes g), hW.nodupL.erase g, ?_, ?_, ?_, ?_⟩
        · intro k hk; rw [hhn]; exact hW.live k ((hLe k).1 hk).2
        · intro k hk
          obtain ⟨hkg, hkL⟩ := (hLe k).1 hk
          by_cases hkf : k = f
          · subst hkf; rw [Function.update_same]; exact ⟨M', H', hI'⟩
          · rw [Function.update_noteq hkf]
            obtain ⟨Mk, Hk, hIk⟩ := hW.heap k hkL
            refine ⟨Mk, Hk, HeapInv_frame hIk hO hkf ?_⟩
            intro x hx hA
            simp only [List.mem_append] at hA
            rcases hA with hA | hA
            · exact hW.disj k hkL f hf hkf x hx hA
            · exact hW.disj k hkL g hg hkg x hx hA
        · intro k hk x hx
          obtain ⟨hkg, hkL⟩ := (hLe k).1 hk
          rw [hnn]
          by_cases hkf : k = f
          · subst hkf
            rw [Function.update_same] at hx
            simp only [List.mem_append] at hx
            rcases hx with hx | hx
            · exact hW.fresh k hkL x hx
            · exact hW.fresh g hg x hx
          · rw [Function.update_noteq hkf] at hx
            exact hW.fresh k hkL x hx
        · intro k hk j hj hkj x hx
          obtain ⟨hkg, hkL⟩ := (hLe k).1 hk
          obtain ⟨hjg, hjL⟩ := (hLe j).1 hj
          by_cases hkf : k = f
          · subst hkf
            rw [Function.update_same] at hx
            rw [Function.update_noteq (Ne.symm hkj)]
            simp only [List.mem_append] at hx
            rcases hx with hx | hx
            · exact hW.disj k hkL j hjL hkj x hx
            · exact hW.disj g hg j hjL (Ne.symm hjg) x hx
          · rw [Function.update_noteq hkf] at hx
            by_cases hjf : j = f
            · subst hjf
              rw [Function.update_same]
              simp only [List.mem_append, not_or]
              exact ⟨hW.disj k hkL j hjL hkj x hx, hW.disj k hkL g hg hkg x hx⟩
            · rw [Function.update_noteq hjf]
              exact hW.disj k hkL j hjL hkj x hx

theorem HeapInv_mono {O O' : Prop} {s : Store D} {f : Nat} {N : List Nat}
    {M : ListRef → List Nat} {H : Nat → Nat} (hO : O' → O) (h : HeapInv O s f N M H) :
    HeapInv O' s f N M H :=
  ⟨h.shape, h.count, h.minRoot, fun o => h.nonan (hO o), fun o => h.order (hO o),
    fun o => h.minLe (hO o), fun o => h.minNone (hO o)⟩

theorem Reachable_by {s : Store D} {L : List Nat} (h : Reachable s L) :
    ReachableBy (fun _ => True) s L := by
  induction h with
  | init s => exact ReachableBy.init s
  | newHeap _ ih => exact ReachableBy.newHeap ih
  | insert _ hf hins ih => exact ReachableBy.insert ih hf trivial hins
  | extractMin _ hf hex ih => exact ReachableBy.extractMin ih hf hex
  | decreaseKey _ hf hmem hdk ih => exact ReachableBy.decreaseKey ih hf hmem trivial hdk
  | delete _ hf hmem hdel ih => exact ReachableBy.delete ih hf hmem hdel
  | merge _ hf hg hfg hlen hmerge ih => exact ReachableBy.merge ih hf hg hfg hlen hmerge

theorem Reachable_of_by {P : Val → Prop} {s : Store D} {L : List Nat}
    (h : ReachableBy P s L) : Reachable s L := by
  induction h with
  | init s => exact Reachable.init s
  | newHeap _ ih => exact Reachable.newHeap ih
  | insert _ hf _ hins ih => exact Reachable.insert ih hf hins
  | extractMin _ hf hex ih => exact Reachable.extractMin ih hf hex
  | decreaseKey _ hf hmem _ hdk ih => exact Reachable.decreaseKey ih hf hmem hdk
  | delete _ hf hmem hdel ih => exact Reachable.delete ih hf hmem hdel
  | merge _ hf hg hfg hlen hmerge ih => exact Reachable.merge ih hf hg hfg hlen hmerge

/-- Every reachable store satisfies the part of the invariant that does not depend on the
order of the keys. -/
theorem Reachable_inv {s : Store D} {L : List Nat} (h : Reachable s L) :
    ∃ nodes, WInv False s L nodes := by
  obtain ⟨nodes, hW⟩ := ReachableBy_inv (Reachable_by h)
  refine ⟨nodes, hW.nodupL, hW.live, ?_, hW.fresh, hW.disj⟩
  intro f hf
  obtain ⟨M, H, hI⟩ := hW.heap f hf
  exact ⟨M, H, HeapInv_mono (fun o => o.elim) hI⟩

/-! ## Counting the nodes of a heap -/

theorem kid_mem {s : Store D} {f : Nat} {N : List Nat} {M : ListRef → List Nat}
    {H : Nat → Nat} (h : Shape s f N M H) {x c : Nat} (hx : x ∈ N)
    (hc : c ∈ M (.children x)) : c ∈ N ∧ s.Parent c = some x ∧ H c < H x := by
  have hcN := (h.lists.memIn _ (show Rel f N (.children x) from hx) c hc).1
  have hp := Lists_own_children h.lists hx hc
  exact ⟨hcN, hp, h.height c hcN x hp⟩

/-- Induction from the children to the parent. -/
theorem height_induction {s : Store D} {f : Nat} {N : List Nat} {M : ListRef → List Nat}
    {H : Nat → Nat} (h : Shape s f N M H) (P : Nat → Prop)
    (step : ∀ x ∈ N, (∀ c ∈ M (.children x), P c) → P x) : ∀ x ∈ N, P x := by
  have key : ∀ k x, x ∈ N → H x < k → P x := by
    intro k
    induction k with
    | zero => intro x _ hk; omega
    | succ k ih =>
      intro x hx hk
      refine step x hx (fun c hc => ?_)
      obtain ⟨hcN, -, hlt⟩ := kid_mem h hx hc
      exact ih c hcN (by omega)
  intro x hx
  exact key (H x + 1) x hx (by omega)

/-- Induction from the parent to the children. -/
theorem parent_induction {s : Store D} {f : Nat} {N : List Nat} {M : ListRef → List Nat}
    {H : Nat → Nat} (h : Shape s f N M H) (P : Nat → Prop)
    (root : ∀ x ∈ N, s.Parent x = none → P x)
    (step : ∀ x ∈ N, ∀ p ∈ N, s.Parent x = some p → P p → P x) : ∀ x ∈ N, P x := by
  obtain ⟨B, hB⟩ := exists_height_bound H N
  have key : ∀ k x, x ∈ N → B ≤ H x + k → P x := by
    intro k
    induction k with
    | zero => intro x hx hk; have := hB x hx; omega
    | succ k ih =>
      intro x hx hk
      cases hp : s.Parent x with
      | none => exact root x hx hp
      | some p =>
        have hpN := (Lists_parent_mem h.lists hx hp).1
        have hh := h.height x hx p hp
        exact step x hx p hpN hp (ih p hpN (by omega))
  intro x hx
  exact key B x hx (by omega)

theorem subtree_stable {s : Store D} {f : Nat} {N : List Nat} {M : ListRef → List Nat}
    {H : Nat → Nat} (h : Shape s f N M H) :
    ∀ k x, x ∈ N → H x ≤ k → subtree M (k + 1) x = subtree M k x := by
  intro k
  induction k with
  | zero =>
    intro x hx hk
    have : M (.children x) = [] := by
      cases hM : M (.children x) with
      | nil => rfl
      | cons c l =>
        have := (kid_mem h hx (show c ∈ M (.children x) by rw [hM]; simp)).2.2
        omega
    simp [subtree, this]
  | succ k ih =>
    intro x hx hk
    show x :: (M (.children x)).flatMap (subtree M (k + 1)) =
      x :: (M (.children x)).flatMap (subtree M k)
    congr 1
    apply List.flatMap_congr
    intro c hc
    obtain ⟨hcN, -, hlt⟩ := kid_mem h hx hc
    exact ih c hcN (by omega)

theorem subtree_unfold {s : Store D} {f : Nat} {N : List Nat} {M : ListRef → List Nat}
    {H : Nat → Nat} (h : Shape s f N M H) {B : Nat} (hB : ∀ x ∈ N, H x < B) {x : Nat}
    (hx : x ∈ N) :
    subtree M B x = x :: (M (.children x)).flatMap (subtree M B) := by
  rw [← subtree_stable h B x hx (le_of_lt (hB x hx))]
  rfl

theorem subtree_self {s : Store D} {f : Nat} {N : List Nat} {M : ListRef → List Nat}
    {H : Nat → Nat} (h : Shape s f N M H) {B : Nat} (hB : ∀ x ∈ N, H x < B) {x : Nat}
    (hx : x ∈ N) : x ∈ subtree M B x := by
  rw [subtree_unfold h hB hx]; simp

theorem subtree_sub {s : Store D} {f : Nat} {N : List Nat} {M : ListRef → List Nat}
    {H : Nat → Nat} (h : Shape s f N M H) {B : Nat} (hB : ∀ x ∈ N, H x < B) {x c y : Nat}
    (hx : x ∈ N) (hc : c ∈ M (.children x)) (hy : y ∈ subtree M B c) :
    y ∈ subtree M B x := by
  rw [subtree_unfold h hB hx]
  exact List.mem_cons_of_mem _ (List.mem_flatMap.2 ⟨c, hc, hy⟩)

theorem subtree_height {s : Store D} {f : Nat} {N : List Nat} {M : ListRef → List Nat}
    {H : Nat → Nat} (h : Shape s f N M H) {B : Nat} (hB : ∀ x ∈ N, H x < B) :
    ∀ x ∈ N, ∀ y ∈ subtree M B x, H y ≤ H x ∧ y ∈ N := by
  refine height_induction h _ (fun x hx ih y hy => ?_)
  rw [subtree_unfold h hB hx] at hy
  simp only [List.mem_cons, List.mem_flatMap] at hy
  rcases hy with rfl | ⟨c, hc, hy⟩
  · exact ⟨le_refl _, hx⟩
  · obtain ⟨h1, h2⟩ := ih c hc y hy
    have := (kid_mem h hx hc).2.2
    exact ⟨by omega, h2⟩

theorem subtree_parent {s : Store D} {f : Nat} {N : List Nat} {M : ListRef → List Nat}
    {H : Nat → Nat} (h : Shape s f N M H) {B : Nat} (hB : ∀ x ∈ N, H x < B) :
    ∀ x ∈ N, ∀ y ∈ subtree M B x,
      y = x ∨ ∃ p, s.Parent y = some p ∧ p ∈ subtree M B x := by
  refine height_induction h _ (fun x hx ih y hy => ?_)
  have hy0 := hy
  rw [subtree_unfold h hB hx] at hy
  simp only [List.mem_cons, List.mem_flatMap] at hy
  rcases hy with rfl | ⟨c, hc, hy⟩
  · exact Or.inl rfl
  · right
    rcases ih c hc y hy with rfl | ⟨p, hp, hpc⟩
    · exact ⟨x, (kid_mem h hx hc).2.1, subtree_self h hB hx⟩
    · exact ⟨p, hp, subtree_sub h hB hx hc hpc⟩

theorem subtree_child {s : Store D} {f : Nat} {N : List Nat} {M : ListRef → List Nat}
    {H : Nat → Nat} (h : Shape s f N M H) {B : Nat} (hB : ∀ x ∈ N, H x < B) :
    ∀ x ∈ N, ∀ p ∈ subtree M B x, ∀ c ∈ M (.children p), c ∈ subtree M B x := by
  refine height_induction h _ (fun x hx ih p hp c hc => ?_)
  have hp0 := hp
  rw [subtree_unfold h hB hx] at hp
  simp only [List.mem_cons, List.mem_flatMap] at hp
  rcases hp with rfl | ⟨c', hc', hp⟩
  · exact subtree_sub h hB hx hc (subtree_self h hB (kid_mem h hx hc).1)
  · exact subtree_sub h hB hx hc' (ih c' hc' p hp c hc)

/-- Every node of the heap lies in the tree of some root. -/
theorem subtree_cover {s : Store D} {f : Nat} {N : List Nat} {M : ListRef → List Nat}
    {H : Nat → Nat} (h : Shape s f N M H) {B : Nat} (hB : ∀ x ∈ N, H x < B) :
    ∀ y ∈ N, ∃ r ∈ M (.trees f), y ∈ subtree M B r := by
  have hrel : Rel f N (.trees f) := rfl
  refine parent_induction h _ ?_ ?_
  · intro y hy hp
    exact ⟨y, Lists_root_mem h.lists hy hp, subtree_self h hB hy⟩
  · intro y hy p hpN hp ⟨r, hr, hpr⟩
    exact ⟨r, hr, subtree_child h hB r (h.lists.memIn _ hrel r hr).1 p hpr y
      (Lists_parent_mem h.lists hy hp).2⟩

/-- The trees of two different nodes with the same `Parent` pointer share no node. -/
theorem subtree_disjoint {s : Store D} {f : Nat} {N : List Nat} {M : ListRef → List Nat}
    {H : Nat → Nat} (h : Shape s f N M H) {B : Nat} (hB : ∀ x ∈ N, H x < B) :
    ∀ y ∈ N, ∀ c1 ∈ N, ∀ c2 ∈ N, c1 ≠ c2 → s.Parent c1 = s.Parent c2 →
      y ∈ subtree M B c1 → y ∈ subtree M B c2 → False := by
  refine parent_induction h _ ?_ ?_
  · intro y hy hp c1 hc1 c2 hc2 hne _ h1 h2
    rcases subtree_parent h hB c1 hc1 y h1 with e1 | ⟨p, hp', -⟩
    · rcases subtree_parent h hB c2 hc2 y h2 with e2 | ⟨p, hp', -⟩
      · exact hne (e1.symm.trans e2)
      · rw [hp] at hp'; cases hp'
    · rw [hp] at hp'; cases hp'
  · intro y hy p hpN hp ih c1 hc1 c2 hc2 hne hsib h1 h2
    rcases subtree_parent h hB c1 hc1 y h1 with e1 | ⟨p1, hp1, hpc1⟩
    · rcases subtree_parent h hB c2 hc2 y h2 with e2 | ⟨p2, hp2, hpc2⟩
      · exact hne (e1.symm.trans e2)
      · rw [hp] at hp2
        cases hp2
        -- `y = c1`, and the parent of `c2` is `p`, which lies below `c2`
        have hc2p : s.Parent c2 = some p := by rw [← hsib, ← e1]; exact hp
        have := (subtree_height h hB c2 hc2 p hpc2).1
        have := h.height c2 hc2 p hc2p
        omega
    · rw [hp] at hp1
      cases hp1
      rcases subtree_parent h hB c2 hc2 y h2 with e2 | ⟨p2, hp2, hpc2⟩
      · have hc1p : s.Parent c1 = some p := by rw [hsib, ← e2]; exact hp
        have := (subtree_height h hB c1 hc1 p hpc1).1
        have := h.height c1 hc1 p hc1p
        omega
      · rw [hp] at hp2
        cases hp2
        exact ih c1 hc1 c2 hc2 hne hsib hpc1 hpc2

theorem flatMap_subtree_nodup {s : Store D} {f : Nat} {N : List Nat}
    {M : ListRef → List Nat} {H : Nat → Nat} (h : Shape s f N M H) {B : Nat}
    (hB : ∀ x ∈ N, H x < B) {xs : List Nat} (hxs : xs.Nodup) (hN : ∀ x ∈ xs, x ∈ N)
    (hsib : ∀ x ∈ xs, ∀ y ∈ xs, s.Parent x = s.Parent y)
    (hnd : ∀ x ∈ xs, (subtree M B x).Nodup) : (xs.flatMap (subtree M B)).Nodup := by
  rw [List.nodup_flatMap]
  refine ⟨hnd, List.Pairwise.imp_of_mem ?_ hxs⟩
  intro a b ha hb hab
  show List.Disjoint (subtree M B a) (subtree M B b)
  intro y hya hyb
  exact subtree_disjoint h hB y (subtree_height h hB a (hN a ha) y hya).2 a (hN a ha) b
    (hN b hb) hab (hsib a ha b hb) hya hyb

theorem subtree_nodup {s : Store D} {f : Nat} {N : List Nat} {M : ListRef → List Nat}
    {H : Nat → Nat} (h : Shape s f N M H) {B : Nat} (hB : ∀ x ∈ N, H x < B) :
    ∀ x ∈ N, (subtree M B x).Nodup := by
  refine height_induction h _ (fun x hx ih => ?_)
  rw [subtree_unfold h hB hx, List.nodup_cons]
  constructor
  · intro hmem
    obtain ⟨c, hc, hy⟩ := List.mem_flatMap.1 hmem
    have := (subtree_height h hB c (kid_mem h hx hc).1 x hy).1
    have := (kid_mem h hx hc).2.2
    omega
  · refine flatMap_subtree_nodup h hB (h.lists.isList _ (show Rel f N (.children x) from hx)).nodup
      (fun c hc => (kid_mem h hx hc).1) ?_ ih
    intro a ha b hb
    rw [(kid_mem h hx ha).2.1, (kid_mem h hx hb).2.1]

/-- The trees of the roots list every node of the heap exactly once. -/
theorem roots_flatMap_length {s : Store D} {f : Nat} {N : List Nat} {M : ListRef → List Nat}
    {H : Nat → Nat} (h : Shape s f N M H) {B : Nat} (hB : ∀ x ∈ N, H x < B) :
    ((M (.trees f)).flatMap (subtree M B)).length = N.length := by
  have hrel : Rel f N (.trees f) := rfl
  have hRN : ∀ x ∈ M (.trees f), x ∈ N := fun x hx => (h.lists.memIn _ hrel x hx).1
  have hnd : ((M (.trees f)).flatMap (subtree M B)).Nodup := by
    refine flatMap_subtree_nodup h hB (h.lists.isList _ hrel).nodup hRN ?_
      (fun x hx => subtree_nodup h hB x (hRN x hx))
    intro a ha b hb
    rw [Lists_own_trees h.lists ha, Lists_own_trees h.lists hb]
  refine List.Perm.length_eq ((List.perm_ext_iff_of_nodup hnd h.lists.nodupN).2 ?_)
  intro y
  constructor
  · intro hy
    obtain ⟨r, hr, hyr⟩ := List.mem_flatMap.1 hy
    exact (subtree_height h hB r (hRN r hr) y hyr).2
  · intro hy
    obtain ⟨r, hr, hyr⟩ := subtree_cover h hB y hy
    exact List.mem_flatMap.2 ⟨r, hr, hyr⟩

/-! ## `childCount`, `CountNodes`, `CheckHeap` -/

theorem OptRuns_enough {α : Type} {run : Nat → Option α} {K : Nat} {v : α}
    (h : OptRuns run K v) {fuel : Nat} (hf : K ≤ fuel) : run fuel = some v := by
  rw [h fuel, if_pos hf]

theorem OptRuns_some {α : Type} {run : Nat → Option α} {K : Nat} {v w : α}
    (h : OptRuns run K v) {fuel : Nat} (hf : run fuel = some w) : w = v := by
  rw [h fuel] at hf
  split at hf
  · exact (Option.some.inj hf).symm
  · cases hf

/-- The loop shared by `childCount`, `CountNodes` and `CheckHeap`: it adds the sizes of the
trees of the nodes of a list to `count`. -/
theorem count_loop_runs {s : Store D} {M : ListRef → List Nat} {B : Nat} {xs : List Nat}
    (hxs : ∀ x ∈ xs, ∃ K, OptRuns (fun fuel => childCount fuel (.children x) s) K
      ((subtree M B x).length : Int)) :
    ∀ {c : Option Nat}, Seg s.Next c xs none →
      ∃ K, ∀ count : Int,
        OptRuns (fun fuel => childCount.loop fuel c count s) K
          (count + ((xs.flatMap (subtree M B)).length : Int)) ∧
        OptRuns (fun fuel => CountNodes.loop fuel c count s) K
          (count + ((xs.flatMap (subtree M B)).length : Int)) := by
  induction xs with
  | nil =>
    intro c hs
    simp only [Seg_nil] at hs
    subst hs
    refine ⟨1, fun count => ⟨?_, ?_⟩⟩
    · intro fuel
      cases fuel with
      | zero => simp [childCount.loop]
      | succ k => simp [childCount.loop]
    · intro fuel
      cases fuel with
      | zero => simp [CountNodes.loop]
      | succ k => simp [CountNodes.loop]
  | cons x xs ih =>
    intro c hs
    simp only [Seg_cons] at hs
    obtain ⟨rfl, hs⟩ := hs
    obtain ⟨Kx, hx⟩ := hxs x (by simp)
    obtain ⟨Kl, hl⟩ := ih (fun y hy => hxs y (List.mem_cons_of_mem _ hy)) hs
    refine ⟨max Kx Kl + 1, fun count => ⟨?_, ?_⟩⟩
    · intro fuel
      cases fuel with
      | zero => simp [childCount.loop]
      | succ k =>
        simp only [childCount.loop]
        have e1 := hx k
        simp only at e1
        rw [e1]
        by_cases h1 : Kx ≤ k
        · rw [if_pos h1]
          have e2 := (hl (count + ((subtree M B x).length : Int))).1 k
          simp only at e2
          simp only [e2]
          by_cases h2 : Kl ≤ k
          · rw [if_pos h2, if_pos (by omega)]
            simp [List.flatMap_cons]; ring
          · rw [if_neg h2, if_neg (by omega)]
        · rw [if_neg h1, if_neg (by omega)]
    · intro fuel
      cases fuel with
      | zero => simp [CountNodes.loop]
      | succ k =>
        simp only [CountNodes.loop]
        have e1 := hx k
        simp only at e1
        rw [e1]
        by_cases h1 : Kx ≤ k
        · rw [if_pos h1]
          have e2 := (hl (count + ((subtree M B x).length : Int))).2 k
          simp only at e2
          simp only [e2]
          by_cases h2 : Kl ≤ k
          · rw [if_pos h2, if_pos (by omega)]
            simp [List.flatMap_cons]; ring
          · rw [if_neg h2, if_neg (by omega)]
        · rw [if_neg h1, if_neg (by omega)]

/-- `childCount(x.Children)` is the size of the tree rooted at `x`. -/
theorem childCount_runs {s : Store D} {f : Nat} {N : List Nat} {M : ListRef → List Nat}
    {H : Nat → Nat} (h : Shape s f N M H) {B : Nat} (hB : ∀ x ∈ N, H x < B) :
    ∀ x ∈ N, ∃ K, OptRuns (fun fuel => childCount fuel (.children x) s) K
      ((subtree M B x).length : Int) := by
  refine height_induction h _ (fun x hx ih => ?_)
  have hl := h.lists.isList _ (show Rel f N (.children x) from hx)
  obtain ⟨K, hK⟩ := count_loop_runs (M := M) (B := B) ih hl.seg
  refine ⟨K + 1, ?_⟩
  intro fuel
  cases fuel with
  | zero => simp [childCount]
  | succ k =>
    simp only [childCount]
    have e := (hK 1).1 k
    simp only at e
    rw [NodeList.Front, e, subtree_unfold h hB hx]
    by_cases h1 : K ≤ k
    · rw [if_pos h1, if_pos (by omega)]
      simp; ring
    · rw [if_neg h1, if_neg (by omega)]

/-- `CountNodes` and `CheckHeap` on a heap that satisfies the invariant: the count of the
nodes found equals `nodeCount`. -/
theorem CountNodes_runs {O : Prop} {s : Store D} {f : Nat} {N : List Nat}
    {M : ListRef → List Nat} {H : Nat → Nat} (h : HeapInv O s f N M H) :
    ∃ K, OptRuns (fun fuel => CountNodes fuel f s) K (Count f s) ∧
      OptRuns (fun fuel => CheckHeap fuel f s) K true := by
  obtain ⟨B, hB⟩ := exists_height_bound H N
  have hrel : Rel f N (.trees f) := rfl
  have hl := h.shape.lists.isList _ hrel
  obtain ⟨K, hK⟩ := count_loop_runs (M := M) (B := B)
    (fun x hx => childCount_runs h.shape hB x (h.shape.lists.memIn _ hrel x hx).1) hl.seg
  have hval : (0 : Int) + (((M (.trees f)).flatMap (subtree M B)).length : Int) = Count f s := by
    rw [roots_flatMap_length h.shape hB, Count, h.count]; simp
  have e := (hK 0).2
  rw [hval] at e
  refine ⟨K, ?_, ?_⟩
  · intro fuel
    exact e fuel
  · intro fuel
    have e' := e fuel
    simp only [NodeList.Front] at e'
    simp only [CheckHeap, NodeList.Front, e']
    by_cases h1 : K ≤ fuel
    · simp [h1]
    · simp [h1]


/-! ## Concrete stores -/

theorem Reachable_insertAll {L : List Nat} {f : Nat} (hf : f ∈ L) :
    ∀ (vs : List Int) {s t : Store Int}, Reachable s L → insertAll f vs s = .ok t () →
      Reachable t L := by
  intro vs
  induction vs with
  | nil =>
    intro s t hr h
    simp only [insertAll, Res.ok.injEq, and_true] at h
    exact h ▸ hr
  | cons v vs ih =>
    intro s t hr h
    simp only [insertAll] at h
    obtain ⟨u, n, h1, h2⟩ := bind_eq_ok h
    exact ih (Reachable.insert hr hf h1) h2

theorem exNew_reachable : Reachable exNew [0] :=
  Reachable.newHeap (Reachable.init (Store.empty 0))

theorem exThree_reachable : Reachable exThree [0] :=
  Reachable_insertAll (List.mem_singleton.2 rfl) [3, 1, 2] exNew_reachable
    (t := exThree) rfl

theorem exTree_reachable : Reachable exTree [0] :=
  @Reachable.extractMin _ exThree exTree [0] 0 20 1
    exThree_reachable (List.mem_singleton.2 rfl) rfl

theorem exTree_member_two : Member exTree 0 2 := Member.root 2 (InList.head 2)

theorem exTree_member_zero : Member exTree 0 0 :=
  Member.child 2 0 exTree_member_two (InList.head 0)

theorem InList_none {s : Store D} {n : Nat} : ¬ InList s none n := by
  intro h
  cases h

theorem InList_some {s : Store D} {x n : Nat} :
    InList s (some x) n ↔ n = x ∨ InList s (s.Next x) n := by
  constructor
  · intro h
    cases h with
    | head => exact Or.inl rfl
    | tail _ _ h => exact Or.inr h
  · rintro (rfl | h)
    · exact InList.head _
    · exact InList.tail _ _ h

theorem exTree_members {x : Nat} (h : Member exTree 0 x) : x = 2 ∨ x = 0 := by
  induction h with
  | root n h =>
    have e : NodeList.Front (.trees 0) exTree = some 2 := rfl
    rw [e, InList_some] at h
    rcases h with h | h
    · exact Or.inl h
    · have e2 : exTree.Next 2 = none := rfl
      rw [e2] at h
      exact (InList_none h).elim
  | child p n _ h ih =>
    rcases ih with rfl | rfl
    · have e : NodeList.Front (.children 2) exTree = some 0 := rfl
      rw [e, InList_some] at h
      rcases h with h | h
      · exact Or.inr h
      · have e2 : exTree.Next 0 = none := rfl
        rw [e2] at h
        exact (InList_none h).elim
    · have e : NodeList.Front (.children 0) exTree = none := rfl
      rw [e] at h
      exact (InList_none h).elim

/-! ## Stores reached without a `NaN` key, and a store reached with one -/

theorem ReachableBy_insertAll {L : List Nat} {f : Nat} (hf : f ∈ L) :
    ∀ (vs : List Int) {s t : Store Int}, ReachableBy (fun v => v ≠ Val.nan) s L →
      insertAll f vs s = .ok t () → ReachableBy (fun v => v ≠ Val.nan) t L := by
  intro vs
  induction vs with
  | nil =>
    intro s t hr h
    simp only [insertAll, Res.ok.injEq, and_true] at h
    exact h ▸ hr
  | cons v vs ih =>
    intro s t hr h
    simp only [insertAll] at h
    obtain ⟨u, n, h1, h2⟩ := bind_eq_ok h
    exact ih (ReachableBy.insert hr hf (by intro e; cases e) h1) h2

theorem exNew_reachableBy : ReachableBy (fun v => v ≠ Val.nan) exNew [0] :=
  ReachableBy.newHeap (ReachableBy.init (Store.empty 0))

theorem exThree_reachableBy : ReachableBy (fun v => v ≠ Val.nan) exThree [0] :=
  ReachableBy_insertAll (List.mem_singleton.2 rfl) [3, 1, 2] exNew_reachableBy
    (t := exThree) rfl

theorem exTree_reachableBy : ReachableBy (fun v => v ≠ Val.nan) exTree [0] :=
  @ReachableBy.extractMin _ _ exThree exTree [0] 0 20 1 exThree_reachableBy
    (List.mem_singleton.2 rfl) rfl

theorem nanThree_reachable : Reachable nanThree [0] := by
  have h : ((Insert 0 (Val.fin 1) 1 exNew).bind fun s _ =>
      (Insert 0 Val.nan 0 s).bind fun s _ => Insert 0 (Val.fin 2) 2 s) = .ok nanThree 2 := rfl
  obtain ⟨u1, a1, h1, h2⟩ := bind_eq_ok h
  obtain ⟨u2, a2, h3, h4⟩ := bind_eq_ok h2
  exact Reachable.insert (Reachable.insert (Reachable.insert exNew_reachable
    (List.mem_singleton.2 rfl) h1) (List.mem_singleton.2 rfl) h3) (List.mem_singleton.2 rfl) h4

theorem nanTree_reachable : Reachable nanTree [0] :=
  @Reachable.extractMin _ nanThree nanTree [0] 0 20 1 nanThree_reachable
    (List.mem_singleton.2 rfl) rfl

theorem nanTree_member_two : Member nanTree 0 2 :=
  Member.child 1 2 (Member.root 1 (InList.head 1)) (InList.head 2)

theorem nanTree_members {x : Nat} (h : Member nanTree 0 x) : x = 1 ∨ x = 2 := by
  induction h with
  | root n h =>
    have e : NodeList.Front (.trees 0) nanTree = some 1 := rfl
    rw [e, InList_some] at h
    rcases h with h | h
    · exact Or.inl h
    · have e2 : nanTree.Next 1 = none := rfl
      rw [e2] at h
      exact (InList_none h).elim
  | child p n _ h ih =>
    rcases ih with rfl | rfl
    · have e : NodeList.Front (.children 1) nanTree = some 2 := rfl
      rw [e, InList_some] at h
      rcases h with h | h
      · exact Or.inr h
      · have e2 : nanTree.Next 2 = none := rfl
        rw [e2] at h
        exact (InList_none h).elim
    · have e : NodeList.Front (.children 2) nanTree = none := rfl
      rw [e] at h
      exact (InList_none h).elim

/-! ## The invariants of reachable heaps -/

theorem Reachable_heap {s : Store D} {L : List Nat} {f : Nat} (hr : Reachable s L)
    (hf : f ∈ L) :
    ∃ N M H, HeapInv False s f N M H ∧ (∀ x ∈ N, x < s.nodeNext) ∧
      ∀ n, Member s f n ↔ n ∈ N := by
  obtain ⟨nodes, hW⟩ := Reachable_inv hr
  obtain ⟨M, H, hI⟩ := hW.heap f hf
  exact ⟨nodes f, M, H, hI, hW.fresh f hf, Member_iff hI.shape⟩

theorem ReachableBy_heap {s : Store D} {L : List Nat} {f : Nat}
    (hr : ReachableBy (fun v => v ≠ Val.nan) s L) (hf : f ∈ L) :
    ∃ N M H, HeapInv True s f N M H ∧ (∀ x ∈ N, x < s.nodeNext) ∧
      ∀ n, Member s f n ↔ n ∈ N := by
  obtain ⟨nodes, hW⟩ := ReachableBy_inv hr
  obtain ⟨M, H, hI⟩ := hW.heap f hf
  exact ⟨nodes f, M, H, HeapInv_mono (fun _ v hv => hv) hI, hW.fresh f hf,
    Member_iff hI.shape⟩

theorem HeapInv_len {s : Store D} {f : Nat} {N : List Nat} {M : ListRef → List Nat}
    {H : Nat → Nat} {O : Prop} (h : HeapInv O s f N M H) :
    Len f s = (M (.trees f)).length :=
  (h.shape.lists.isList (.trees f) rfl).length

/-- C9: in every store reached by successful calls, every live heap passes `CheckHeap`:
given enough fuel `CheckHeap` returns true and `CountNodes` returns `Count()`, and
`Count()` is 0 exactly when `Len()` is 0. -/
theorem checkHeap_of_reachable {s : Store D} {L : List Nat} {f : Nat}
    (hr : Reachable s L) (hf : f ∈ L) :
    ∃ K, OptRuns (fun fuel => CheckHeap fuel f s) K true ∧
      OptRuns (fun fuel => CountNodes fuel f s) K (Count f s) ∧
      (Count f s = 0 ↔ Len f s = 0) := by
  obtain ⟨N, M, H, hI, -, -⟩ := Reachable_heap hr hf
  obtain ⟨K, h1, h2⟩ := CountNodes_runs hI
  refine ⟨K, h2, h1, ?_⟩
  have hc : Count f s = (N.length : Int) := hI.count
  rw [hc, HeapInv_len hI]
  constructor
  · intro h0
    have : N = [] := List.length_eq_zero.1 (by exact_mod_cast h0)
    simp [(HeapInv_roots_nil hI.shape).2 this]
  · intro h0
    have : M (.trees f) = [] := List.length_eq_zero.1 (by exact_mod_cast h0)
    simp [(HeapInv_roots_nil hI.shape).1 this]

theorem checkHeap_of_reachable_witness :
    Reachable exTree [0] ∧ 0 ∈ [0] ∧
      ∃ K, OptRuns (fun fuel => CheckHeap fuel 0 exTree) K true ∧
        OptRuns (fun fuel => CountNodes fuel 0 exTree) K (Count 0 exTree) ∧
        (Count 0 exTree = 0 ↔ Len 0 exTree = 0) :=
  ⟨exTree_reachable, List.mem_singleton.2 rfl,
    checkHeap_of_reachable exTree_reachable (List.mem_singleton.2 rfl)⟩

/-- C10, as amended: in every store reached by successful calls in which no key handed to
`Insert` or `DecreaseKey` was `NaN`, every node of a live heap that has a parent has a
`Value` that is at least the `Value` of its parent. -/
theorem parent_le_of_reachable {s : Store D} {L : List Nat} {f n p : Nat}
    (hr : ReachableBy (fun v => v ≠ Val.nan) s L) (hf : f ∈ L) (hn : Member s f n)
    (hp : s.Parent n = some p) : s.Value p ≤ s.Value n := by
  obtain ⟨N, M, H, hI, -, hM⟩ := ReachableBy_heap hr hf
  exact hI.order trivial n ((hM n).1 hn) p hp

theorem parent_le_of_reachable_witness :
    ReachableBy (fun v => v ≠ Val.nan) exTree [0] ∧ 0 ∈ [0] ∧ Member exTree 0 0 ∧
      exTree.Parent 0 = some 2 ∧ exTree.Value 2 ≤ exTree.Value 0 :=
  ⟨exTree_reachableBy, List.mem_singleton.2 rfl, exTree_member_zero, rfl,
    parent_le_of_reachable exTree_reachableBy (List.mem_singleton.2 rfl) exTree_member_zero
      rfl⟩

/-- C10, the counterexample: after `NewHeap`, `Insert(1, 1)`, `Insert(NaN, 0)`,
`Insert(2, 2)` and `ExtractMin`, node 2, with key 2, is a node of the heap whose parent is
node 1, with key `NaN`; the parent's key is not `<=` the child's, and `CheckHeap`, which
only tests `<`, still returns true. -/
theorem parent_nan_counterexample :
    Reachable nanTree [0] ∧ Member nanTree 0 2 ∧ nanTree.Parent 2 = some 1 ∧
      nanTree.Value 1 = Val.nan ∧ nanTree.Value 2 = Val.fin 2 ∧
      ¬ nanTree.Value 1 ≤ nanTree.Value 2 ∧ nanTree.min 0 = none ∧ Count 0 nanTree = 2 ∧
      CheckHeap 20 0 nanTree = some true :=
  ⟨nanTree_reachable, nanTree_member_two, rfl, rfl, rfl, by decide, rfl, rfl, rfl⟩

/-! ## The calls on reachable heaps -/

theorem HeapInv_min_none {s : Store D} {f : Nat} {N : List Nat} {M : ListRef → List Nat}
    {H : Nat → Nat} {O : Prop} (h : HeapInv O s f N M H) (hN : ∀ n, n ∉ N) :
    s.min f = none := by
  cases hm : s.min f with
  | none => rfl
  | some m => exact (hN m (HeapInv_min_mem h hm)).elim

theorem Runs_ne_crash {α : Type} {run : Nat → Res D α} {K : Nat} {t u : Store D} {a : α}
    (h : Runs run K t a) (fuel : Nat) : run fuel ≠ .crash u := by
  rw [h fuel]
  split <;> intro e <;> cases e

/-- C8: on a live heap of a store reached by successful calls, `DecreaseKey(n, v)` on a
node of the heap panics exactly when `v > n.Value` and returns otherwise, `Insert(v, data)`
panics exactly when `v` is negative infinity and returns otherwise, `GetMinValue` and
`ExtractMin` panic when the heap has no node, as they do on the heap `NewHeap` returns, and
the store at each of these panics is the store before the call. -/
theorem rejected_calls_keep_store {s : Store D} {L : List Nat} {f : Nat}
    (hr : Reachable s L) (hf : f ∈ L) :
    (∀ n v, Member s f n →
      (∀ fuel u, DecreaseKey fuel f n v s = .crash u ↔ (s.Value n < v ∧ u = s)) ∧
      (¬ s.Value n < v → ∃ K t, Runs (fun fuel => DecreaseKey fuel f n v s) K t n)) ∧
    (∀ v d,
      (∀ u, Insert f v d s = .crash u ↔ (v = NEG_INF ∧ u = s)) ∧
      (v ≠ NEG_INF → ∃ t n, Insert f v d s = .ok t n)) ∧
    ((∀ n, ¬ Member s f n) →
      GetMinValue f s = .crash s ∧ ∀ fuel, ExtractMin fuel f s = .crash s) ∧
    (GetMinValue (NewHeap s).2 (NewHeap s).1 = .crash (NewHeap s).1 ∧
      ∀ fuel, ExtractMin fuel (NewHeap s).2 (NewHeap s).1 = .crash (NewHeap s).1) := by
  obtain ⟨N, M, H, hI, hfresh, hM⟩ := Reachable_heap hr hf
  refine ⟨?_, ?_, ?_, ?_⟩
  · intro n v hn
    by_cases hv : s.Value n < v
    · have e : ∀ fuel, DecreaseKey fuel f n v s = .crash s := by
        intro fuel
        simp only [DecreaseKey, gt_iff_lt, hv, if_true]
      refine ⟨fun fuel u => ?_, fun h => (h hv).elim⟩
      rw [e fuel]
      constructor
      · intro h
        injection h with h
        exact ⟨hv, h.symm⟩
      · rintro ⟨-, rfl⟩
        rfl
    · obtain ⟨K, t, M', hrun, -⟩ :=
        DecreaseKey_runs hI ((hM n).1 hn) hv (fun o => o.elim)
      refine ⟨fun fuel u => ?_, fun _ => ⟨K, t, hrun⟩⟩
      constructor
      · intro h
        exact (Runs_ne_crash hrun fuel h).elim
      · rintro ⟨h, -⟩
        exact (hv h).elim
  · intro v d
    by_cases hv : v = NEG_INF
    · have e : Insert f v d s = .crash s := by simp only [Insert, hv, if_true]
      refine ⟨fun u => ?_, fun h => (h hv).elim⟩
      rw [e]
      constructor
      · intro h
        injection h with h
        exact ⟨hv, h.symm⟩
      · rintro ⟨-, rfl⟩
        rfl
    · obtain ⟨t, M', hok, -⟩ := Insert_ok hI hfresh hv (fun o => o.elim) d
      refine ⟨fun u => ?_, fun _ => ⟨t, _, hok⟩⟩
      rw [hok]
      constructor
      · intro h
        cases h
      · rintro ⟨h, -⟩
        exact (hv h).elim
  · intro hno
    have hm : s.min f = none := HeapInv_min_none hI fun n hn => hno n ((hM n).2 hn)
    refine ⟨?_, fun fuel => ?_⟩
    · simp only [GetMinValue, hm]
    · simp only [ExtractMin, hm]
  · have hm : (NewHeap s).1.min (NewHeap s).2 = none := by simp [NewHeap]
    refine ⟨?_, fun fuel => ?_⟩
    · simp only [GetMinValue, hm]
    · simp only [ExtractMin, hm]

theorem rejected_calls_keep_store_witness :
    Reachable exTree [0] ∧ 0 ∈ [0] ∧
      (∀ fuel u, DecreaseKey fuel 0 0 (Val.fin 4) exTree = .crash u ↔
        (exTree.Value 0 < Val.fin 4 ∧ u = exTree)) ∧
      (∀ u, Insert 0 NEG_INF 9 exTree = .crash u ↔ (NEG_INF = NEG_INF ∧ u = exTree)) :=
  ⟨exTree_reachable, List.mem_singleton.2 rfl,
    ((rejected_calls_keep_store exTree_reachable (List.mem_singleton.2 rfl)).1 0 (Val.fin 4)
      exTree_member_zero).1,
    ((rejected_calls_keep_store exTree_reachable (List.mem_singleton.2 rfl)).2.1 NEG_INF 9).1⟩


theorem HeapInv_min_some {O : Prop} {s : Store D} {f : Nat} {N : List Nat}
    {M : ListRef → List Nat} {H : Nat → Nat} (h : HeapInv O s f N M H) (o : O) {n : Nat}
    (hn : n ∈ N) (hv : s.Value n ≠ Val.posInf) : ∃ m, s.min f = some m := by
  cases hm : s.min f with
  | some m => exact ⟨m, rfl⟩
  | none =>
    obtain ⟨r, hr, hle⟩ := exists_root_le h.shape (h.order o) (h.nonan o) n hn
    rw [h.minNone o hm r hr] at hle
    exact (hv (Val_posInf_le hle)).elim

theorem HeapInv_all_posInf {O : Prop} {s : Store D} {f : Nat} {N : List Nat}
    {M : ListRef → List Nat} {H : Nat → Nat} (h : HeapInv O s f N M H) (o : O)
    (hm : s.min f = none) : ∀ x ∈ N, s.Value x = Val.posInf := by
  intro x hx
  by_contra hv
  obtain ⟨m, e⟩ := HeapInv_min_some h o hx hv
  rw [hm] at e
  cases e

/-- C5, as amended: on a live heap of a store reached by successful calls in which no key
handed to `Insert` or `DecreaseKey` was `NaN`, for a node `n` of the heap and a finite
`v ≤ n.Value`, `DecreaseKey(n, v)` returns `n`, given enough fuel; afterwards `n.Value = v`,
`Count()` is the same, every other node has its `Value` and every node its `Data`, the heap
has the same nodes, and `GetMinValue()` returns the lower of `v` and what it returned before
(it returns `v` when it panicked before). -/
theorem decreaseKey_post {s : Store D} {L : List Nat} {f n : Nat} {v : Int}
    (hr : ReachableBy (fun v => v ≠ Val.nan) s L) (hf : f ∈ L) (hn : Member s f n)
    (hv : Val.fin v ≤ s.Value n) :
    ∃ K t, Runs (fun fuel => DecreaseKey fuel f n (Val.fin v) s) K t n ∧
      t.Value n = Val.fin v ∧ Count f t = Count f s ∧
      (∀ x, x ≠ n → t.Value x = s.Value x) ∧ (∀ x, t.Data x = s.Data x) ∧
      (∀ x, Member t f x ↔ Member s f x) ∧
      (∀ pm, GetMinValue f s = .ok s pm →
        GetMinValue f t = .ok t (Val.min pm (Val.fin v))) ∧
      (GetMinValue f s = .crash s → GetMinValue f t = .ok t (Val.fin v)) := by
  obtain ⟨N, M, H, hI, -, hM⟩ := ReachableBy_heap hr hf
  have hnN : n ∈ N := (hM n).1 hn
  have hvn : Val.fin v ≠ Val.nan := by intro e; cases e
  obtain ⟨K, t, M', hrun, hI', hV, hD, hC, -, -, -⟩ :=
    DecreaseKey_runs hI hnN (Val_not_lt_of_le hv) (fun _ => hvn)
  have hVn : t.Value n = Val.fin v := by rw [hV]; simp
  have hVo : ∀ x, x ≠ n → t.Value x = s.Value x := by
    intro x hx
    rw [hV]
    simp [hx]
  obtain ⟨m', hm'⟩ := HeapInv_min_some hI' trivial hnN (by rw [hVn]; intro e; cases e)
  obtain ⟨hm'N, hm'le⟩ := HeapInv_min_le hI' trivial hm'
  have hg : GetMinValue f t = .ok t (t.Value m') := by simp only [GetMinValue, hm']
  refine ⟨K, t, hrun, hVn, ?_, hVo, fun x => by rw [hD], ?_, ?_, ?_⟩
  · show t.nodeCount f = s.nodeCount f
    rw [hC]
  · intro x
    rw [Member_iff hI'.shape, hM]
  · intro pm hpm
    cases hm : s.min f with
    | none => simp only [GetMinValue, hm] at hpm; cases hpm
    | some m =>
      simp only [GetMinValue, hm, Res.ok.injEq, true_and] at hpm
      subst hpm
      obtain ⟨hmN, hmle⟩ := HeapInv_min_le hI trivial hm
      have hmnn : s.Value m ≠ Val.nan := hI.nonan trivial m hmN
      rw [hg]
      congr 1
      apply Val_le_antisymm
      · apply Val_le_min
        · by_cases e : m = n
          · subst e
            exact Val_le_trans (hVn ▸ hm'le m hmN) hv
          · rw [← hVo m e]
            exact hm'le m hmN
        · rw [← hVn]
          exact hm'le n hnN
      · by_cases e : m' = n
        · rw [e, hVn]
          exact Val_min_le_right hvn
        · rw [hVo m' e]
          exact Val_le_trans (Val_min_le_left hmnn hvn) (hmle m' hm'N)
  · intro hc
    cases hm : s.min f with
    | some m => simp only [GetMinValue, hm] at hc; cases hc
    | none =>
      rw [hg]
      congr 1
      by_cases e : m' = n
      · rw [e, hVn]
      · have h1 : t.Value m' = Val.posInf := by
          rw [hVo m' e]
          exact HeapInv_all_posInf hI trivial hm m' hm'N
        have h2 := hm'le n hnN
        rw [h1, hVn] at h2
        exact (h2 : False).elim

theorem decreaseKey_post_witness :
    ReachableBy (fun v => v ≠ Val.nan) exTree [0] ∧ 0 ∈ [0] ∧ Member exTree 0 0 ∧
      Val.fin 0 ≤ exTree.Value 0 ∧
      ∃ K t, Runs (fun fuel => DecreaseKey fuel 0 0 (Val.fin 0) exTree) K t 0 ∧
        t.Value 0 = Val.fin 0 ∧ Count 0 t = Count 0 exTree ∧
        (∀ x, x ≠ 0 → t.Value x = exTree.Value x) ∧ (∀ x, t.Data x = exTree.Data x) ∧
        (∀ x, Member t 0 x ↔ Member exTree 0 x) ∧
        (∀ pm, GetMinValue 0 exTree = .ok exTree pm →
          GetMinValue 0 t = .ok t (Val.min pm (Val.fin 0))) ∧
        (GetMinValue 0 exTree = .crash exTree → GetMinValue 0 t = .ok t (Val.fin 0)) :=
  ⟨exTree_reachableBy, List.mem_singleton.2 rfl, exTree_member_zero, by decide,
    decreaseKey_post exTree_reachableBy (List.mem_singleton.2 rfl) exTree_member_zero
      (by decide)⟩

/-- C5, the counterexample: after `NewHeap`, `Insert(1, 1)`, `Insert(NaN, 0)`,
`Insert(2, 2)` and `ExtractMin`, node 2 with key 2 is the child of node 1 with key `NaN`;
`DecreaseKey(node 2, 0)` returns, and `GetMinValue` then panics. -/
theorem decreaseKey_nan_counterexample :
    Reachable nanTree [0] ∧ Member nanTree 0 2 ∧ Val.fin 0 ≤ nanTree.Value 2 ∧
      ∃ t, DecreaseKey 20 0 2 (Val.fin 0) nanTree = .ok t 2 ∧ t.min 0 = none ∧
        GetMinValue 0 t = .crash t :=
  ⟨nanTree_reachable, nanTree_member_two, by decide,
    (DecreaseKey 20 0 2 (Val.fin 0) nanTree).store nanTree, rfl, rfl, rfl⟩

/-- C6, as amended: on a live heap of a store reached by successful calls in which no key
handed to `Insert` or `DecreaseKey` was `NaN`, and in which no node of the heap has `Value`
negative infinity, `Delete(n)` on a node `n` of the heap returns, given enough fuel;
afterwards `Count()` is one less, `n` is not a node of the heap, the nodes of the heap are
the other nodes it had, each with its `Value` and `Data`, and the `(Value, Data)` pairs
before are those afterwards and the pair of `n`. -/
theorem delete_post {s : Store D} {L : List Nat} {f n : Nat}
    (hr : ReachableBy (fun v => v ≠ Val.nan) s L) (hf : f ∈ L) (hn : Member s f n)
    (hno : ∀ x, Member s f x → s.Value x ≠ Val.negInf) :
    ∃ K t, Runs (fun fuel => Delete fuel f n s) K t () ∧
      Count f t = Count f s - 1 ∧ ¬ Member t f n ∧
      (∀ x, Member t f x ↔ (Member s f x ∧ x ≠ n)) ∧
      (∀ x, x ≠ n → t.Value x = s.Value x ∧ t.Data x = s.Data x) ∧
      ∃ N N', N.Nodup ∧ N'.Nodup ∧ (∀ x, x ∈ N ↔ Member s f x) ∧
        (∀ x, x ∈ N' ↔ Member t f x) ∧
        (pairs s N).Perm ((s.Value n, s.Data n) :: pairs t N') := by
  obtain ⟨N, M, H, hI, -, hM⟩ := ReachableBy_heap hr hf
  have hnN : n ∈ N := (hM n).1 hn
  obtain ⟨K, t, M', H', hrun, hI', hV, hD, -, -, -⟩ :=
    Delete_runs hI trivial hnN (fun x hx => hno x ((hM x).2 hx))
  have hnd : N.Nodup := hI.shape.lists.nodupN
  have hM' : ∀ x, Member t f x ↔ x ∈ N.erase n := Member_iff hI'.shape
  refine ⟨K, t, hrun, ?_, ?_, ?_, ?_, N, N.erase n, hnd, hnd.erase n, fun x => (hM x).symm,
    fun x => (hM' x).symm, ?_⟩
  · show t.nodeCount f = s.nodeCount f - 1
    rw [hI'.count, hI.count, List.length_erase_of_mem hnN]
    have : 0 < N.length := List.length_pos_of_mem hnN
    omega
  · rw [hM']
    exact fun h => (List.Nodup.mem_erase_iff hnd).1 h |>.1 rfl
  · intro x
    rw [hM', hM, List.Nodup.mem_erase_iff hnd, and_comm]
  · intro x hx
    exact ⟨hV x hx, by rw [hD]⟩
  · have e : pairs t (N.erase n) = pairs s (N.erase n) := by
      apply List.map_congr_left
      intro x hx
      have hx' : x ≠ n := ((List.Nodup.mem_erase_iff hnd).1 hx).1
      rw [hV x hx', hD]
    rw [e]
    exact (List.perm_cons_erase hnN).map _

theorem delete_post_witness :
    ReachableBy (fun v => v ≠ Val.nan) exTree [0] ∧ 0 ∈ [0] ∧ Member exTree 0 2 ∧
      (∀ x, Member exTree 0 x → exTree.Value x ≠ Val.negInf) ∧
      ∃ K t, Runs (fun fuel => Delete fuel 0 2 exTree) K t () ∧
        Count 0 t = Count 0 exTree - 1 ∧ ¬ Member t 0 2 ∧
        (∀ x, Member t 0 x ↔ (Member exTree 0 x ∧ x ≠ 2)) ∧
        (∀ x, x ≠ 2 → t.Value x = exTree.Value x ∧ t.Data x = exTree.Data x) ∧
        ∃ N N', N.Nodup ∧ N'.Nodup ∧ (∀ x, x ∈ N ↔ Member exTree 0 x) ∧
          (∀ x, x ∈ N' ↔ Member t 0 x) ∧
          (pairs exTree N).Perm ((exTree.Value 2, exTree.Data 2) :: pairs t N') :=
  have hno : ∀ x, Member exTree 0 x → exTree.Value x ≠ Val.negInf := fun x hx =>
    (exTree_members hx).elim (fun e => e ▸ by decide) (fun e => e ▸ by decide)
  ⟨exTree_reachableBy, List.mem_singleton.2 rfl, exTree_member_two, hno,
    delete_post exTree_reachableBy (List.mem_singleton.2 rfl) exTree_member_two hno⟩

/-- C6, the counterexample: after `NewHeap`, `Insert(1, 1)`, `Insert(NaN, 0)`,
`Insert(2, 2)` and `ExtractMin`, no node of the heap has `Value` negative infinity and node 2
is a node of the heap, yet `Delete(node 2)` panics, whatever the fuel from 2 on (below that
it runs out of fuel): the store at the panic has node 2 with `Value` negative infinity,
still in the heap, and a nil cached minimum. -/
theorem delete_nan_counterexample :
    Reachable nanTree [0] ∧ Member nanTree 0 2 ∧
      (∀ x, Member nanTree 0 x → nanTree.Value x ≠ Val.negInf) ∧
      ∃ u, (∀ fuel, Delete (fuel + 2) 0 2 nanTree = .crash u) ∧
        Delete 1 0 2 nanTree = .timeout ∧ Delete 0 0 2 nanTree = .timeout ∧
        u.Value 2 = Val.negInf ∧ Member u 0 2 ∧ u.min 0 = none ∧ Count 0 u = 2 :=
  ⟨nanTree_reachable, nanTree_member_two,
    fun x hx => (nanTree_members hx).elim (fun e => e ▸ by decide) (fun e => e ▸ by decide),
    (DecreaseKey 20 0 2 NEG_INF nanTree).store nanTree, fun _ => rfl, rfl, rfl, rfl,
    Member.child 1 2 (Member.root 1 (InList.head 1)) (InList.head 2), rfl, rfl⟩

/-! ## Runs that end in a heap whose roots are all `+Inf`, and `Merge` into an empty heap -/

theorem infTwo_reachable : Reachable infTwo [0] := by
  have h : ((Insert 0 Val.posInf 7 exNew).bind fun s _ => Insert 0 Val.posInf 8 s) =
      .ok infTwo 1 := rfl
  obtain ⟨u, a, h1, h2⟩ := bind_eq_ok h
  exact Reachable.insert (Reachable.insert exNew_reachable (List.mem_singleton.2 rfl) h1)
    (List.mem_singleton.2 rfl) h2

theorem infOne_reachable : Reachable infOne [0] :=
  @Reachable.extractMin _ infTwo infOne [0] 0 5 7
    infTwo_reachable (List.mem_singleton.2 rfl) rfl

theorem exPair_reachable : Reachable exPair [1, 0] :=
  Reachable.insert (s := (NewHeap exNew).1) (t := exPair) (f := 1) (n := 0) (v := Val.fin 1)
    (d := 1) (Reachable.newHeap exNew_reachable) (List.mem_cons_self 1 [0]) rfl

/-- C2: after `NewHeap`, `Insert(+Inf, 7)`, `Insert(+Inf, 8)` and `ExtractMin`, the heap
holds one node, node 1 with `Value` `+Inf`, yet its cached `min` is nil and `GetMinValue`
panics. -/
theorem cached_min_nil_on_nonempty :
    Reachable infOne [0] ∧ Count 0 infOne = 1 ∧ Member infOne 0 1 ∧
      infOne.Value 1 = Val.posInf ∧ infOne.min 0 = none ∧
      GetMinValue 0 infOne = .crash infOne :=
  ⟨infOne_reachable, rfl, Member.root 1 (InList.head 1), rfl, rfl, rfl⟩

/-- C3: after `NewHeap`, `Insert(+Inf, 7)`, `Insert(+Inf, 8)` and `ExtractMin`, the heap
holds one node and one top-level tree, yet `ExtractMin` panics, whatever the fuel. -/
theorem extractMin_panics_on_nonempty :
    Reachable infOne [0] ∧ Count 0 infOne = 1 ∧ Len 0 infOne = 1 ∧
      ∀ fuel, ExtractMin fuel 0 infOne = .crash infOne :=
  ⟨infOne_reachable, rfl, rfl, fun _ => rfl⟩

/-- C4: after `NewHeap`, `Insert(+Inf, 7)`, `Insert(+Inf, 8)` and `ExtractMin`, the heap
holds node 1 with `Value` `+Inf`; `Insert(+Inf, 9)` then makes the new node 2 the cached
minimum, though the heap was not empty and `+Inf` is not lower than the `Value` of
node 1. -/
theorem insert_tie_becomes_min :
    Reachable infOne [0] ∧ Count 0 infOne = 1 ∧ Member infOne 0 1 ∧
      ¬ Val.posInf < infOne.Value 1 ∧
      ∃ t, Insert 0 Val.posInf 9 infOne = .ok t 2 ∧ t.min 0 = some 2 ∧ Count 0 t = 2 :=
  ⟨infOne_reachable, rfl, Member.root 1 (InList.head 1), by decide,
    (Insert 0 Val.posInf 9 infOne).store infOne, rfl, rfl, rfl⟩

/-- C7: with heap 0 new and empty and heap 1 holding one node, `Merge` of heap 1 into
heap 0 panics at the comparison of the two `min` values; at the panic the top-level list of
heap 0 already has the node of heap 1, while `Count()` of heap 0 is still 0 and its `min` is
nil. -/
theorem merge_into_empty_panics :
    Reachable exPair [1, 0] ∧ Count 0 exPair = 0 ∧ Len 0 exPair = 0 ∧ Count 1 exPair = 1 ∧
      ∃ t, Merge 0 (some 1) exPair = .crash t ∧ Len 0 t = 1 ∧ Count 0 t = 0 ∧
        t.min 0 = none :=
  ⟨exPair_reachable, rfl, rfl, rfl,
    (NodeList.Merge (.trees 0) (some (.trees 1)) exPair).store exPair, rfl, rfl, rfl, rfl⟩


/-! ## Heap sort -/

theorem insertAll_ok {f : Nat} : ∀ (vs : List Int) {s : Store Int} {N : List Nat}
    {M : ListRef → List Nat} {H : Nat → Nat}, HeapInv True s f N M H →
    (∀ x ∈ N, x < s.nodeNext) → Keyed s N →
    ∃ t N' M' H', insertAll f vs s = .ok t () ∧ HeapInv True t f N' M' H' ∧ Keyed t N' ∧
      N'.length = N.length + vs.length ∧ (N'.map t.Data).Perm (N.map s.Data ++ vs) := by
  intro vs
  induction vs with
  | nil =>
    intro s N M H hI _ hK
    exact ⟨s, N, M, H, rfl, hI, hK, by simp, by simp⟩
  | cons v vs ih =>
    intro s N M H hI hfresh hK
    obtain ⟨t, M', hok, hI', -, -, hV, hD, -, -, -, -, hnn, -⟩ :=
      Insert_ok hI hfresh (v := Val.fin v) (by intro e; cases e)
        (fun _ => by intro e; cases e) v
    have hne : ∀ x ∈ N, x ≠ s.nodeNext := fun x hx e => by
      have := hfresh x hx
      omega
    have hfresh' : ∀ x ∈ N ++ [s.nodeNext], x < t.nodeNext := by
      intro x hx
      rw [hnn]
      rcases List.mem_append.1 hx with h | h
      · exact Nat.lt_succ_of_lt (hfresh x h)
      · rw [List.mem_singleton.1 h]
        exact Nat.lt_succ_self _
    have hK' : Keyed t (N ++ [s.nodeNext]) := by
      intro x hx
      rw [hV, hD]
      rcases List.mem_append.1 hx with h | h
      · simp only [Function.update_noteq (hne x h)]
        exact hK x h
      · rw [List.mem_singleton.1 h]
        simp
    obtain ⟨u, N', M'', H'', hok', hI'', hK'', hlen, hperm⟩ := ih hI' hfresh' hK'
    refine ⟨u, N', M'', H'', ?_, hI'', hK'', ?_, ?_⟩
    · simp only [insertAll, hok, Res.bind]
      exact hok'
    · rw [hlen]
      simp only [List.length_append, List.length_cons, List.length_nil]
      omega
    · refine hperm.trans ?_
      have e : (N ++ [s.nodeNext]).map t.Data = N.map s.Data ++ [v] := by
        rw [List.map_append, hD]
        congr 1
        · apply List.map_congr_left
          intro x hx
          simp [Function.update_noteq (hne x hx)]
        · simp
      rw [e, List.append_assoc]
      rfl

theorem extractAll_runs {f : Nat} : ∀ (k : Nat) {s : Store Int} {N : List Nat}
    {M : ListRef → List Nat} {H : Nat → Nat}, HeapInv True s f N M H → Keyed s N →
    N.length = k →
    ∃ K t M' H' out, Runs (fun fuel => extractAll fuel f k s) K t out ∧
      HeapInv True t f [] M' H' ∧ out.Sorted (· ≤ ·) ∧ out.Perm (N.map s.Data) := by
  intro k
  induction k with
  | zero =>
    intro s N M H hI _ hlen
    have hN : N = [] := List.length_eq_zero.1 hlen
    subst hN
    exact ⟨0, s, M, H, [], Runs_const (fun _ => rfl), hI, List.sorted_nil, by simp⟩
  | succ k ih =>
    intro s N M H hI hK hlen
    obtain ⟨n, hn⟩ : ∃ n, n ∈ N := List.exists_mem_of_length_pos (by omega)
    obtain ⟨m, hm⟩ := HeapInv_min_some hI trivial hn (by rw [hK n hn]; intro e; cases e)
    obtain ⟨hmN, hmle⟩ := HeapInv_min_le hI trivial hm
    obtain ⟨K1, t, M', H', hrun, hI', hV, hD, -⟩ := ExtractMin_runs hI hm
    have hK' : Keyed t (N.erase m) := by
      intro x hx
      rw [hV, hD]
      exact hK x (List.mem_of_mem_erase hx)
    have hlen' : (N.erase m).length = k := by
      rw [List.length_erase_of_mem hmN, hlen]
      rfl
    obtain ⟨K2, u, M'', H'', out, hrun2, hI'', hsort, hperm⟩ := ih hI' hK' hlen'
    have h2 : Runs (fun fuel => (extractAll fuel f k t).bind fun s' ds =>
        Res.ok s' (s.Data m :: ds)) (max K2 0) u (s.Data m :: out) :=
      Runs_bind (k := fun _ s' ds => Res.ok s' (s.Data m :: ds)) hrun2
        (Runs_const (fun _ => rfl))
    have h3 : Runs (fun fuel => extractAll fuel f (k + 1) s) (max K1 (max K2 0)) u
        (s.Data m :: out) :=
      Runs_bind (r := fun fuel => ExtractMin fuel f s)
        (k := fun fuel s' d => (extractAll fuel f k s').bind fun s ds => Res.ok s (d :: ds))
        hrun h2
    have hperm' : out.Perm ((N.erase m).map s.Data) := by
      rw [hD] at hperm
      exact hperm
    refine ⟨_, u, M'', H'', _, h3, hI'', ?_, ?_⟩
    · refine List.sorted_cons.2 ⟨?_, hsort⟩
      intro y hy
      obtain ⟨x, hx, rfl⟩ := List.mem_map.1 (hperm'.subset hy)
      have hxN := List.mem_of_mem_erase hx
      have := hmle x hxN
      rw [hK m hmN, hK x hxN] at this
      exact Val_fin_le.1 this
    · exact (hperm'.cons _).trans ((List.perm_cons_erase hmN).map _).symm

/-- C1: heap sort.  For every list `vs` of finite keys and every store, making a new heap,
inserting every `v` of `vs` with payload `v` and calling `ExtractMin` as many times as `vs`
is long returns, given enough fuel and without a panic, the payloads in non-decreasing
order, a permutation of `vs`; afterwards `Count()` and `Len()` are 0 and `String()` is
`[Empty Heap]`. -/
theorem heapSort_sorted (vs : List Int) (s : Store Int) (fmt : Val → String) :
    ∃ K t out, Runs (fun fuel => heapSort fuel vs s) K t out ∧
      out.Sorted (· ≤ ·) ∧ out.Perm vs ∧
      Count (NewHeap s).2 t = 0 ∧ Len (NewHeap s).2 t = 0 ∧
      ∀ fuel, HeapString fmt fuel (NewHeap s).2 t = some "[Empty Heap]" := by
  obtain ⟨t1, N, M, H, hok, hI, hK, hlen, hperm⟩ :=
    insertAll_ok (f := (NewHeap s).2) vs (NewHeap_inv s) (by simp) (by intro x hx; cases hx)
  simp only [List.length_nil, Nat.zero_add, List.map_nil, List.nil_append] at hlen hperm
  obtain ⟨K, t, M', H', out, hrun, hI', hsort, hperm'⟩ := extractAll_runs vs.length hI hK hlen
  have hr : Runs (fun fuel => heapSort fuel vs s) (max 0 K) t out :=
    Runs_bind (r := fun _ => insertAll (NewHeap s).2 vs (NewHeap s).1)
      (k := fun fuel s1 _ => extractAll fuel (NewHeap s).2 vs.length s1)
      (Runs_const (fun _ => hok)) hrun
  have hlen0 : Len (NewHeap s).2 t = 0 := by
    rw [HeapInv_len hI', (HeapInv_roots_nil hI'.shape).2 rfl]
    rfl
  refine ⟨_, t, out, hr, hsort, hperm'.trans hperm, ?_, hlen0, ?_⟩
  · show t.nodeCount _ = 0
    rw [hI'.count]
    rfl
  · intro fuel
    simp only [HeapString, hlen0, if_true]


/-! ## More concrete stores -/

theorem exTwo_reachable : Reachable exTwo [0] :=
  Reachable_insertAll (List.mem_singleton.2 rfl) [1, 2] exNew_reachable (t := exTwo) rfl

theorem exNeg_reachable : Reachable exNeg [0] :=
  @Reachable.decreaseKey _ exTwo exNeg [0] 0 5 0 0 NEG_INF exTwo_reachable
    (List.mem_singleton.2 rfl) (Member.root 0 (InList.head 0)) rfl

theorem exThree_trees : IsList exThree (.trees 0) [0, 1, 2] :=
  ⟨⟨rfl, rfl, rfl, rfl⟩, rfl, rfl, ⟨rfl, rfl, rfl, trivial⟩, by decide⟩

theorem exDetached_trees : IsList exDetached (.trees 0) [0, 1, 2] :=
  ⟨⟨rfl, rfl, rfl, rfl⟩, rfl, rfl, ⟨rfl, rfl, rfl, trivial⟩, by decide⟩

theorem exTree_trees : IsList exTree (.trees 0) [2] :=
  ⟨⟨rfl, rfl⟩, rfl, rfl, ⟨rfl, trivial⟩, by decide⟩

theorem exTree_children : IsList exTree (.children 2) [0] :=
  ⟨⟨rfl, rfl⟩, rfl, rfl, ⟨rfl, trivial⟩, by decide⟩

theorem infTwo_trees : IsList infTwo (.trees 0) [0, 1] :=
  ⟨⟨rfl, rfl, rfl⟩, rfl, rfl, ⟨rfl, rfl, trivial⟩, by decide⟩

theorem Reachable_wellFormed {s : Store D} {L : List Nat} {f : Nat} (hr : Reachable s L)
    (hf : f ∈ L) : WellFormed s f := by
  obtain ⟨N, M, H, hI, -, -⟩ := Reachable_heap hr hf
  exact ⟨N, M, H, hI.shape⟩

/-! ## Roots after `ExtractMin` -/

theorem IsRootOf_mem {s : Store D} {f : Nat} {N : List Nat} {M : ListRef → List Nat}
    {H : Nat → Nat} (h : Shape s f N M H) {n : Nat} : IsRootOf s f n ↔ n ∈ M (.trees f) :=
  ⟨fun hn => InList_mem hn (h.lists.isList (.trees f) rfl).seg,
    fun hn => InList_of_mem (h.lists.isList (.trees f) rfl).seg hn⟩

/-- C11: on a live heap of a store reached by successful calls whose cached minimum is a
node `m` (otherwise `ExtractMin` panics), `ExtractMin` returns the payload of `m`, given
enough fuel, and in the store it leaves two top-level roots with the same `Degree()` are the
same node; and in every well-formed heap state whose `Count()` is 0 only when its top level
is empty, reachable or not, `consolidate` returns, given enough fuel, a store in which two
top-level roots with the same `Degree()` are the same node. -/
theorem extractMin_roots_distinct_degree {s : Store D} {L : List Nat} {f m : Nat}
    {s' : Store D} {f' : Nat} (hr : Reachable s L) (hf : f ∈ L) (hm : s.min f = some m)
    (hw : WellFormed s' f') (hc : Count f' s' = 0 → Len f' s' = 0) :
    (∃ K t, Runs (fun fuel => ExtractMin fuel f s) K t (s.Data m) ∧
      ∀ r r', IsRootOf t f r → IsRootOf t f r' → Node.Degree r t = Node.Degree r' t →
        r = r') ∧
    ∃ K u, Runs (fun fuel => consolidate fuel f' s') K u () ∧
      ∀ r r', IsRootOf u f' r → IsRootOf u f' r' → Node.Degree r u = Node.Degree r' u →
        r = r' := by
  constructor
  · obtain ⟨N, M, H, hI, -, -⟩ := Reachable_heap hr hf
    obtain ⟨K, t, M', H', hrun, hI', -, -, -, -, -, hdeg⟩ := ExtractMin_runs hI hm
    refine ⟨K, t, hrun, ?_⟩
    intro r r' h1 h2 hd
    have hr1 := (IsRootOf_mem hI'.shape).1 h1
    have hr2 := (IsRootOf_mem hI'.shape).1 h2
    have hne : N.erase m ≠ [] := by
      intro e
      rw [(HeapInv_roots_nil hI'.shape).2 e] at hr1
      cases hr1
    exact hdeg hne r hr1 r' hr2 hd
  · obtain ⟨N, M, H, hS⟩ := hw
    by_cases h0 : s'.nodeCount f' = 0
    · refine ⟨0, s', Runs_const (fun fuel => by simp [consolidate, h0]), ?_⟩
      intro r r' h1 _ _
      have hr1 := (IsRootOf_mem hS).1 h1
      have hlen : Len f' s' = (M (.trees f')).length :=
        (hS.lists.isList (.trees f') rfl).length
      rw [hc h0] at hlen
      have hnil : M (.trees f') = [] := List.length_eq_zero.1 (by exact_mod_cast hlen.symm)
      rw [hnil] at hr1
      cases hr1
    · obtain ⟨K, u, M', H', hrun, hS', -, -, -, hdeg⟩ := consolidate_runs hS
      refine ⟨K, u, hrun, ?_⟩
      intro r r' h1 h2 hd
      exact hdeg h0 r ((IsRootOf_mem hS').1 h1) r' ((IsRootOf_mem hS').1 h2) hd

theorem extractMin_roots_distinct_degree_witness :
    Reachable exThree [0] ∧ 0 ∈ [0] ∧ exThree.min 0 = some 1 ∧ WellFormed exThree 0 ∧
      (Count 0 exThree = 0 → Len 0 exThree = 0) ∧
      ((∃ K t, Runs (fun fuel => ExtractMin fuel 0 exThree) K t (exThree.Data 1) ∧
        ∀ r r', IsRootOf t 0 r → IsRootOf t 0 r' → Node.Degree r t = Node.Degree r' t →
          r = r') ∧
      ∃ K u, Runs (fun fuel => consolidate fuel 0 exThree) K u () ∧
        ∀ r r', IsRootOf u 0 r → IsRootOf u 0 r' → Node.Degree r u = Node.Degree r' u →
          r = r') :=
  ⟨exThree_reachable, List.mem_singleton.2 rfl, rfl,
    Reachable_wellFormed exThree_reachable (List.mem_singleton.2 rfl),
    fun h => absurd h (by decide),
    extractMin_roots_distinct_degree exThree_reachable (List.mem_singleton.2 rfl) rfl
      (Reachable_wellFormed exThree_reachable (List.mem_singleton.2 rfl))
      (fun h => absurd h (by decide))⟩

/-- C12: after `NewHeap`, `Insert(1, 1)`, `Insert(2, 2)` and `DecreaseKey(node 0, -Inf)`,
which returns, node 0 of the heap has `Value` negative infinity; `Delete(node 1)` then
returns with node 1 still in the heap, its `Value` negative infinity, and node 0 gone. -/
theorem decreaseKey_stores_sentinel :
    Reachable exNeg [0] ∧ DecreaseKey 5 0 0 NEG_INF exTwo = .ok exNeg 0 ∧
      Member exNeg 0 0 ∧ exNeg.Value 0 = Val.negInf ∧
      ∃ t, Delete 5 0 1 exNeg = .ok t () ∧ Member t 0 1 ∧ t.Value 1 = Val.negInf ∧
        Count 0 t = 1 :=
  ⟨exNeg_reachable, rfl, Member.root 0 (InList.head 0), rfl,
    (Delete 5 0 1 exNeg).store exNeg, rfl, Member.root 1 (InList.head 1), rfl, rfl⟩

/-! ## `NodeList` -/

/-- C13: `Remove(n)` on a well-formed list with the nodes `xs`, `n` one of them, returns
`n`; the list is then well formed with the nodes `xs` without `n`, in the same order;
`Len()` is one less, `Front()` and `Back()` are the first and the last of these nodes, or
nil, and `n.Next` and `n.prev` are nil. -/
theorem nodeList_remove_member {s : Store D} {r : ListRef} {xs : List Nat} {n : Nat}
    (hl : IsList s r xs) (hn : n ∈ xs) :
    ∃ t, NodeList.Remove r (some n) s = (t, some n) ∧ IsList t r (xs.erase n) ∧
      xs.erase n = xs.filter (fun x => x ≠ n) ∧
      NodeList.Len r t = NodeList.Len r s - 1 ∧
      NodeList.Front r t = (xs.erase n).head? ∧
      NodeList.Back r t = (xs.erase n).getLast? ∧
      t.Next n = none ∧ t.prev n = none := by
  obtain ⟨t, he, hl', -, h1, h2⟩ := NodeList_Remove_ok hl hn
  refine ⟨t, he, hl', ?_, ?_, IsList_front_eq hl', ?_, h1, h2⟩
  · rw [hl.nodup.erase_eq_filter]
    apply List.filter_congr
    intro x _
    by_cases e : x = n <;> simp [e]
  · show (t.lists r).length = (s.lists r).length - 1
    rw [hl'.length, hl.length, List.length_erase_of_mem hn]
    have : 0 < xs.length := List.length_pos_of_mem hn
    omega
  · show (t.lists r).back = _
    rw [hl'.back, lastPtr_eq_getLast]

theorem nodeList_remove_member_witness :
    IsList exThree (.trees 0) [0, 1, 2] ∧ 1 ∈ [0, 1, 2] ∧
      ∃ t, NodeList.Remove (.trees 0) (some 1) exThree = (t, some 1) ∧
        IsList t (.trees 0) ([0, 1, 2].erase 1) ∧
        [0, 1, 2].erase 1 = [0, 1, 2].filter (fun x => x ≠ 1) ∧
        NodeList.Len (.trees 0) t = NodeList.Len (.trees 0) exThree - 1 ∧
        NodeList.Front (.trees 0) t = ([0, 1, 2].erase 1).head? ∧
        NodeList.Back (.trees 0) t = ([0, 1, 2].erase 1).getLast? ∧
        t.Next 1 = none ∧ t.prev 1 = none :=
  ⟨exThree_trees, by decide, nodeList_remove_member exThree_trees (by decide)⟩

theorem lastPtr_mem : ∀ (xs : List Nat) (p : Option Nat) (n : Nat),
    lastPtr p xs = some n → n ∈ xs ∨ p = some n := by
  intro xs
  induction xs with
  | nil => intro p n h; exact Or.inr h
  | cons x xs ih =>
    intro p n h
    rcases ih (some x) n h with h1 | h1
    · exact Or.inl (List.mem_cons_of_mem _ h1)
    · injection h1 with h1
      exact Or.inl (h1 ▸ List.mem_cons_self _ _)

/-- C14, as amended: `Remove(nil)` returns nil with the store unchanged, and so does
`Remove(m)` on a list whose `Len()` is 0.  On a well-formed list with the nodes `xs`, not
empty, `Remove(n)` for a node `n` that is not one of `xs` and whose `Next` and `prev` are
nil returns `n`, not nil: no link of any node and no other list object changes, the node
sequence, `Front()` and `Back()` are as they were, and `Len()` is one less than before,
so one less than the number of nodes. -/
theorem nodeList_remove_absent {s : Store D} {r : ListRef} {xs : List Nat} {n : Nat}
    (hl : IsList s r xs) (hx : xs ≠ []) (hn : n ∉ xs) (hnext : s.Next n = none)
    (hprev : s.prev n = none) :
    (∀ (s' : Store D) (r' : ListRef), NodeList.Remove r' none s' = (s', none)) ∧
    (∀ (s' : Store D) (r' : ListRef) (m : Nat), NodeList.Len r' s' = 0 →
      NodeList.Remove r' (some m) s' = (s', none)) ∧
    ∃ t, NodeList.Remove r (some n) s = (t, some n) ∧
      t.Next = s.Next ∧ t.prev = s.prev ∧ (∀ r', r' ≠ r → t.lists r' = s.lists r') ∧
      Seg t.Next (NodeList.Front r t) xs none ∧ PrevSeg t.prev none xs ∧
      NodeList.Front r t = NodeList.Front r s ∧ NodeList.Back r t = NodeList.Back r s ∧
      NodeList.Len r s = xs.length ∧ NodeList.Len r t = NodeList.Len r s - 1 := by
  refine ⟨fun _ _ => rfl, ?_, ?_⟩
  · intro s' r' m h
    have h' : (s'.lists r').length = 0 := h
    simp only [NodeList.Remove, h', if_true]
  · have hlen : (s.lists r).length ≠ 0 := by
      rw [hl.length]
      intro e
      exact hx (List.length_eq_zero.1 (by exact_mod_cast e))
    have hfront : (s.lists r).front ≠ some n := by
      rw [IsList_front_eq hl]
      intro e
      exact hn (List.mem_of_mem_head? e)
    have hback : (s.lists r).back ≠ some n := by
      rw [hl.back]
      intro e
      rcases lastPtr_mem xs none n e with h | h
      · exact hn h
      · cases h
    have e : NodeList.Remove r (some n) s =
        (s.setList r ⟨(s.lists r).front, (s.lists r).back, (s.lists r).length - 1⟩,
          some n) := by
      simp only [NodeList.Remove, if_neg hlen, hprev, if_neg hfront, hnext, if_neg hback]
      congr 1
      cases s
      simp_all [Store.setList, Store.setNext, Store.setPrev]
    refine ⟨_, e, rfl, rfl, ?_, ?_, hl.prevs, ?_, ?_, hl.length, ?_⟩
    · intro r' hr
      simp [Store.setList, Function.update_noteq hr]
    · simpa [NodeList.Front, Store.setList] using hl.seg
    · simp [NodeList.Front, Store.setList]
    · simp [NodeList.Back, Store.setList]
    · simp [NodeList.Len, Store.setList]

theorem nodeList_remove_absent_witness :
    IsList exDetached (.trees 0) [0, 1, 2] ∧ ([0, 1, 2] : List Nat) ≠ [] ∧ 3 ∉ [0, 1, 2] ∧
      exDetached.Next 3 = none ∧ exDetached.prev 3 = none ∧
      ((∀ (s' : Store Int) (r' : ListRef), NodeList.Remove r' none s' = (s', none)) ∧
      (∀ (s' : Store Int) (r' : ListRef) (m : Nat), NodeList.Len r' s' = 0 →
        NodeList.Remove r' (some m) s' = (s', none)) ∧
      ∃ t, NodeList.Remove (.trees 0) (some 3) exDetached = (t, some 3) ∧
        t.Next = exDetached.Next ∧ t.prev = exDetached.prev ∧
        (∀ r', r' ≠ .trees 0 → t.lists r' = exDetached.lists r') ∧
        Seg t.Next (NodeList.Front (.trees 0) t) [0, 1, 2] none ∧
        PrevSeg t.prev none [0, 1, 2] ∧
        NodeList.Front (.trees 0) t = NodeList.Front (.trees 0) exDetached ∧
        NodeList.Back (.trees 0) t = NodeList.Back (.trees 0) exDetached ∧
        NodeList.Len (.trees 0) exDetached = ([0, 1, 2] : List Nat).length ∧
        NodeList.Len (.trees 0) t = NodeList.Len (.trees 0) exDetached - 1) :=
  ⟨exDetached_trees, by decide, by decide, rfl, rfl,
    nodeList_remove_absent exDetached_trees (by decide) (by decide) rfl rfl⟩

/-- C14, the counterexample: in the store `exDetached` the top-level list of heap 0 is well
formed with the nodes 0, 1, 2 and node 3 is a new node in no list; `Remove(node 3)` returns
node 3 and leaves the nodes, `Front()` and `Back()` of the list as they were, but `Len()`
goes from 3 to 2. -/
theorem nodeList_remove_absent_len :
    IsList exDetached (.trees 0) [0, 1, 2] ∧ 3 ∉ [0, 1, 2] ∧
      exDetached.Next 3 = none ∧ exDetached.prev 3 = none ∧
      NodeList.Len (.trees 0) exDetached = 3 ∧
      ∃ t, NodeList.Remove (.trees 0) (some 3) exDetached = (t, some 3) ∧
        Seg t.Next (NodeList.Front (.trees 0) t) [0, 1, 2] none ∧
        NodeList.Front (.trees 0) t = NodeList.Front (.trees 0) exDetached ∧
        NodeList.Back (.trees 0) t = NodeList.Back (.trees 0) exDetached ∧
        NodeList.Len (.trees 0) t = 2 :=
  ⟨exDetached_trees, by decide, rfl, rfl, rfl,
    (NodeList.Remove (.trees 0) (some 3) exDetached).1, rfl, ⟨rfl, rfl, rfl, rfl⟩, rfl, rfl,
    rfl⟩

/-- C15: `A.Merge(B)` on two different well-formed lists with the nodes `xs` and `ys`, no
node in common, returns; `A` is then well formed with the nodes `xs ++ ys`, `A.Len()` is
the sum of the two lengths, `A.Front()` and `A.Back()` are the first and the last node of
`xs ++ ys`, the list object `B` is as it was, the store is unchanged when `B` is empty, and
`A.Merge(nil)` returns with the store unchanged. -/
theorem nodeList_merge_concat {s : Store D} {r o : ListRef} {xs ys : List Nat}
    (hl : IsList s r xs) (ho : IsList s o ys) (hro : r ≠ o) (hdis : ∀ x ∈ xs, x ∉ ys) :
    (∃ t, NodeList.Merge r (some o) s = .ok t () ∧ IsList t r (xs ++ ys) ∧
      NodeList.Len r t = NodeList.Len r s + NodeList.Len o s ∧
      NodeList.Front r t = (xs ++ ys).head? ∧
      NodeList.Back r t = (xs ++ ys).getLast? ∧
      t.lists o = s.lists o ∧ (ys = [] → t = s)) ∧
    NodeList.Merge r none s = .ok s () := by
  refine ⟨?_, rfl⟩
  obtain ⟨t, he, hl', hop⟩ := NodeList_Merge_ok hl ho hro hdis
  refine ⟨t, he, hl', ?_, IsList_front_eq hl', ?_, hop.lists o (Ne.symm hro), ?_⟩
  · show (t.lists r).length = (s.lists r).length + (s.lists o).length
    rw [hl'.length, hl.length, ho.length]
    simp
  · show (t.lists r).back = _
    rw [hl'.back, lastPtr_eq_getLast]
  · intro hy
    have hf : (s.lists o).front = none := by
      rw [IsList_front_eq ho, hy]
      rfl
    have e : NodeList.Merge r (some o) s = .ok s () := by
      simp only [NodeList.Merge, hf]
    rw [e] at he
    injection he with he _
    exact he.symm

theorem nodeList_merge_concat_witness :
    IsList exTree (.trees 0) [2] ∧ IsList exTree (.children 2) [0] ∧
      ListRef.trees 0 ≠ ListRef.children 2 ∧ (∀ x ∈ [2], x ∉ [0]) ∧
      ((∃ t, NodeList.Merge (.trees 0) (some (.children 2)) exTree = .ok t () ∧
        IsList t (.trees 0) ([2] ++ [0]) ∧
        NodeList.Len (.trees 0) t =
          NodeList.Len (.trees 0) exTree + NodeList.Len (.children 2) exTree ∧
        NodeList.Front (.trees 0) t = ([2] ++ [0]).head? ∧
        NodeList.Back (.trees 0) t = ([2] ++ [0]).getLast? ∧
        t.lists (.children 2) = exTree.lists (.children 2) ∧
        (([0] : List Nat) = [] → t = exTree)) ∧
      NodeList.Merge (.trees 0) none exTree = .ok exTree ()) :=
  ⟨exTree_trees, exTree_children, by decide, by decide,
    nodeList_merge_concat exTree_trees exTree_children (by decide) (by decide)⟩

/-- C18: in the store `infTwo` the top-level list of heap 0 is well formed with the two
roots 0 and 1, both with `Value` `+Inf`; `resetMin` returns and leaves the cached `min`
nil, though the list has 2 nodes. -/
theorem resetMin_nil_on_nonempty :
    IsList infTwo (.trees 0) [0, 1] ∧ infTwo.Value 0 = Val.posInf ∧
      infTwo.Value 1 = Val.posInf ∧
      ∃ t, resetMin 5 0 infTwo = .ok t () ∧ t.min 0 = none ∧
        NodeList.Len (.trees 0) t = 2 :=
  ⟨infTwo_trees, rfl, rfl, (resetMin 5 0 infTwo).store infTwo, rfl, rfl, rfl⟩


/-! ## Roots, parents and marks -/

theorem HeapList_rel {s : Store D} {f : Nat} {N : List Nat} {M : ListRef → List Nat}
    {H : Nat → Nat} (h : Shape s f N M H) {r : ListRef} (hr : HeapList s f r) :
    Rel f N r := by
  cases r with
  | trees g => exact hr
  | children x => exact (Member_iff h x).1 hr

theorem HeapList_own {s : Store D} {f : Nat} {N : List Nat} {M : ListRef → List Nat}
    {H : Nat → Nat} (h : Shape s f N M H) {r : ListRef} (hr : HeapList s f r) {n : Nat}
    (hn : InList s (NodeList.Front r s) n) : n ∈ N ∧ own f s n = r := by
  have hrel := HeapList_rel h hr
  exact h.lists.memIn r hrel n (InList_mem hn (h.lists.isList r hrel).seg)

/-- C17: on a live heap `f` of a store reached by successful calls, a node of the heap is in
the top-level list exactly when its `Parent` is nil; every node in the `Children` list of a
node `x` of the heap has `Parent = x`; a node that is in a list of the heap and in a list of
a live heap is in one list only; and every top-level root has `Marked = false`. -/
theorem root_parent_mark_of_reachable {s : Store D} {L : List Nat} {f : Nat}
    (hr : Reachable s L) (hf : f ∈ L) :
    (∀ n, Member s f n → (IsRootOf s f n ↔ s.Parent n = none)) ∧
    (∀ x c, Member s f x → InList s (NodeList.Front (.children x) s) c →
      s.Parent c = some x) ∧
    (∀ g ∈ L, ∀ r r' n, HeapList s f r → HeapList s g r' →
      InList s (NodeList.Front r s) n → InList s (NodeList.Front r' s) n → r = r') ∧
    (∀ n, IsRootOf s f n → s.Marked n = false) := by
  obtain ⟨nodes, hW⟩ := Reachable_inv hr
  obtain ⟨M, H, hI⟩ := hW.heap f hf
  have hS := hI.shape
  refine ⟨?_, ?_, ?_, ?_⟩
  · intro n hn
    have hnN := (Member_iff hS n).1 hn
    constructor
    · intro h
      have := (HeapList_own hS (r := .trees f) rfl h).2
      unfold own at this
      cases hp : s.Parent n with
      | none => rfl
      | some p => rw [hp] at this; cases this
    · intro hp
      exact (IsRootOf_mem hS).2 (Lists_root_mem hS.lists hnN hp)
  · intro x c hx hc
    have := (HeapList_own hS (r := .children x) hx hc).2
    unfold own at this
    cases hp : s.Parent c with
    | none => rw [hp] at this; cases this
    | some p =>
      rw [hp] at this
      injection this with e
      rw [e]
  · intro g hg r r' n h1 h2 hn1 hn2
    obtain ⟨Mg, Hg, hIg⟩ := hW.heap g hg
    have a1 := HeapList_own hS h1 hn1
    have a2 := HeapList_own hIg.shape h2 hn2
    by_cases e : f = g
    · subst e
      rw [← a1.2, ← a2.2]
    · exact (hW.disj f hf g hg e n a1.1 a2.1).elim
  · intro n hn
    exact hS.unmarked n ((IsRootOf_mem hS).1 hn)

theorem root_parent_mark_of_reachable_witness :
    Reachable exTree [0] ∧ 0 ∈ [0] ∧
      ((∀ n, Member exTree 0 n → (IsRootOf exTree 0 n ↔ exTree.Parent n = none)) ∧
      (∀ x c, Member exTree 0 x → InList exTree (NodeList.Front (.children x) exTree) c →
        exTree.Parent c = some x) ∧
      (∀ g ∈ [0], ∀ r r' n, HeapList exTree 0 r → HeapList exTree g r' →
        InList exTree (NodeList.Front r exTree) n →
        InList exTree (NodeList.Front r' exTree) n → r = r') ∧
      (∀ n, IsRootOf exTree 0 n → exTree.Marked n = false)) :=
  ⟨exTree_reachable, List.mem_singleton.2 rfl,
    root_parent_mark_of_reachable exTree_reachable (List.mem_singleton.2 rfl)⟩


/-! ## One linking step of `consolidate` -/

theorem link_step_aux {s : Store D} {f : Nat} {N : List Nat} {M : ListRef → List Nat}
    {H : Nat → Nat} {ranks : Int → Option Nat} {curr rank w l : Nat}
    (hS : Shape s f N M H) (hne : rank ≠ curr) (hr : ranks (Node.Degree curr s) = some rank)
    (hw : w ∈ M (.trees f)) (hl : l ∈ M (.trees f)) (hwl : w ≠ l)
    (hinner : ∀ t, Node.AddChild w l (NodeList.Remove (.trees f) (some l) s).1 = .ok t () →
      ∀ k, consolidate.inner f (Node.Degree curr s) (k + 2) ranks curr s =
        .ok t (Function.update ranks (Node.Degree curr s) none, w)) :
    ∃ t M' H',
      (∀ k, consolidate.inner f (Node.Degree curr s) (k + 2) ranks curr s =
        .ok t (Function.update ranks (Node.Degree curr s) none, w)) ∧
      (∀ k, consolidate.loop f (k + 3) ranks (some curr) s =
        consolidate.loop f (k + 2) (Function.update ranks (Node.Degree curr s) none)
          (some w) t) ∧
      Shape t f N M' H' ∧ w ∈ N ∧
      M' (.trees f) = (M (.trees f)).erase l ∧
      M' (.children w) = M (.children w) ++ [l] ∧
      t.Parent l = some w ∧ Node.Degree w t = Node.Degree w s + 1 ∧ t.Value = s.Value := by
  obtain ⟨t, e, hS', hP, -, hK, -⟩ := link_shape hS hw hl hwl
  have hwN : w ∈ N := (hS.lists.memIn (.trees f) rfl w hw).1
  have hM1 : Function.update (Function.update M (.trees f) ((M (.trees f)).erase l))
      (.children w) (M (.children w) ++ [l]) (.trees f) = (M (.trees f)).erase l := by
    rw [Function.update_noteq (by intro e; cases e), Function.update_same]
  have hM2 : Function.update (Function.update M (.trees f) ((M (.trees f)).erase l))
      (.children w) (M (.children w) ++ [l]) (.children w) = M (.children w) ++ [l] := by
    rw [Function.update_same]
  refine ⟨t, _, _, hinner t e, fun k => ?_, hS', hwN, hM1, hM2, by rw [hP]; simp, ?_,
    hK.Value⟩
  · rw [consolidate.loop]
    simp only [hr, hne, if_false, hinner t e k, Res.bind]
  · rw [Degree_eq_length hS'.lists hwN, Degree_eq_length hS.lists hwN, hM2]
    simp

theorem consolidate_link_step {s : Store D} {f : Nat} {N : List Nat} {M : ListRef → List Nat}
    {H : Nat → Nat} {ranks : Int → Option Nat} {curr rank : Nat}
    (hS : Shape s f N M H) (hc : curr ∈ M (.trees f)) (hk : rank ∈ M (.trees f))
    (hne : rank ≠ curr) (hr : ranks (Node.Degree curr s) = some rank) :
    ∃ t w l M' H',
      (w, l) = (if s.Value curr ≤ s.Value rank then (curr, rank) else (rank, curr)) ∧
      ¬ s.Value l < s.Value w ∧
      (s.Value curr ≠ Val.nan → s.Value rank ≠ Val.nan → s.Value w ≤ s.Value l) ∧
      l ∈ M (.trees f) ∧
      (∀ k, consolidate.inner f (Node.Degree curr s) (k + 2) ranks curr s =
        .ok t (Function.update ranks (Node.Degree curr s) none, w)) ∧
      (∀ k, consolidate.loop f (k + 3) ranks (some curr) s =
        consolidate.loop f (k + 2) (Function.update ranks (Node.Degree curr s) none)
          (some w) t) ∧
      Shape t f N M' H' ∧ w ∈ N ∧
      M' (.trees f) = (M (.trees f)).erase l ∧
      M' (.children w) = M (.children w) ++ [l] ∧
      t.Parent l = some w ∧ Node.Degree w t = Node.Degree w s + 1 ∧ t.Value = s.Value := by
  by_cases hv : s.Value curr ≤ s.Value rank
  · obtain ⟨t, M', H', h⟩ := link_step_aux (w := curr) (l := rank) hS hne hr hc hk
      (Ne.symm hne) (by
        intro t e k
        rw [consolidate.inner]
        simp only [hr, hv, if_true, e, Res.bind]
        rw [consolidate.inner]
        simp)
    exact ⟨t, curr, rank, M', H', by rw [if_pos hv], Val_not_lt_of_le hv, fun _ _ => hv, hk, h⟩
  · obtain ⟨t, M', H', h⟩ := link_step_aux (w := rank) (l := curr) hS hne hr hk hc hne (by
        intro t e k
        rw [consolidate.inner]
        simp only [hr, hv, if_false, e, Res.bind]
        rw [consolidate.inner]
        simp)
    exact ⟨t, rank, curr, M', H', by rw [if_neg hv], fun hlt => hv (Val_le_of_lt hlt),
      fun h1 h2 => Val_le_of_lt (Val_lt_of_not_le h1 h2 hv), hc, h⟩

/-- C19: in a well-formed heap state, when `consolidate` scans the root `curr` and the
degree map holds another root `rank` under the degree of `curr`, the winner `w` is `curr`
if `curr.Value <= rank.Value` (so also on a tie) and `rank` otherwise (so also when a key
is `NaN`), the loser `l` is the other one, whose key is never below the winner's and, when
neither key is `NaN`, is at least the winner's; the linking step returns, the top-level list is then the old one without `l`, in
the same order, the `Children` list of `w` is the old one followed by `l`, `l.Parent` is
`w`, the degree of `w` is one more, no `Value` changed, and the loop goes on with `curr = w`
and the entry of the old degree cleared. -/
theorem consolidate_link_rule {s : Store D} {f : Nat} {ranks : Int → Option Nat}
    {curr rank : Nat} (h : WellFormed s f) (hc : IsRootOf s f curr)
    (hk : IsRootOf s f rank) (hne : rank ≠ curr)
    (hr : ranks (Node.Degree curr s) = some rank) :
    ∃ t w l R C,
      (w, l) = (if s.Value curr ≤ s.Value rank then (curr, rank) else (rank, curr)) ∧
      ¬ s.Value l < s.Value w ∧
      (s.Value curr ≠ Val.nan → s.Value rank ≠ Val.nan → s.Value w ≤ s.Value l) ∧
      (∀ k, consolidate.inner f (Node.Degree curr s) (k + 2) ranks curr s =
        .ok t (Function.update ranks (Node.Degree curr s) none, w)) ∧
      (∀ k, consolidate.loop f (k + 3) ranks (some curr) s =
        consolidate.loop f (k + 2) (Function.update ranks (Node.Degree curr s) none)
          (some w) t) ∧
      IsList s (.trees f) R ∧ IsList s (.children w) C ∧
      IsList t (.trees f) (R.erase l) ∧ IsList t (.children w) (C ++ [l]) ∧
      t.Parent l = some w ∧ Node.Degree w t = Node.Degree w s + 1 ∧ t.Value = s.Value ∧
      WellFormed t f := by
  obtain ⟨N, M, H, hS⟩ := h
  obtain ⟨t, w, l, M', H', hp, hv, hv', -, hin, hlo, hS', hwN, hM1, hM2, hP, hdeg, hV⟩ :=
    consolidate_link_step hS ((IsRootOf_mem hS).1 hc) ((IsRootOf_mem hS).1 hk) hne hr
  refine ⟨t, w, l, M (.trees f), M (.children w), hp, hv, hv', hin, hlo,
    hS.lists.isList (.trees f) rfl, hS.lists.isList (.children w) hwN, ?_, ?_, hP, hdeg, hV,
    ⟨N, M', H', hS'⟩⟩
  · rw [← hM1]
    exact hS'.lists.isList (.trees f) rfl
  · rw [← hM2]
    exact hS'.lists.isList (.children w) hwN

theorem consolidate_link_rule_witness :
    WellFormed exTwo 0 ∧ IsRootOf exTwo 0 1 ∧ IsRootOf exTwo 0 0 ∧ 0 ≠ 1 ∧
      (fun _ => some 0) (Node.Degree 1 exTwo) = some 0 ∧
      ∃ t w l R C,
        (w, l) = (if exTwo.Value 1 ≤ exTwo.Value 0 then (1, 0) else (0, 1)) ∧
        ¬ exTwo.Value l < exTwo.Value w ∧
        (exTwo.Value 1 ≠ Val.nan → exTwo.Value 0 ≠ Val.nan →
          exTwo.Value w ≤ exTwo.Value l) ∧
        (∀ k, consolidate.inner 0 (Node.Degree 1 exTwo) (k + 2) (fun _ => some 0) 1 exTwo =
          .ok t (Function.update (fun _ => some 0) (Node.Degree 1 exTwo) none, w)) ∧
        (∀ k, consolidate.loop 0 (k + 3) (fun _ => some 0) (some 1) exTwo =
          consolidate.loop 0 (k + 2)
            (Function.update (fun _ => some 0) (Node.Degree 1 exTwo) none) (some w) t) ∧
        IsList exTwo (.trees 0) R ∧ IsList exTwo (.children w) C ∧
        IsList t (.trees 0) (R.erase l) ∧ IsList t (.children w) (C ++ [l]) ∧
        t.Parent l = some w ∧ Node.Degree w t = Node.Degree w exTwo + 1 ∧
        t.Value = exTwo.Value ∧ WellFormed t 0 :=
  ⟨Reachable_wellFormed exTwo_reachable (List.mem_singleton.2 rfl),
    InList.tail 0 1 (InList.head 1), InList.head 0, by decide, rfl,
    consolidate_link_rule (Reachable_wellFormed exTwo_reachable (List.mem_singleton.2 rfl))
      (InList.tail 0 1 (InList.head 1)) (InList.head 0) (by decide) rfl⟩

/-- C20: in a well-formed heap state `consolidate` returns, given enough fuel; its loop
returns a degree map in which every top-level root is recorded under its degree; an
iteration at a root `curr`, with a map whose entries are roots, either goes on at
`curr.Next` with `curr` recorded and the store as it was, or goes on in a well-formed state
with one top-level root less; and `upCut` on a node of the heap returns, given enough
fuel. -/
theorem consolidate_terminates {s : Store D} {f : Nat} (h : WellFormed s f) :
    (∃ K t, Runs (fun fuel => consolidate fuel f s) K t ()) ∧
    (∃ K t ranks, Runs (fun fuel => consolidate.loop f fuel (fun _ => none)
        (NodeList.Front (.trees f) s) s) K t ranks ∧
      WellFormed t f ∧ ∀ r, IsRootOf t f r → Recorded t ranks r) ∧
    (∀ ranks curr, IsRootOf s f curr → (∀ d r, ranks d = some r → IsRootOf s f r) →
      (∃ ranks', Recorded s ranks' curr ∧ ∀ k,
        consolidate.loop f (k + 1) ranks (some curr) s =
          consolidate.loop f k ranks' (s.Next curr) s) ∨
      (∃ t ranks' w, WellFormed t f ∧
        NodeList.Len (.trees f) t + 1 = NodeList.Len (.trees f) s ∧ ∀ k,
        consolidate.loop f (k + 3) ranks (some curr) s =
          consolidate.loop f (k + 2) ranks' (some w) t)) ∧
    (∀ n, Member s f n → ∃ K t, Runs (fun fuel => upCut f fuel n s) K t ()) := by
  obtain ⟨N, M, H, hS⟩ := h
  refine ⟨?_, ?_, ?_, ?_⟩
  · obtain ⟨K, t, M', H', hrun, -⟩ := consolidate_runs hS
    exact ⟨K, t, hrun⟩
  · have hC : CInv False s f N M H (fun _ => none) [] (M (.trees f)) []
        (M (.trees f)).tail :=
      ⟨hS, fun o => o.elim, fun o => o.elim, by simp, by simp, by simp, by simp, by simp,
        by simp [Recorded]⟩
    obtain ⟨K, t, M', H', ranks', hR, hC', -, -⟩ :=
      consolidate_loop_runs f N _ _ s M H _ _ _ _ _ hC rfl rfl
    have hfront : NodeList.Front (.trees f) s = (M (.trees f)).head? :=
      IsList_front_eq (hS.lists.isList _ rfl)
    rw [← hfront] at hR
    exact ⟨K, t, ranks', hR, ⟨N, M', H', hC'.shape⟩,
      fun r hr => hC'.recPre r ((IsRootOf_mem hC'.shape).1 hr)⟩
  · intro ranks curr hc hrk
    cases hr : ranks (Node.Degree curr s) with
    | none =>
      refine Or.inl ⟨Function.update ranks (Node.Degree curr s) (some curr), ?_, fun k => ?_⟩
      · simp [Recorded]
      · rw [consolidate.loop]
        simp only [hr]
    | some rank =>
      by_cases hne : rank = curr
      · refine Or.inl ⟨ranks, hne ▸ hr, fun k => ?_⟩
        rw [consolidate.loop]
        simp only [hr, hne, if_true]
      · obtain ⟨t, w, l, M', H', -, -, -, hl, -, hlo, hS', -, hM1, -⟩ :=
          consolidate_link_step hS ((IsRootOf_mem hS).1 hc)
            ((IsRootOf_mem hS).1 (hrk _ _ hr)) hne hr
        refine Or.inr ⟨t, _, w, ⟨N, M', H', hS'⟩, ?_, hlo⟩
        show (t.lists (.trees f)).length + 1 = (s.lists (.trees f)).length
        rw [(hS'.lists.isList (.trees f) rfl).length, (hS.lists.isList (.trees f) rfl).length,
          hM1, List.length_erase_of_mem hl]
        have : 0 < (M (.trees f)).length := List.length_pos_of_mem hl
        omega
  · intro n hn
    obtain ⟨B, hB⟩ := exists_height_bound H N
    obtain ⟨K, t, M', hrun, -⟩ := upCut_runs hB B s M n hS ((Member_iff hS n).1 hn)
      (Nat.le_add_left _ _)
    exact ⟨K, t, hrun⟩

theorem consolidate_terminates_witness :
    WellFormed exThree 0 ∧
      ((∃ K t, Runs (fun fuel => consolidate fuel 0 exThree) K t ()) ∧
      (∃ K t ranks, Runs (fun fuel => consolidate.loop 0 fuel (fun _ => none)
          (NodeList.Front (.trees 0) exThree) exThree) K t ranks ∧
        WellFormed t 0 ∧ ∀ r, IsRootOf t 0 r → Recorded t ranks r) ∧
      (∀ ranks curr, IsRootOf exThree 0 curr →
        (∀ d r, ranks d = some r → IsRootOf exThree 0 r) →
        (∃ ranks', Recorded exThree ranks' curr ∧ ∀ k,
          consolidate.loop 0 (k + 1) ranks (some curr) exThree =
            consolidate.loop 0 k ranks' (exThree.Next curr) exThree) ∨
        (∃ t ranks' w, WellFormed t 0 ∧
          NodeList.Len (.trees 0) t + 1 = NodeList.Len (.trees 0) exThree ∧ ∀ k,
          consolidate.loop 0 (k + 3) ranks (some curr) exThree =
            consolidate.loop 0 (k + 2) ranks' (some w) t)) ∧
      (∀ n, Member exThree 0 n → ∃ K t, Runs (fun fuel => upCut 0 fuel n exThree) K t ())) :=
  ⟨Reachable_wellFormed exThree_reachable (List.mem_singleton.2 rfl),
    consolidate_terminates
      (Reachable_wellFormed exThree_reachable (List.mem_singleton.2 rfl))⟩


/-! ## The cascade of cuts -/

theorem CutChain_transfer {s : Store D} {f : Nat} {N : List Nat} {M : ListRef → List Nat}
    {H : Nat → Nat} {parent : Nat → Option Nat} {marked : Nat → Bool} {n : Nat}
    (hS : Shape s f N M H)
    (hP : ∀ x, x ≠ n → parent x = s.Parent x) (hM : ∀ x, x ≠ n → marked x = s.Marked x)
    {a : Nat} {cs : List Nat} {e : Nat} (h : CutChain s.Parent s.Marked a cs e) :
    a ∈ N → H n < H a → CutChain parent marked a cs e := by
  induction h with
  | root a hp =>
    intro _ hh
    have hne : a ≠ n := fun e => by rw [e] at hh; exact Nat.lt_irrefl _ hh
    exact CutChain.root a (by rw [hP a hne]; exact hp)
  | unmarked a q hp hm =>
    intro _ hh
    have hne : a ≠ n := fun e => by rw [e] at hh; exact Nat.lt_irrefl _ hh
    exact CutChain.unmarked a q (by rw [hP a hne]; exact hp) (by rw [hM a hne]; exact hm)
  | marked a q cs e hp hm _ ih =>
    intro ha hh
    have hne : a ≠ n := fun e => by rw [e] at hh; exact Nat.lt_irrefl _ hh
    have hq := (Lists_parent_mem hS.lists ha hp).1
    have hlt := hS.height a ha q hp
    exact CutChain.marked a q cs e (by rw [hP a hne]; exact hp) (by rw [hM a hne]; exact hm)
      (ih hq (by omega))

theorem upCut_detail {f : Nat} {N : List Nat} {H : Nat → Nat} {B : Nat}
    (hB : ∀ x ∈ N, H x < B) :
    ∀ (k : Nat) (s : Store D) (M : ListRef → List Nat) (n : Nat),
      Shape s f N M H → n ∈ N → B ≤ H n + k →
      ∃ K t M' cs e, Runs (fun fuel => upCut f fuel n s) K t () ∧ Shape t f N M' H ∧
        Keeps s t ∧ CutChain s.Parent s.Marked n cs e ∧
        (∀ x ∈ cs, x ∈ N ∧ H n ≤ H x) ∧ (e ∈ N ∧ H n ≤ H e) ∧ e ∉ cs ∧
        M' (.trees f) = M (.trees f) ++ cs ∧
        (∀ x ∈ cs, t.Parent x = none ∧ t.Marked x = false) ∧
        (∀ x, x ∉ cs → t.Parent x = s.Parent x) ∧
        (∀ x, x ∉ cs → x ≠ e → t.Marked x = s.Marked x) ∧
        (s.Parent e = none → t.Marked e = s.Marked e) ∧
        (s.Parent e ≠ none → t.Marked e = true) := by
  intro k
  induction k with
  | zero => intro s M n _ hn hk; have := hB n hn; omega
  | succ k ih =>
    intro s M n h hn hk
    cases hp : s.Parent n with
    | none =>
      refine ⟨1, s, M, [], n, ?_, h, Keeps_refl s, CutChain.root n hp, by simp,
        ⟨hn, le_refl _⟩, by simp, by simp, by simp, fun _ _ => rfl, fun _ _ _ => rfl,
        fun _ => rfl, fun hne => (hne hp).elim⟩
      intro fuel
      cases fuel with
      | zero => simp [upCut]
      | succ j => simp [upCut, Node.IsRoot, hp]
    | some p =>
      by_cases hm : s.Marked n = true
      · obtain ⟨t1, e1, hS1, hP1, hM1, hK1, -⟩ := cut_shape h hn hp
        have hpN := (Lists_parent_mem h.lists hn hp).1
        have hh := h.height n hn p hp
        obtain ⟨K, t, M', cs, e, hR, hS, hK, hC, hcs, he, hecs, hMt, hin, hout, hmk, her,
          hen⟩ := ih t1 _ p hS1 hpN (by omega)
        have hncs : n ∉ cs := fun hx => by
          have := (hcs n hx).2
          omega
        have hne : n ≠ e := fun hx => by
          have := he.2
          rw [← hx] at this
          omega
        have hC' : CutChain s.Parent s.Marked p cs e :=
          CutChain_transfer hS1 (fun x hx => by rw [hP1, Function.update_noteq hx])
            (fun x hx => by rw [hM1, Function.update_noteq hx]) hC hpN hh
        refine ⟨K + 1, t, M', n :: cs, e, ?_, hS, Keeps_trans hK1 hK,
          CutChain.marked n p cs e hp hm hC', ?_, ⟨he.1, by omega⟩, ?_, ?_, ?_, ?_, ?_, ?_,
          ?_⟩
        · refine Runs_succ rfl (fun j => ?_) hR
          simp [upCut, Node.IsRoot, hp, hm, e1]
        · intro x hx
          rcases List.mem_cons.1 hx with rfl | hx
          · exact ⟨hn, le_refl _⟩
          · exact ⟨(hcs x hx).1, by have := (hcs x hx).2; omega⟩
        · intro hx
          rcases List.mem_cons.1 hx with hx | hx
          · exact hne hx.symm
          · exact hecs hx
        · rw [hMt, Function.update_same, List.append_assoc]
          rfl
        · intro x hx
          rcases List.mem_cons.1 hx with rfl | hx
          · rw [hout x hncs, hmk x hncs hne, hP1, hM1]
            simp
          · exact hin x hx
        · intro x hx
          have h1 : x ≠ n := fun e => hx (e ▸ List.mem_cons_self _ _)
          have h2 : x ∉ cs := fun e => hx (List.mem_cons_of_mem _ e)
          rw [hout x h2, hP1, Function.update_noteq h1]
        · intro x hx hxe
          have h1 : x ≠ n := fun e => hx (e ▸ List.mem_cons_self _ _)
          have h2 : x ∉ cs := fun e => hx (List.mem_cons_of_mem _ e)
          rw [hmk x h2 hxe, hM1, Function.update_noteq h1]
        · intro hpe
          rw [her (by rw [hP1, Function.update_noteq (Ne.symm hne)]; exact hpe), hM1,
            Function.update_noteq (Ne.symm hne)]
        · intro hpe
          exact hen (by rw [hP1, Function.update_noteq (Ne.symm hne)]; exact hpe)
      · have hm' : s.Marked n = false := by simpa using hm
        refine ⟨1, s.setMarked n true, M, [], n, ?_, ?_, ⟨rfl, rfl, rfl, rfl, rfl, rfl⟩,
          CutChain.unmarked n p hp hm', by simp, ⟨hn, le_refl _⟩, by simp, by simp, by simp,
          fun _ _ => rfl, ?_, ?_, ?_⟩
        · intro fuel
          cases fuel with
          | zero => simp [upCut]
          | succ j => simp [upCut, Node.IsRoot, hp, hm']
        · refine ⟨Lists_congr h.lists rfl rfl rfl rfl, h.height, ?_⟩
          intro x hx
          have hxn : x ≠ n := by
            rintro rfl
            rw [Lists_own_trees h.lists hx] at hp; cases hp
          simp only [Store.setMarked, Function.update_noteq hxn]
          exact h.unmarked x hx
        · intro x _ hxn
          simp [Function.update_noteq hxn]
        · intro hpe
          rw [hp] at hpe
          cases hpe
        · intro _
          simp

theorem DecreaseKey_compose {s : Store D} {f n : Nat} {v : Val} (hv : v ≤ s.Value n)
    {K2 : Nat} {t2 : Store D} {R : List Nat}
    (hR2 : Runs (fun fuel =>
        (if Node.IsRoot n (s.setValue n v) then (Res.ok (s.setValue n v) () : Res D Unit) else
          match (s.setValue n v).Parent n with
          | none => .crash (s.setValue n v)
          | some p =>
            if (s.setValue n v).Value n < (s.setValue n v).Value p then
              (cut f n (s.setValue n v)).bind fun s _ => upCut f fuel p s
            else .ok (s.setValue n v) ())) K2 t2 ())
    (hl : IsList t2 (.trees f) R) :
    ∃ K r, Runs (fun fuel => DecreaseKey fuel f n v s) K (t2.setMin f r) n := by
  have hguard : ¬ (v > s.Value n) := Val_not_lt_of_le hv
  obtain ⟨r, hR3, -⟩ := resetMin_runs hl
  have hrun0 := Runs_bind (k := fun fuel s (_ : Unit) =>
      (resetMin fuel f s).bind fun s _ => Res.ok s n) hR2
    (Runs_bind (k := fun _ s (_ : Unit) => Res.ok s n) hR3 (Runs_const (fun _ => rfl)))
  exact ⟨_, r, Runs_congr hrun0 (fun fuel => by
    show DecreaseKey fuel f n v s = _
    unfold DecreaseKey
    exact (if_neg hguard).trans rfl)⟩

theorem DecreaseKey_detail {s : Store D} {f : Nat} {N : List Nat} {M : ListRef → List Nat}
    {H : Nat → Nat} {n : Nat} {v : Val} (h : Shape s f N M H) (hn : n ∈ N)
    (hv : v ≤ s.Value n) :
    ∃ K t, Runs (fun fuel => DecreaseKey fuel f n v s) K t n ∧
      (∀ p, s.Parent n = some p → v < s.Value p →
        ∃ cs e M', CutChain s.Parent s.Marked p cs e ∧ Shape t f N M' H ∧
          M' (.trees f) = M (.trees f) ++ n :: cs ∧
          (∀ x ∈ n :: cs, t.Parent x = none ∧ t.Marked x = false) ∧ e ∉ n :: cs ∧
          e ∈ N ∧ (s.Parent e = none → t.Marked e = s.Marked e) ∧
          (s.Parent e ≠ none → t.Marked e = true) ∧
          (∀ x, x ∉ n :: cs → t.Parent x = s.Parent x) ∧
          (∀ x, x ∉ n :: cs → x ≠ e → t.Marked x = s.Marked x)) ∧
      ((s.Parent n = none ∨ ∃ p, s.Parent n = some p ∧ ¬ v < s.Value p) →
        t.Parent = s.Parent ∧ t.Marked = s.Marked ∧ t.lists = s.lists ∧
        t.Next = s.Next ∧ t.prev = s.prev) := by
  have hS1 : Shape (s.setValue n v) f N M H := Shape_congr h rfl rfl rfl rfl rfl
  have hl1 := hS1.lists.isList (.trees f) rfl
  -- the calls that cut nothing
  have hplain : (s.Parent n = none ∨ ∃ p, s.Parent n = some p ∧ ¬ v < s.Value p) →
      ∃ K r, Runs (fun fuel => DecreaseKey fuel f n v s) K ((s.setValue n v).setMin f r) n := by
    intro hc
    refine DecreaseKey_compose hv (Runs_const (fun fuel => ?_)) hl1
    rcases hc with hp | ⟨p, hp, hle⟩
    · have : Node.IsRoot n (s.setValue n v) = true := by simp [Node.IsRoot, hp]
      rw [if_pos this]
    · have hroot : Node.IsRoot n (s.setValue n v) = false := by simp [Node.IsRoot, hp]
      have hp1 : (s.setValue n v).Parent n = some p := hp
      have hpn : p ≠ n := by
        rintro rfl
        exact Nat.lt_irrefl _ (h.height p hn p hp)
      have hlt : ¬ (s.setValue n v).Value n < (s.setValue n v).Value p := by
        simp only [Store.setValue, Function.update_same, Function.update_noteq hpn]
        exact hle
      rw [if_neg (by rw [hroot]; decide), hp1]
      dsimp only
      rw [if_neg hlt]
  by_cases hc : s.Parent n = none ∨ ∃ p, s.Parent n = some p ∧ ¬ v < s.Value p
  · obtain ⟨K, r, hrun⟩ := hplain hc
    refine ⟨K, _, hrun, ?_, fun _ => ⟨rfl, rfl, rfl, rfl, rfl⟩⟩
    intro p hp hlt
    rcases hc with hp' | ⟨q, hq, hle⟩
    · rw [hp'] at hp; cases hp
    · rw [hq] at hp
      cases hp
      exact (hle hlt).elim
  · obtain ⟨p, hp⟩ : ∃ p, s.Parent n = some p := by
      cases hp : s.Parent n with
      | none => exact (hc (Or.inl hp)).elim
      | some p => exact ⟨p, rfl⟩
    · have hlt0 : v < s.Value p := by
        by_contra hx
        exact hc (Or.inr ⟨p, hp, hx⟩)
      have hroot : Node.IsRoot n (s.setValue n v) = false := by simp [Node.IsRoot, hp]
      have hp1 : (s.setValue n v).Parent n = some p := hp
      have hpN := (Lists_parent_mem h.lists hn hp).1
      have hh := h.height n hn p hp
      have hpn : p ≠ n := by
        rintro rfl
        exact Nat.lt_irrefl _ hh
      have hlt : (s.setValue n v).Value n < (s.setValue n v).Value p := by
        simp only [Store.setValue, Function.update_same, Function.update_noteq hpn]
        exact hlt0
      obtain ⟨t1, e1, hSc, hPc, hMc, -, -⟩ := cut_shape hS1 hn hp1
      obtain ⟨B, hB⟩ := exists_height_bound H N
      obtain ⟨K, t2, M2, cs, e, hR, hS2, -, hC, hcs, he, hecs, hMt, hin, hout, hmk, her,
        hen⟩ := upCut_detail hB B t1 _ p hSc hpN (by omega)
      have hncs : n ∉ cs := fun hx => by
        have := (hcs n hx).2
        omega
      have hne : n ≠ e := fun hx => by
        have := he.2
        rw [← hx] at this
        omega
      have hC' : CutChain s.Parent s.Marked p cs e :=
        CutChain_transfer hSc
          (fun x hx => by rw [hPc, Function.update_noteq hx]; rfl)
          (fun x hx => by rw [hMc, Function.update_noteq hx]; rfl) hC hpN hh
      obtain ⟨Kx, r, hrun⟩ := DecreaseKey_compose hv
        (Runs_congr hR (fun fuel => by
          rw [if_neg (by rw [hroot]; decide), hp1]
          dsimp only
          rw [if_pos hlt, e1]
          rfl)) (hS2.lists.isList (.trees f) rfl)
      refine ⟨Kx, _, hrun, ?_, fun hx => (hc hx).elim⟩
      intro p' hp' _
      rw [hp] at hp'
      cases hp'
      refine ⟨cs, e, M2, hC', Shape_congr hS2 rfl rfl rfl rfl rfl, ?_, ?_, ?_, he.1, ?_, ?_, ?_,
        ?_⟩
      · rw [hMt, Function.update_same, List.append_assoc]
        rfl
      · intro x hx
        show t2.Parent x = none ∧ t2.Marked x = false
        rcases List.mem_cons.1 hx with rfl | hx
        · rw [hout x hncs, hmk x hncs hne, hPc, hMc]
          simp
        · exact hin x hx
      · intro hx
        rcases List.mem_cons.1 hx with hx | hx
        · exact hne hx.symm
        · exact hecs hx
      · intro hpe
        show t2.Marked e = s.Marked e
        rw [her (by rw [hPc, Function.update_noteq (Ne.symm hne)]; exact hpe), hMc,
          Function.update_noteq (Ne.symm hne)]
        rfl
      · intro hpe
        exact hen (by rw [hPc, Function.update_noteq (Ne.symm hne)]; exact hpe)
      · intro x hx
        have h1 : x ≠ n := fun e => hx (e ▸ List.mem_cons_self _ _)
        have h2 : x ∉ cs := fun e => hx (List.mem_cons_of_mem _ e)
        show t2.Parent x = s.Parent x
        rw [hout x h2, hPc, Function.update_noteq h1]
        rfl
      · intro x hx hxe
        have h1 : x ≠ n := fun e => hx (e ▸ List.mem_cons_self _ _)
        have h2 : x ∉ cs := fun e => hx (List.mem_cons_of_mem _ e)
        show t2.Marked x = s.Marked x
        rw [hmk x h2 hxe, hMc, Function.update_noteq h1]
        rfl

/-- C16: on a live heap of a store reached by successful calls, `DecreaseKey(n, v)` with
`v ≤ n.Value` on a node `n` of the heap returns, given enough fuel.  If `n` has a parent `p`
and `v < p.Value`, let `cs` be the marked non-root nodes on the way up from `p` and `e` the
first node on that way that is a root or unmarked: the top-level list is then the old one
followed by `n` and `cs`, in that order; `n` and the nodes of `cs` have `Parent` nil and
`Marked` false and are in no `Children` list; `e` is marked if it has a parent and unmarked
if it is a root; every other node has its `Parent` and its mark.  If `n` is a root or
`v < p.Value` is false (so when `v ≥ p.Value`, and also when `p.Value` is `NaN`), no
`Parent`, mark, list object or link changes. -/
theorem decreaseKey_cut_cascade {s : Store D} {L : List Nat} {f n : Nat} {v : Val}
    (hr : Reachable s L) (hf : f ∈ L) (hn : Member s f n) (hv : v ≤ s.Value n) :
    ∃ K t, Runs (fun fuel => DecreaseKey fuel f n v s) K t n ∧
      (∀ p, s.Parent n = some p → v < s.Value p →
        ∃ cs e R, CutChain s.Parent s.Marked p cs e ∧
          IsList s (.trees f) R ∧ IsList t (.trees f) (R ++ n :: cs) ∧
          (∀ x ∈ n :: cs, t.Parent x = none ∧ t.Marked x = false ∧
            ∀ q, Member s f q → ¬ InList t (NodeList.Front (.children q) t) x) ∧
          e ∉ n :: cs ∧
          (s.Parent e = none → t.Marked e = false) ∧
          (s.Parent e ≠ none → t.Marked e = true) ∧
          (∀ x, x ∉ n :: cs → t.Parent x = s.Parent x) ∧
          (∀ x, x ∉ n :: cs → x ≠ e → t.Marked x = s.Marked x)) ∧
      ((s.Parent n = none ∨ ∃ p, s.Parent n = some p ∧ ¬ v < s.Value p) →
        t.Parent = s.Parent ∧ t.Marked = s.Marked ∧ t.lists = s.lists ∧
        t.Next = s.Next ∧ t.prev = s.prev) := by
  obtain ⟨N, M, H, hI, -, hM⟩ := Reachable_heap hr hf
  have hS := hI.shape
  obtain ⟨K, t, hrun, hcut, hplain⟩ := DecreaseKey_detail hS ((hM n).1 hn) hv
  refine ⟨K, t, hrun, ?_, hplain⟩
  intro p hp hlt
  obtain ⟨cs, e, M', hC, hS', hMt, hin, he, heN, her, hen, hout, hmk⟩ := hcut p hp hlt
  refine ⟨cs, e, M (.trees f), hC, hS.lists.isList (.trees f) rfl, ?_, ?_, he, ?_, hen, hout,
    hmk⟩
  · rw [← hMt]
    exact hS'.lists.isList (.trees f) rfl
  · intro x hx
    refine ⟨(hin x hx).1, (hin x hx).2, ?_⟩
    intro q hq hxq
    have hqN := (hM q).1 hq
    have hmem := InList_mem hxq (hS'.lists.isList (.children q) hqN).seg
    have hown := (hS'.lists.memIn (.children q) hqN x hmem).2
    unfold own at hown
    rw [(hin x hx).1] at hown
    cases hown
  · intro hpe
    rw [her hpe]
    exact hS.unmarked e (Lists_root_mem hS.lists heN hpe)

theorem decreaseKey_cut_cascade_witness :
    Reachable exTree [0] ∧ 0 ∈ [0] ∧ Member exTree 0 0 ∧ Val.fin 0 ≤ exTree.Value 0 ∧
      exTree.Parent 0 = some 2 ∧ Val.fin 0 < exTree.Value 2 ∧
      ∃ K t, Runs (fun fuel => DecreaseKey fuel 0 0 (Val.fin 0) exTree) K t 0 ∧
        (∀ p, exTree.Parent 0 = some p → Val.fin 0 < exTree.Value p →
          ∃ cs e R, CutChain exTree.Parent exTree.Marked p cs e ∧
            IsList exTree (.trees 0) R ∧ IsList t (.trees 0) (R ++ 0 :: cs) ∧
            (∀ x ∈ 0 :: cs, t.Parent x = none ∧ t.Marked x = false ∧
              ∀ q, Member exTree 0 q → ¬ InList t (NodeList.Front (.children q) t) x) ∧
            e ∉ 0 :: cs ∧
            (exTree.Parent e = none → t.Marked e = false) ∧
            (exTree.Parent e ≠ none → t.Marked e = true) ∧
            (∀ x, x ∉ 0 :: cs → t.Parent x = exTree.Parent x) ∧
            (∀ x, x ∉ 0 :: cs → x ≠ e → t.Marked x = exTree.Marked x)) ∧
        ((exTree.Parent 0 = none ∨ ∃ p, exTree.Parent 0 = some p ∧
            ¬ Val.fin 0 < exTree.Value p) →
          t.Parent = exTree.Parent ∧ t.Marked = exTree.Marked ∧ t.lists = exTree.lists ∧
          t.Next = exTree.Next ∧ t.prev = exTree.prev) :=
  ⟨exTree_reachable, List.mem_singleton.2 rfl, exTree_member_zero, by decide, rfl, by decide,
    decreaseKey_cut_cascade exTree_reachable (List.mem_singleton.2 rfl) exTree_member_zero
      (by decide)⟩

end FiboHeap
